import Mathlib

/-!
# KiCad action manager: registry, hotkey table and hotkey dispatch

A shallow embedding of `common/tool/action_manager.cpp`, and of the dynamic
ratsnest code, the footprint placement loop, the zone merge, the track and via
stepping and the locking of `pcbnew/tools/pcb_editor_control.cpp`.

* `std::string` is the list of its characters; `std::less<std::string>` is the
  lexicographic order on such lists.
* `std::map<K,V>` is an association list kept in strictly ascending key order;
  the functions below are the member functions the source calls.
* A `TOOL_ACTION*` is an address (`Ptr`); the objects live in a store `heap`
  that is carried next to the three maps of the manager.
* `int` is `Int`; where the 32-bit width matters it is made explicit: the bit
  operations of `RunHotKey` work on the 32-bit pattern, and the increment of
  the id counter wraps around at `INT_MAX` (undefined behaviour in C++), so
  the statements about ids carry the bound under which no increment overflows.
* `wxASSERT` does not stop execution (it is compiled out of release builds and
  can be dismissed in debug builds), so every function with an assertion
  returns the state reached when execution continues together with a flag
  telling whether an assertion was violated.
-/

namespace KiCad

/-- A `std::string`. -/
abbrev std_string := List Char

/-- A `std::map<κ, ν>`: the entries in iteration order. -/
abbrev StdMap (κ ν : Type) := List (κ × ν)

namespace StdMap

variable {κ ν : Type} [LinearOrder κ]

/-- Member `find`: `none` stands for `end()`. -/
def find : StdMap κ ν → κ → Option ν
  | [], _ => none
  | (k', v) :: rest, k => if k' = k then some v else find rest k

/-- Member `count`: 0 or 1. -/
def count (m : StdMap κ ν) (k : κ) : Nat :=
  if (find m k).isSome then 1 else 0

/-- The statement `m[k] = v`: replaces the value of an existing key, otherwise
inserts the entry at its place in key order. -/
def assign : StdMap κ ν → κ → ν → StdMap κ ν
  | [], k, v => [(k, v)]
  | (k', v') :: rest, k, v =>
    if k < k' then (k, v) :: (k', v') :: rest
    else if k' < k then (k', v') :: assign rest k v
    else (k, v) :: rest

/-- The value read through `m[k]`: a missing key is created with the
value-initialised `dflt`. -/
def subscript (m : StdMap κ ν) (k : κ) (dflt : ν) : ν :=
  (find m k).getD dflt

/-- Member `erase( key )`. -/
def erase (m : StdMap κ ν) (k : κ) : StdMap κ ν :=
  m.filter (fun e => decide (e.1 ≠ k))

/-- The keys are strictly ascending: the shape every `std::map` has. -/
def Ordered (m : StdMap κ ν) : Prop :=
  m.Pairwise (fun a b => a.1 < b.1)

end StdMap

/-- Modelled from the spec: the enumeration `TOOL_ACTION_SCOPE` of
`tool/tool_action.h` (absent); the spec gives the two scopes `Global` and
`Context`, the source only tests for `AS_GLOBAL`. -/
inductive TOOL_ACTION_SCOPE where
  | AS_CONTEXT
  | AS_GLOBAL
  deriving DecidableEq

open TOOL_ACTION_SCOPE

/-- Modelled from the spec: the class `TOOL_ACTION` of `tool/tool_action.h`
(absent), reduced to the members `action_manager.cpp` reads or writes. -/
structure TOOL_ACTION where
  m_name : std_string
  m_scope : TOOL_ACTION_SCOPE
  m_defaultHotKey : Int
  m_hotKey : Int
  m_legacyName : std_string
  m_id : Int
  deriving DecidableEq

/-- The address of a `TOOL_ACTION` object. -/
abbrev Ptr := Nat

/-- The manager: its three maps, and the store its `TOOL_ACTION*` refer to.
`heapNext` is the first address `new` has not handed out yet. -/
structure ACTION_MANAGER where
  heap : Ptr → TOOL_ACTION
  heapNext : Ptr
  m_actionNameIndex : StdMap std_string Ptr
  m_actionHotKeys : StdMap Int (List Ptr)
  m_hotkeys : StdMap Int Int

/-- An `int` read as the 32-bit pattern it is stored as. -/
def toUnsigned (x : Int) : Nat := (x % 4294967296).toNat

/-- A 32-bit pattern read as an `int`. -/
def toSigned (n : Nat) : Int :=
  if n < 2147483648 then (n : Int) else (n : Int) - 4294967296

/-- What a function containing `wxASSERT`s leaves behind. -/
structure Asserted (σ : Type) where
  assertFailed : Bool
  val : σ

namespace ACTION_MANAGER

/-- The members before the constructor body runs: three empty maps. -/
def empty (heap : Ptr → TOOL_ACTION) (heapNext : Ptr) : ACTION_MANAGER :=
  { heap := heap, heapNext := heapNext, m_actionNameIndex := [], m_actionHotKeys := [],
    m_hotkeys := [] }

/-- Expression `new TOOL_ACTION( a )`: the copy is stored at a fresh address. -/
def new (m : ACTION_MANAGER) (a : TOOL_ACTION) : Ptr × ACTION_MANAGER :=
  (m.heapNext, { m with heap := Function.update m.heap m.heapNext a, heapNext := m.heapNext + 1 })

/-- The test `aAction->GetName().find( '.', 0 ) != std::string::npos`. -/
def hasDot (name : std_string) : Bool :=
  name.contains '.'

/-- Member `ACTION_MANAGER::FindAction`: `none` stands for `NULL`. -/
def FindAction (m : ACTION_MANAGER) (aActionName : std_string) : Option Ptr :=
  StdMap.find m.m_actionNameIndex aActionName

/-- Member `ACTION_MANAGER::RegisterAction`. The flag is set when one of the two
assertions (qualified name, name not yet registered) is violated; the
assignment to the name index is executed in either case. -/
def RegisterAction (m : ACTION_MANAGER) (aAction : Ptr) : Asserted ACTION_MANAGER :=
  let name := (m.heap aAction).m_name
  { assertFailed := !(hasDot name) || !(StdMap.find m.m_actionNameIndex name).isNone
    val := { m with m_actionNameIndex := StdMap.assign m.m_actionNameIndex name aAction } }

/-- Member `ACTION_MANAGER::GetHotKey`. -/
def GetHotKey (m : ACTION_MANAGER) (aAction : Ptr) : Int :=
  match StdMap.find m.m_hotkeys (m.heap aAction).m_id with
  | none => 0
  | some k => k

/-- Member `ACTION_MANAGER::UnregisterAction`. `m_actionHotKeys[hotkey]` creates an
empty bucket when the key has none; `std::find` + `erase` removes the first
occurrence of the pointer. -/
def UnregisterAction (m : ACTION_MANAGER) (aAction : Ptr) : ACTION_MANAGER :=
  let index := StdMap.erase m.m_actionNameIndex (m.heap aAction).m_name
  let hotkey := GetHotKey m aAction
  if hotkey ≠ 0 then
    let actions := StdMap.subscript m.m_actionHotKeys hotkey []
    { m with m_actionNameIndex := index
             m_actionHotKeys := StdMap.assign m.m_actionHotKeys hotkey (actions.erase aAction) }
  else
    { m with m_actionNameIndex := index }

/-- Member `ACTION_MANAGER::MakeActionId`, `return currentActionId++`: the
returned id and the new value of the function-local `static int
currentActionId` (which starts at 1). The counter is a 32-bit `int`: at
`INT_MAX` = 2147483647 the increment overflows, which is undefined behaviour;
here it wraps around to `INT_MIN` as the stored 32-bit pattern does. -/
def MakeActionId (_aActionName : std_string) (currentActionId : Int) : Int × Int :=
  (currentActionId, toSigned (toUnsigned (currentActionId + 1)))

/-- Member `ACTION_MANAGER::processHotKey`: writes `m_hotKey` of the action and
returns it. The two maps are passed by value, so `operator[]` on them has no
outside effect. -/
def processHotKey (heap : Ptr → TOOL_ACTION) (aAction : Ptr)
    (aLegacyMap aHotKeyMap : StdMap std_string Int) : (Ptr → TOOL_ACTION) × Int :=
  let a := heap aAction
  let k₀ := a.m_defaultHotKey
  let k₁ :=
    if a.m_legacyName ≠ [] ∧ StdMap.count aLegacyMap a.m_legacyName ≠ 0 then
      StdMap.subscript aLegacyMap a.m_legacyName 0
    else k₀
  let k₂ :=
    if StdMap.count aHotKeyMap a.m_name ≠ 0 then StdMap.subscript aHotKeyMap a.m_name 0
    else k₁
  (Function.update heap aAction { a with m_hotKey := k₂ }, k₂)

/-- The test `( *it )->GetScope() == AS_GLOBAL`. -/
def isGlobal (heap : Ptr → TOOL_ACTION) (p : Ptr) : Bool :=
  decide ((heap p).m_scope = AS_GLOBAL)

/-- The body of the loop of `UpdateHotKeys` for one entry of the name index. -/
def updateHotKeysStep (legacyHotKeyMap userHotKeyMap : StdMap std_string Int)
    (m : ACTION_MANAGER) (action : Ptr) : ACTION_MANAGER :=
  let r := processHotKey m.heap action legacyHotKeyMap userHotKeyMap
  let heap := r.1
  let hotkey := r.2
  if hotkey ≤ 0 then
    { m with heap := heap }
  else
    let evicted :=
      if isGlobal heap action = true ∧ StdMap.count m.m_actionHotKeys hotkey ≠ 0 then
        StdMap.assign m.m_actionHotKeys hotkey
          ((StdMap.subscript m.m_actionHotKeys hotkey []).filter (fun q => !(isGlobal heap q)))
      else m.m_actionHotKeys
    { m with
      heap := heap
      m_actionHotKeys :=
        StdMap.assign evicted hotkey (StdMap.subscript evicted hotkey [] ++ [action])
      m_hotkeys := StdMap.assign m.m_hotkeys (heap action).m_id hotkey }

/-- The loop of `UpdateHotKeys` over (the rest of) the name index. -/
def updateHotKeysLoop (legacyHotKeyMap userHotKeyMap : StdMap std_string Int) :
    List (std_string × Ptr) → ACTION_MANAGER → ACTION_MANAGER
  | [], m => m
  | e :: rest, m =>
    updateHotKeysLoop legacyHotKeyMap userHotKeyMap rest
      (updateHotKeysStep legacyHotKeyMap userHotKeyMap m e.2)

/-- Member `ACTION_MANAGER::UpdateHotKeys`. The two maps are what
`ReadLegacyHotkeyConfig` and `ReadHotKeyConfig` deliver. -/
def UpdateHotKeys (m : ACTION_MANAGER) (legacyHotKeyMap userHotKeyMap : StdMap std_string Int) :
    ACTION_MANAGER :=
  updateHotKeysLoop legacyHotKeyMap userHotKeyMap m.m_actionNameIndex
    { m with m_actionHotKeys := [], m_hotkeys := [] }

/-- What the constructor leaves behind: the manager, the static action list
(whose entries got their ids assigned in place), the static id counter, the
values `MakeActionId` returned on the way (in call order), and whether a
`RegisterAction` assertion was violated. -/
structure Constructed where
  mgr : ACTION_MANAGER
  actionList : List TOOL_ACTION
  currentActionId : Int
  issued : List Int
  assertFailed : Bool

/-- The body of the loop of the constructor for one entry of
`GetActionList()`. -/
def ctorStep (r : Constructed) (action : TOOL_ACTION) : Constructed :=
  let ic :=
    if action.m_id = -1 then MakeActionId action.m_name r.currentActionId
    else (action.m_id, r.currentActionId)
  let action1 : TOOL_ACTION := { action with m_id := ic.1 }
  let pm := r.mgr.new action1
  let reg := RegisterAction pm.2 pm.1
  { mgr := reg.val
    actionList := r.actionList ++ [action1]
    currentActionId := ic.2
    issued := if action.m_id = -1 then r.issued ++ [ic.1] else r.issued
    assertFailed := r.assertFailed || reg.assertFailed }

/-- The loop of the constructor over (the rest of) `GetActionList()`. -/
def ctorLoop : List TOOL_ACTION → Constructed → Constructed
  | [], r => r
  | action :: rest, r => ctorLoop rest (ctorStep r action)

/-- Constructor `ACTION_MANAGER::ACTION_MANAGER`, run in a store `heap` whose
first free address is `heapNext`, on the static list `actionList` with the
static id counter at `currentActionId`. -/
def ctor (heap : Ptr → TOOL_ACTION) (heapNext : Ptr) (actionList : List TOOL_ACTION)
    (currentActionId : Int) : Constructed :=
  ctorLoop actionList
    { mgr := empty heap heapNext, actionList := [], currentActionId := currentActionId,
      issued := [], assertFailed := false }

end ACTION_MANAGER

/-! ## Hotkey dispatch -/

/-- Operator `a & b` on `int`. -/
def and32 (a b : Int) : Int := toSigned (toUnsigned a &&& toUnsigned b)

/-- Operator `a | b` on `int`. -/
def or32 (a b : Int) : Int := toSigned (toUnsigned a ||| toUnsigned b)

/-- Operator `~a` on `int`. -/
def not32 (a : Int) : Int := -a - 1

/-- Modelled from the spec: the two calls `RunHotKey` makes into the tool
registry of `tool/tool_manager.h` (absent): `FindTool(name) -> tool-or-none`
(here the id of the tool found) and `GetPriority(tool-id)`, an integer that is
negative for a tool that is not on the active stack. -/
structure TOOL_MANAGER where
  FindTool : std_string → Option Int
  GetPriority : Int → Int

/-- Modelled from the spec: what `RunHotKey` takes from headers that are
absent: the modifier constants of `tool/tool_event.h` and the accessor
`TOOL_ACTION::GetToolName` (the owning tool of an action). -/
structure HOTKEY_ENV where
  MD_MODIFIER_MASK : Int
  MD_SHIFT : Int
  GetToolName : TOOL_ACTION → std_string

/-- The locals of the candidate loop of `RunHotKey`, and whether the assertion
`global == NULL` was violated. -/
structure Candidates where
  highestPriority : Int
  context : Option Ptr
  global : Option Ptr
  assertFailed : Bool

/-- What `RunHotKey` does: the value returned, the calls
`m_toolMgr->RunAction( *action, flag )` made, and the assertion flag. -/
structure Dispatched where
  handled : Bool
  runAction : List (Ptr × Bool)
  assertFailed : Bool

namespace ACTION_MANAGER

/-- The body of the candidate loop of `RunHotKey` for one action of the bucket. -/
def runHotKeyStep (m : ACTION_MANAGER) (tm : TOOL_MANAGER) (env : HOTKEY_ENV)
    (s : Candidates) (action : Ptr) : Candidates :=
  if isGlobal m.heap action = true then
    { s with assertFailed := s.assertFailed || s.global.isSome, global := some action }
  else
    match tm.FindTool (env.GetToolName (m.heap action)) with
    | none => s
    | some toolId =>
      let priority := tm.GetPriority toolId
      if priority ≥ 0 ∧ priority > s.highestPriority then
        { s with highestPriority := priority, context := some action }
      else s

/-- The candidate loop of `RunHotKey` followed by the dispatch. -/
def runHotKeyBucket (m : ACTION_MANAGER) (tm : TOOL_MANAGER) (env : HOTKEY_ENV)
    (actions : List Ptr) : Dispatched :=
  let s := actions.foldl (runHotKeyStep m tm env)
    { highestPriority := -1, context := none, global := none, assertFailed := false }
  match s.context, s.global with
  | some context, _ => { handled := true, runAction := [(context, true)], assertFailed := s.assertFailed }
  | none, some global => { handled := true, runAction := [(global, true)], assertFailed := s.assertFailed }
  | none, none => { handled := false, runAction := [], assertFailed := s.assertFailed }

/-- Member `ACTION_MANAGER::RunHotKey`. -/
def RunHotKey (m : ACTION_MANAGER) (tm : TOOL_MANAGER) (env : HOTKEY_ENV) (aHotKey : Int) :
    Dispatched :=
  let key₀ := and32 aHotKey (not32 env.MD_MODIFIER_MASK)
  let mod := and32 aHotKey env.MD_MODIFIER_MASK
  let key := if key₀ ≥ 97 ∧ key₀ ≤ 122 then key₀ - 32 else key₀
  match StdMap.find m.m_actionHotKeys (or32 key mod) with
  | some actions => runHotKeyBucket m tm env actions
  | none =>
    match StdMap.find m.m_actionHotKeys (or32 key (and32 mod (not32 env.MD_SHIFT))) with
    | some actions => runHotKeyBucket m tm env actions
    | none => { handled := false, runAction := [], assertFailed := false }

end ACTION_MANAGER

/-! ## Notions used by the statements -/

namespace ACTION_MANAGER

/-- The actions currently registered: the values of the name index, in
iteration order. -/
def registered (m : ACTION_MANAGER) : List Ptr :=
  m.m_actionNameIndex.map Prod.snd

/-- Accessor `GetName()` of the action at an address. -/
def nameOf (m : ACTION_MANAGER) (a : Ptr) : std_string :=
  (m.heap a).m_name

/-- Accessor `GetId()` of the action at an address. -/
def idOf (m : ACTION_MANAGER) (a : Ptr) : Int :=
  (m.heap a).m_id

/-- The name index is a map (ascending keys) and files every action under its
own name. -/
def NameIndexOK (m : ACTION_MANAGER) : Prop :=
  StdMap.Ordered m.m_actionNameIndex ∧ ∀ e ∈ m.m_actionNameIndex, (m.heap e.2).m_name = e.1

/-- Two objects that differ at most in `m_hotKey` (the one member the manager
ever writes). -/
def SameButHotKey (a b : TOOL_ACTION) : Prop :=
  a.m_name = b.m_name ∧ a.m_scope = b.m_scope ∧ a.m_defaultHotKey = b.m_defaultHotKey ∧
    a.m_legacyName = b.m_legacyName ∧ a.m_id = b.m_id

/-- No two registered actions carry the same id. -/
def IdsDistinct (m : ACTION_MANAGER) : Prop :=
  ∀ p ∈ m.registered, ∀ q ∈ m.registered, m.idOf p = m.idOf q → p = q

/-- How many entries of a static list are without an id (`m_id == -1`): the
number of `MakeActionId` calls the constructor makes. -/
def autoCount (actionList : List TOOL_ACTION) : Nat :=
  (actionList.filter (fun a => decide (a.m_id = -1))).length

/-- The ids of the entries of a static list that have one (`m_id != -1`). -/
def explicitIds (actionList : List TOOL_ACTION) : List Int :=
  (actionList.filter (fun a => decide (a.m_id ≠ -1))).map (fun a => a.m_id)

/-- The three-tier precedence in the words of the specification: the user
binding if the user map has an entry for the name; otherwise the legacy binding
if the legacy name is non-empty and present in the legacy map; otherwise the
default binding. -/
def resolvedKey (a : TOOL_ACTION) (legacy user : StdMap std_string Int) : Int :=
  match StdMap.find user a.m_name with
  | some k₃ => k₃
  | none =>
    match (if a.m_legacyName = [] then none else StdMap.find legacy a.m_legacyName) with
    | some k₂ => k₂
    | none => a.m_defaultHotKey

/-- The bucket of a key: the list `m_actionHotKeys.find( key )` delivers, empty
when the key has no bucket. -/
def bucket (m : ACTION_MANAGER) (key : Int) : List Ptr :=
  StdMap.subscript m.m_actionHotKeys key []

/-- The effect of one round of the loop of `UpdateHotKeys` on the bucket of one
key, told apart from the rest of the table: an action resolving to the key is
appended, after the Global entries were removed if the action is Global. -/
def bucketStep (heap : Ptr → TOOL_ACTION) (legacy user : StdMap std_string Int) (key : Int)
    (b : List Ptr) (p : Ptr) : List Ptr :=
  if resolvedKey (heap p) legacy user = key ∧ 0 < key then
    (if isGlobal heap p = true then b.filter (fun q => !(isGlobal heap q)) else b) ++ [p]
  else b

/-- The states a manager can be in: constructed from some static action list,
then any sequence of `RegisterAction`, `UnregisterAction` and `UpdateHotKeys`. -/
inductive Reachable : ACTION_MANAGER → Prop
  | construct (heap : Ptr → TOOL_ACTION) (heapNext : Ptr) (actionList : List TOOL_ACTION)
      (currentActionId : Int) : Reachable (ctor heap heapNext actionList currentActionId).mgr
  | register {m : ACTION_MANAGER} (a : Ptr) : Reachable m → Reachable (RegisterAction m a).val
  | unregister {m : ACTION_MANAGER} (a : Ptr) : Reachable m → Reachable (UnregisterAction m a)
  | update {m : ACTION_MANAGER} (legacy user : StdMap std_string Int) :
      Reachable m → Reachable (UpdateHotKeys m legacy user)

/-- The states reached from a construction that left the registered actions
with pairwise distinct ids, by any sequence of `UpdateHotKeys` and
`UnregisterAction` calls. -/
inductive ReachableDistinctIds : ACTION_MANAGER → Prop
  | construct (heap : Ptr → TOOL_ACTION) (heapNext : Ptr) (actionList : List TOOL_ACTION)
      (currentActionId : Int) :
      IdsDistinct (ctor heap heapNext actionList currentActionId).mgr →
      ReachableDistinctIds (ctor heap heapNext actionList currentActionId).mgr
  | unregister {m : ACTION_MANAGER} (a : Ptr) :
      ReachableDistinctIds m → ReachableDistinctIds (UnregisterAction m a)
  | update {m : ACTION_MANAGER} (legacy user : StdMap std_string Int) :
      ReachableDistinctIds m → ReachableDistinctIds (UpdateHotKeys m legacy user)

/-- What a constructor finds in the static action list when the static id
counter is at `c`. The one assignment to `m_id` is the constructor's own
`action->m_id = MakeActionId( ... )`, and no declaration of an action passes an
id: an entry carries -1 until a constructor has given it a value of the
counter. So every id other than -1 was returned by the counter before: it is at
least 1, below `c`, and carried by no other entry. And the counter serves the
entries that are still without id before it reaches `INT_MAX`. -/
def IdsFromCounter (actionList : List TOOL_ACTION) (c : Int) : Prop :=
  1 ≤ c ∧ c + autoCount actionList ≤ 2147483647 ∧
    (explicitIds actionList).Nodup ∧ ∀ i ∈ explicitIds actionList, 1 ≤ i ∧ i < c

/-- The states a manager can be in when it is constructed from a static action
list whose ids come from the counter, and `UpdateHotKeys` and
`UnregisterAction` are called on it in any sequence. -/
inductive ReachableCounterIds : ACTION_MANAGER → Prop
  | construct (heap : Ptr → TOOL_ACTION) (heapNext : Ptr) (actionList : List TOOL_ACTION)
      (currentActionId : Int) :
      IdsFromCounter actionList currentActionId →
      ReachableCounterIds (ctor heap heapNext actionList currentActionId).mgr
  | unregister {m : ACTION_MANAGER} (a : Ptr) :
      ReachableCounterIds m → ReachableCounterIds (UnregisterAction m a)
  | update {m : ACTION_MANAGER} (legacy user : StdMap std_string Int) :
      ReachableCounterIds m → ReachableCounterIds (UpdateHotKeys m legacy user)

/-- A bucket `e` of the hotkey table lists no action twice, and the reverse map
sends the id of each of its actions to the bucket's key, which is not 0; none
of these ids is among `pending` (the ids of the actions `UpdateHotKeys` has
still to visit). -/
def BucketOK (m : ACTION_MANAGER) (pending : List Int) (e : Int × List Ptr) : Prop :=
  e.2.Nodup ∧
    ∀ p ∈ e.2, StdMap.find m.m_hotkeys (m.idOf p) = some e.1 ∧ e.1 ≠ 0 ∧ m.idOf p ∉ pending

end ACTION_MANAGER

/-- A call into the id counter or a manager. -/
inductive Call where
  | makeActionId (aActionName : std_string)
  | construct (heap : Ptr → TOOL_ACTION) (heapNext : Ptr) (actionList : List TOOL_ACTION)
  | registerAction (aAction : Ptr)
  | unregisterAction (aAction : Ptr)
  | updateHotKeys (legacy user : StdMap std_string Int)

/-- The process as far as ids are concerned: the static counter of
`MakeActionId`, a manager, and every value `MakeActionId` has returned so far
(in call order). -/
structure Process where
  currentActionId : Int
  mgr : ACTION_MANAGER
  issued : List Int

namespace Process

/-- The process before the first call: the counter is initialised to 1. -/
def start (mgr : ACTION_MANAGER) : Process :=
  { currentActionId := 1, mgr := mgr, issued := [] }

/-- One call. -/
def call (p : Process) : Call → Process
  | .makeActionId aActionName =>
    let ic := ACTION_MANAGER.MakeActionId aActionName p.currentActionId
    { p with currentActionId := ic.2, issued := p.issued ++ [ic.1] }
  | .construct heap heapNext actionList =>
    let r := ACTION_MANAGER.ctor heap heapNext actionList p.currentActionId
    { currentActionId := r.currentActionId, mgr := r.mgr, issued := p.issued ++ r.issued }
  | .registerAction aAction => { p with mgr := (p.mgr.RegisterAction aAction).val }
  | .unregisterAction aAction => { p with mgr := p.mgr.UnregisterAction aAction }
  | .updateHotKeys legacy user => { p with mgr := p.mgr.UpdateHotKeys legacy user }

/-- A sequence of calls. -/
def run (p : Process) (calls : List Call) : Process :=
  calls.foldl call p

end Process

namespace ACTION_MANAGER

/-- Every action of the bucket `e` stores the key of the bucket as its current
key (`m_hotKey`), and none of them is among `pending` (the actions
`UpdateHotKeys` has still to visit). -/
def StoredOK (m : ACTION_MANAGER) (pending : List Ptr) (e : Int × List Ptr) : Prop :=
  ∀ p ∈ e.2, (m.heap p).m_hotKey = e.1 ∧ p ∉ pending

end ACTION_MANAGER

/-! ## Notions used by the statements about dispatch -/

namespace ACTION_MANAGER

/-- The bucket `it->second` over which the candidate loop of `RunHotKey` runs:
the bucket of the normalised code if the table has one, else the bucket of the
code without Shift; `none` when `RunHotKey` returns before the loop. -/
def hotKeyBucket (m : ACTION_MANAGER) (env : HOTKEY_ENV) (aHotKey : Int) : Option (List Ptr) :=
  let key₀ := and32 aHotKey (not32 env.MD_MODIFIER_MASK)
  let mod := and32 aHotKey env.MD_MODIFIER_MASK
  let key := if key₀ ≥ 97 ∧ key₀ ≤ 122 then key₀ - 32 else key₀
  match StdMap.find m.m_actionHotKeys (or32 key mod) with
  | some actions => some actions
  | none => StdMap.find m.m_actionHotKeys (or32 key (and32 mod (not32 env.MD_SHIFT)))

/-- The priority under which an action takes part in the choice of
`RunHotKey`: the priority of its owning tool, if `FindTool` finds that tool and
the tool is active (its priority is not negative; 0 counts as active); `none`
otherwise. -/
def activePriority (m : ACTION_MANAGER) (tm : TOOL_MANAGER) (env : HOTKEY_ENV) (a : Ptr) :
    Option Int :=
  match tm.FindTool (env.GetToolName (m.heap a)) with
  | none => none
  | some toolId => if tm.GetPriority toolId ≥ 0 then some (tm.GetPriority toolId) else none

end ACTION_MANAGER

/-! ## The dynamic ratsnest of `PCB_EDITOR_CONTROL`

Time is not measured in the model: a running timer elapses when the event
`timerElapses` is delivered, and the duration the profiling counter reports is
an argument of `UpdateSelectionRatsnest`. -/

/-- A `wxTimer`, as far as the tool uses it: whether it is running, and the
arguments of the last `Start`. -/
structure wxTimer where
  running : Bool
  milliseconds : Int
  oneShot : Bool
  deriving DecidableEq

namespace wxTimer

/-- Member `Start( milliseconds )`: (re)starts the timer; the second argument
defaults to `wxTIMER_CONTINUOUS`. -/
def Start (_t : wxTimer) (milliseconds : Int) : wxTimer :=
  { running := true, milliseconds := milliseconds, oneShot := false }

/-- Member `Stop()`. -/
def Stop (t : wxTimer) : wxTimer :=
  { t with running := false }

end wxTimer

/-- The calls the ratsnest code of the tool makes into the connectivity data
and the canvas. -/
inductive RATSNEST_CALL where
  | ClearDynamicRatsnest
  | HideDynamicRatsnest
  | ComputeDynamicRatsnest
  | RedrawRatsnest
  | Refresh
  deriving DecidableEq

/-- The members of `PCB_EDITOR_CONTROL` the ratsnest code reads or writes, and
the calls made so far (in call order). -/
structure PCB_EDITOR_CONTROL where
  m_slowRatsnest : Bool
  m_ratsnestTimer : wxTimer
  calls : List RATSNEST_CALL
  deriving DecidableEq

namespace PCB_EDITOR_CONTROL

/-- Constructor `PCB_EDITOR_CONTROL::PCB_EDITOR_CONTROL`: the timer is default
constructed (not running). -/
def ctor : PCB_EDITOR_CONTROL :=
  { m_slowRatsnest := false
    m_ratsnestTimer := { running := false, milliseconds := 0, oneShot := false }
    calls := [] }

/-- Member `calculateSelectionRatsnest`: collects the items of the selection
and hands them to `ComputeDynamicRatsnest`. -/
def calculateSelectionRatsnest (s : PCB_EDITOR_CONTROL) : PCB_EDITOR_CONTROL :=
  { s with calls := s.calls ++ [RATSNEST_CALL.ComputeDynamicRatsnest] }

/-- Member `UpdateSelectionRatsnest`. `selectionEmpty` is `selection.Empty()`,
`msecs` is what `counter.msecs()` reports for the eager computation. -/
def UpdateSelectionRatsnest (s : PCB_EDITOR_CONTROL) (selectionEmpty : Bool) (msecs : ℚ) :
    PCB_EDITOR_CONTROL :=
  if selectionEmpty = true then
    { s with calls := s.calls ++ [RATSNEST_CALL.ClearDynamicRatsnest] }
  else if s.m_slowRatsnest = true then
    { s with
      calls := s.calls ++ [RATSNEST_CALL.HideDynamicRatsnest]
      m_ratsnestTimer := s.m_ratsnestTimer.Start 20 }
  else
    let s₁ := calculateSelectionRatsnest s
    if msecs > 25 then
      { s₁ with
        m_slowRatsnest := true
        calls := s₁.calls ++ [RATSNEST_CALL.HideDynamicRatsnest] }
    else s₁

/-- Member `HideDynamicRatsnest`. -/
def HideDynamicRatsnest (s : PCB_EDITOR_CONTROL) : PCB_EDITOR_CONTROL :=
  { s with calls := s.calls ++ [RATSNEST_CALL.HideDynamicRatsnest], m_slowRatsnest := false }

/-- Member `ratsnestTimer`, the handler of the timer event. -/
def ratsnestTimer (s : PCB_EDITOR_CONTROL) : PCB_EDITOR_CONTROL :=
  let s₁ := calculateSelectionRatsnest { s with m_ratsnestTimer := s.m_ratsnestTimer.Stop }
  { s₁ with calls := s₁.calls ++ [RATSNEST_CALL.RedrawRatsnest, RATSNEST_CALL.Refresh] }

/-- The timer elapses: if it is running, the event is delivered to the handler
(a one-shot timer stops itself first); a stopped timer delivers nothing. -/
def timerElapses (s : PCB_EDITOR_CONTROL) : PCB_EDITOR_CONTROL :=
  if s.m_ratsnestTimer.running = true then
    ratsnestTimer
      (if s.m_ratsnestTimer.oneShot = true then
        { s with m_ratsnestTimer := s.m_ratsnestTimer.Stop }
       else s)
  else s

/-- How often `ComputeDynamicRatsnest` has been called. -/
def computed (s : PCB_EDITOR_CONTROL) : Nat :=
  s.calls.count RATSNEST_CALL.ComputeDynamicRatsnest

end PCB_EDITOR_CONTROL

/-! ## Track width and via size stepping -/

/-- Modelled from the spec: the members of `BOARD_DESIGN_SETTINGS`
(`board_design_settings.h`, absent) the four stepping functions use: the two
lists, the two current indices and the custom-size flag; `SetTrackWidthIndex`,
`SetViaSizeIndex` and `UseCustomTrackViaSize` store their argument. -/
structure BOARD_DESIGN_SETTINGS where
  m_TrackWidthList : List Int
  m_ViasDimensionsList : List Int
  m_trackWidthIndex : Int
  m_viaSizeIndex : Int
  m_useCustomTrackVia : Bool
  deriving DecidableEq

/-- An action handed to `m_toolMgr->RunAction( action, true )` by the functions
of `PCB_EDITOR_CONTROL` modelled below. -/
inductive PCB_ACTION where
  | trackViaSizeChanged
  | selectionCursor
  deriving DecidableEq

namespace PCB_EDITOR_CONTROL

/-- Member `TrackWidthInc`: the settings it leaves and the actions it runs. -/
def TrackWidthInc (b : BOARD_DESIGN_SETTINGS) : BOARD_DESIGN_SETTINGS × List PCB_ACTION :=
  let widthIndex := b.m_trackWidthIndex + 1
  let widthIndex :=
    if widthIndex ≥ (b.m_TrackWidthList.length : Int) then (b.m_TrackWidthList.length : Int) - 1
    else widthIndex
  ({ b with m_trackWidthIndex := widthIndex, m_useCustomTrackVia := false },
   [PCB_ACTION.trackViaSizeChanged])

/-- Member `TrackWidthDec`. -/
def TrackWidthDec (b : BOARD_DESIGN_SETTINGS) : BOARD_DESIGN_SETTINGS × List PCB_ACTION :=
  let widthIndex := b.m_trackWidthIndex - 1
  let widthIndex := if widthIndex < 0 then 0 else widthIndex
  ({ b with m_trackWidthIndex := widthIndex, m_useCustomTrackVia := false },
   [PCB_ACTION.trackViaSizeChanged])

/-- Member `ViaSizeInc`. -/
def ViaSizeInc (b : BOARD_DESIGN_SETTINGS) : BOARD_DESIGN_SETTINGS × List PCB_ACTION :=
  let sizeIndex := b.m_viaSizeIndex + 1
  let sizeIndex :=
    if sizeIndex ≥ (b.m_ViasDimensionsList.length : Int) then
      (b.m_ViasDimensionsList.length : Int) - 1
    else sizeIndex
  ({ b with m_viaSizeIndex := sizeIndex, m_useCustomTrackVia := false },
   [PCB_ACTION.trackViaSizeChanged])

/-- Member `ViaSizeDec`. -/
def ViaSizeDec (b : BOARD_DESIGN_SETTINGS) : BOARD_DESIGN_SETTINGS × List PCB_ACTION :=
  let sizeIndex := b.m_viaSizeIndex - 1
  let sizeIndex := if sizeIndex < 0 then 0 else sizeIndex
  ({ b with m_viaSizeIndex := sizeIndex, m_useCustomTrackVia := false },
   [PCB_ACTION.trackViaSizeChanged])

end PCB_EDITOR_CONTROL

/-! ## Locking the selected items -/

/-- The enumeration `PCB_EDITOR_CONTROL::MODIFY_MODE`. -/
inductive MODIFY_MODE where
  | ON
  | OFF
  | TOGGLE
  deriving DecidableEq

/-- What `modifyLockSelected` issues when an item was modified. -/
inductive LOCK_CALL where
  | RunAction (action : PCB_ACTION)
  | PostEventSelectedItemsModified
  | OnModify
  deriving DecidableEq

/-- Modelled from the spec: the lock state of the board items
(`class_board_item.h`, absent) as a function of the address of the item:
`IsLocked()` reads it and `SetLocked` stores its argument. With it, the local
`modified` of `modifyLockSelected` and the calls made. -/
structure LOCKED where
  locked : Ptr → Bool
  modified : Bool
  calls : List LOCK_CALL

namespace PCB_EDITOR_CONTROL

/-- The body of the loop of `modifyLockSelected` for one selected item;
`SetLocked` stores its argument as the lock state of the item. -/
def modifyLockStep (aMode : MODIFY_MODE) (s : LOCKED) (item : Ptr) : LOCKED :=
  let prevState := s.locked item
  let locked :=
    match aMode with
    | MODIFY_MODE.ON => Function.update s.locked item true
    | MODIFY_MODE.OFF => Function.update s.locked item false
    | MODIFY_MODE.TOGGLE => Function.update s.locked item (!prevState)
  { s with
    locked := locked
    modified := if s.modified = false ∧ prevState ≠ locked item then true else s.modified }

/-- The argument of `SetLocked` in mode `aMode` for an item whose lock state
was `prevState`. -/
def lockedAfter (aMode : MODIFY_MODE) (prevState : Bool) : Bool :=
  match aMode with
  | MODIFY_MODE.ON => true
  | MODIFY_MODE.OFF => false
  | MODIFY_MODE.TOGGLE => !prevState

/-- Member `modifyLockSelected`. `selection` is the selection at the call,
`cursorSelection` what the selection holds after the action `selectionCursor`
has run (it is run only when the selection is empty). -/
def modifyLockSelected (aMode : MODIFY_MODE) (locked : Ptr → Bool)
    (selection cursorSelection : List Ptr) : LOCKED :=
  let s₀ : LOCKED :=
    if selection.isEmpty = true then
      { locked := locked, modified := false,
        calls := [LOCK_CALL.RunAction PCB_ACTION.selectionCursor] }
    else { locked := locked, modified := false, calls := [] }
  let items := if selection.isEmpty = true then cursorSelection else selection
  let s₁ := items.foldl (modifyLockStep aMode) s₀
  if s₁.modified = true then
    { s₁ with calls := s₁.calls ++ [LOCK_CALL.PostEventSelectedItemsModified, LOCK_CALL.OnModify] }
  else s₁

end PCB_EDITOR_CONTROL

/-! ## Merging zones -/

/-- Modelled from the spec: the members of `ZONE_CONTAINER` (`class_zone.h`,
absent) that `ZoneMerge` compares, and an address to tell zones apart. -/
structure ZONE_CONTAINER where
  address : Ptr
  netCode : Int
  priority : Int
  isKeepout : Bool
  layer : Int
  deriving DecidableEq

/-- A call on the `BOARD_COMMIT` made by `mergeZones`. -/
inductive COMMIT_CALL where
  | Remove (zone : ZONE_CONTAINER)
  | Modify (zone : ZONE_CONTAINER)
  | Push
  deriving DecidableEq

/-- The locals of the loop of `ZoneMerge`. -/
structure ZONE_MERGE where
  firstZone : Option ZONE_CONTAINER
  toMerge : List ZONE_CONTAINER

namespace PCB_EDITOR_CONTROL

/-- The body of the loop of `ZoneMerge` for one selected item: `item` is the
result of `dynamic_cast<ZONE_CONTAINER*>` (`none` for an item that is not a
zone), `TestAreaIntersection` is the test of the board. -/
def zoneMergeStep (TestAreaIntersection : ZONE_CONTAINER → ZONE_CONTAINER → Bool)
    (s : ZONE_MERGE) (item : Option ZONE_CONTAINER) : ZONE_MERGE :=
  match item with
  | none => s
  | some curr_area =>
    let firstZone := match s.firstZone with
      | none => curr_area
      | some z => z
    let s₁ : ZONE_MERGE := { s with firstZone := some firstZone }
    if firstZone.netCode ≠ curr_area.netCode then s₁
    else if curr_area.priority ≠ firstZone.priority then s₁
    else if curr_area.isKeepout ≠ firstZone.isKeepout then s₁
    else if curr_area.layer ≠ firstZone.layer then s₁
    else if TestAreaIntersection curr_area firstZone = false then s₁
    else { s₁ with toMerge := s₁.toMerge ++ [curr_area] }

/-- The function `mergeZones`. `outlineCount` is `OutlineCount()` of the first
zone after the boolean additions and the simplification. The result is the
value returned, the calls on the commit and the merged zones; it is `none`
when the function reads `aOriginZones[0]` of an empty vector (an access outside
the vector, undefined behaviour). -/
def mergeZones (outlineCount : Nat) (aOriginZones : List ZONE_CONTAINER)
    (aMergedZones : List ZONE_CONTAINER) :
    Option (Bool × List COMMIT_CALL × List ZONE_CONTAINER) :=
  match aOriginZones with
  | [] => none
  | zone0 :: others =>
    if outlineCount > 1 then some (false, [], aMergedZones)
    else
      some (true, others.map COMMIT_CALL.Remove ++ [COMMIT_CALL.Modify zone0],
        aMergedZones ++ [zone0])

/-- The list `toMerge` that `ZoneMerge` hands to `mergeZones`. -/
def zoneMergeList (TestAreaIntersection : ZONE_CONTAINER → ZONE_CONTAINER → Bool)
    (selection : List (Option ZONE_CONTAINER)) : List ZONE_CONTAINER :=
  (selection.foldl (zoneMergeStep TestAreaIntersection)
    { firstZone := none, toMerge := [] }).toMerge

/-- Member `ZoneMerge`: the calls on the commit and the zones selected at the
end; `none` when `mergeZones` reads outside its vector. -/
def ZoneMerge (TestAreaIntersection : ZONE_CONTAINER → ZONE_CONTAINER → Bool)
    (outlineCount : Nat) (selection : List (Option ZONE_CONTAINER)) :
    Option (List COMMIT_CALL × List ZONE_CONTAINER) :=
  if selection.length < 2 then some ([], [])
  else
    match mergeZones outlineCount (zoneMergeList TestAreaIntersection selection) [] with
    | none => none
    | some (true, commit, merged) => some (commit ++ [COMMIT_CALL.Push], merged)
    | some (false, commit, _) => some (commit, [])

end PCB_EDITOR_CONTROL

/-! ## The event loop of `PlaceModule` -/

/-- Modelled from the spec: an event of `tool/tool_event.h` (absent), as the
answers to what the loop of `PlaceModule` asks of the event `Wait()` delivered,
and what `SelectFootprintFromLibTree` returns if the round calls it. -/
structure PLACE_EVENT where
  IsCancelInteractive : Bool
  IsActivate : Bool
  IsClickLeft : Bool
  IsClickRight : Bool
  IsMotion : Bool
  IsProperties : Bool
  SelectFootprintFromLibTree : Option Ptr
  deriving DecidableEq

/-- The calls of `PlaceModule` on the tool manager, the commit, the menu, the
view controls and the frame. Calls that only move or redraw the footprint are
left out. -/
inductive PLACE_CALL where
  | selectItem (module : Ptr)
  | selectionClear
  | Revert
  | Add (module : Ptr)
  | Push
  | ShowContextMenu
  | SetAutoPan (enabled : Bool)
  | CaptureCursor (enabled : Bool)
  | SetNoToolSelected
  deriving DecidableEq

/-- The locals `module` and `reselect` of `PlaceModule`, and the calls made so
far. -/
structure PLACE_MODULE where
  module : Option Ptr
  reselect : Bool
  calls : List PLACE_CALL
  deriving DecidableEq

namespace PCB_EDITOR_CONTROL

/-- The two calls at the end of a round of the loop. -/
def placeModuleRoundEnd (s : PLACE_MODULE) : PLACE_MODULE :=
  { s with
    calls := s.calls ++
      [PLACE_CALL.SetAutoPan s.module.isSome, PLACE_CALL.CaptureCursor s.module.isSome] }

/-- One round of the loop of `PlaceModule` on the event `evt`: the locals after
the round, and whether the round left the loop through `break`. -/
def placeModuleRound (s : PLACE_MODULE) (evt : PLACE_EVENT) : PLACE_MODULE × Bool :=
  let s₁ : PLACE_MODULE :=
    match s.reselect, s.module with
    | true, some module => { s with calls := s.calls ++ [PLACE_CALL.selectItem module] }
    | _, _ => s
  if evt.IsCancelInteractive = true then
    match s₁.module with
    | some _ =>
      let s₂ : PLACE_MODULE :=
        { s₁ with
          calls := s₁.calls ++ [PLACE_CALL.selectionClear, PLACE_CALL.Revert]
          module := none }
      if evt.IsActivate = true then (s₂, true) else (placeModuleRoundEnd s₂, false)
    | none => (s₁, true)
  else if evt.IsClickLeft = true then
    match s₁.module with
    | none =>
      match evt.SelectFootprintFromLibTree with
      | none => (s₁, false)
      | some module =>
        (placeModuleRoundEnd
          { s₁ with
            module := some module
            calls := s₁.calls ++ [PLACE_CALL.Add module, PLACE_CALL.selectItem module] },
         false)
    | some _ =>
      (placeModuleRoundEnd
        { s₁ with
          calls := s₁.calls ++ [PLACE_CALL.selectionClear, PLACE_CALL.Push]
          module := none },
       false)
  else if evt.IsClickRight = true then
    (placeModuleRoundEnd { s₁ with calls := s₁.calls ++ [PLACE_CALL.ShowContextMenu] }, false)
  else if s₁.module.isSome = true ∧ evt.IsMotion = true then
    (placeModuleRoundEnd s₁, false)
  else if s₁.module.isSome = true ∧ evt.IsProperties = true then
    (placeModuleRoundEnd { s₁ with reselect := true }, false)
  else (placeModuleRoundEnd s₁, false)

/-- The loop of `PlaceModule` on the events `Wait()` delivers; it ends with a
`break` or when `Wait()` delivers no event any more. -/
def placeModuleLoop : PLACE_MODULE → List PLACE_EVENT → PLACE_MODULE
  | s, [] => s
  | s, evt :: rest =>
    if (placeModuleRound s evt).2 = true then (placeModuleRound s evt).1
    else placeModuleLoop (placeModuleRound s evt).1 rest

/-- The part of `PlaceModule` from the head of the loop on, entered with the
locals `s`: the loop, then the call `m_frame->SetNoToolSelected()`. -/
def placeModuleFrom (s : PLACE_MODULE) (events : List PLACE_EVENT) : PLACE_MODULE :=
  { placeModuleLoop s events with
    calls := (placeModuleLoop s events).calls ++ [PLACE_CALL.SetNoToolSelected] }

/-- Member `PlaceModule`, called with the footprint `module` (or `NULL`) as
parameter of the event. -/
def PlaceModule (module : Option Ptr) (events : List PLACE_EVENT) : PLACE_MODULE :=
  placeModuleFrom
    { module := module, reselect := false
      calls := PLACE_CALL.selectionClear ::
        (match module with
         | some md => [PLACE_CALL.selectItem md]
         | none => []) }
    events

end PCB_EDITOR_CONTROL

/-! ## Concrete scenarios -/

namespace Scenario

/-- An action declaration without legacy name. -/
def action (name : String) (scope : TOOL_ACTION_SCOPE) (key id : Int) : TOOL_ACTION :=
  { m_name := name.toList, m_scope := scope, m_defaultHotKey := key, m_hotKey := key,
    m_legacyName := [], m_id := id }

/-- A store in which every address holds a context action named `t.a`. -/
def store : Ptr → TOOL_ACTION :=
  fun _ => action "t.a" AS_CONTEXT 0 (-1)

/-- A manager constructed from the single action `t.a`; the copy lives at
address 0. -/
def single : ACTION_MANAGER :=
  (ACTION_MANAGER.ctor store 0 [action "t.a" AS_CONTEXT 0 (-1)] 1).mgr

/-- A manager constructed from the actions `pcbnew.Control.zoomIn` and
`pcbnew.Control.zoom`. -/
def zoom : ACTION_MANAGER :=
  (ACTION_MANAGER.ctor store 0
    [action "pcbnew.Control.zoomIn" AS_GLOBAL 43 (-1),
     action "pcbnew.Control.zoom" AS_GLOBAL 0 (-1)] 1).mgr

/-- A static action list: `t.a` carries the id 1, which an earlier construction
gave it, `t.b` and `t.c` carry no id yet. -/
def mixedList : List TOOL_ACTION :=
  [action "t.a" AS_CONTEXT 0 1, action "t.b" AS_CONTEXT 0 (-1), action "t.c" AS_GLOBAL 0 (-1)]

/-- A construction from `mixedList` with the id counter at 2. -/
def mixed : ACTION_MANAGER.Constructed :=
  ACTION_MANAGER.ctor store 0 mixedList 2

/-- A manager constructed from the Global action `t.a` with default key 65. -/
def bound : ACTION_MANAGER :=
  (ACTION_MANAGER.ctor store 0 [action "t.a" AS_GLOBAL 65 (-1)] 1).mgr

/-- Two Global actions on key 65: `t.z` is first in the static list (registered
first, stored at address 0), `t.a` second (registered last, stored at address
1). -/
def twoGlobals : ACTION_MANAGER :=
  (ACTION_MANAGER.ctor store 0
    [action "t.z" AS_GLOBAL 65 (-1), action "t.a" AS_GLOBAL 65 (-1)] 1).mgr

/-- A Context action and two Global actions, all on key 65, and a second
Context action on key 65. -/
def crowded : ACTION_MANAGER :=
  (ACTION_MANAGER.ctor store 0
    [action "t.b" AS_CONTEXT 65 (-1), action "t.a" AS_GLOBAL 65 (-1),
     action "t.c" AS_GLOBAL 65 (-1), action "t.d" AS_CONTEXT 65 (-1)] 1).mgr

/-- A store holding the Global action `t.z` (key 65, id 1) at address 0 and the
Global action `t.a` (key 65, id 2) everywhere else. -/
def storeZA : Ptr → TOOL_ACTION :=
  fun p => if p = 0 then action "t.z" AS_GLOBAL 65 1 else action "t.a" AS_GLOBAL 65 2

/-- An empty manager in which first `t.z` (address 0) and then `t.a` (address 1)
is registered. -/
def inTurn : ACTION_MANAGER :=
  (((ACTION_MANAGER.empty storeZA 2).RegisterAction 0).val.RegisterAction 1).val

/-- A manager constructed from `t.a` (key 65) and `t.b` (key 66), declared
without ids, after `UpdateHotKeys`. -/
def twoKeys : ACTION_MANAGER :=
  ACTION_MANAGER.UpdateHotKeys
    (ACTION_MANAGER.ctor store 0
      [action "t.a" AS_CONTEXT 65 (-1), action "t.b" AS_CONTEXT 66 (-1)] 1).mgr [] []

/-- The owning tool of an action as its name tells it: the name up to its last
dot. -/
def toolName (a : TOOL_ACTION) : std_string :=
  ((a.m_name.reverse.dropWhile (fun c => decide (c ≠ '.'))).drop 1).reverse

/-- Modifier constants `MD_SHIFT = 0x1000`, `MD_MODIFIER_MASK = 0x7000` (Shift,
Ctrl, Alt), and `toolName` as the owning tool. -/
def env : HOTKEY_ENV :=
  { MD_MODIFIER_MASK := 28672, MD_SHIFT := 4096, GetToolName := toolName }

/-- A tool registry with the tools `t.A` (id 1) and `t.B` (id 2), at the given
priorities (negative: not on the active stack). -/
def tools (priorityA priorityB : Int) : TOOL_MANAGER :=
  { FindTool := fun name =>
      if name = "t.A".toList then some 1 else if name = "t.B".toList then some 2 else none
    GetPriority := fun toolId =>
      if toolId = 1 then priorityA else if toolId = 2 then priorityB else -1 }

/-- The Context actions `t.A.go` (address 0) and `t.B.go` (address 1) on key X
(88), after `UpdateHotKeys`. -/
def keyX : ACTION_MANAGER :=
  ACTION_MANAGER.UpdateHotKeys
    (ACTION_MANAGER.ctor store 0
      [action "t.A.go" AS_CONTEXT 88 (-1), action "t.B.go" AS_CONTEXT 88 (-1)] 1).mgr [] []

/-- The Global action `t.C.all` (address 0) and the Context actions `t.A.go`
(address 1) and `t.B.go` (address 2), all on key Y (89), after `UpdateHotKeys`. -/
def keyY : ACTION_MANAGER :=
  ACTION_MANAGER.UpdateHotKeys
    (ACTION_MANAGER.ctor store 0
      [action "t.C.all" AS_GLOBAL 89 (-1), action "t.A.go" AS_CONTEXT 89 (-1),
       action "t.B.go" AS_CONTEXT 89 (-1)] 1).mgr [] []

/-- A tool registry with the one tool `app.sel` (id 1) at the given priority. -/
def selTool (priority : Int) : TOOL_MANAGER :=
  { FindTool := fun name => if name = "app.sel".toList then some 1 else none
    GetPriority := fun toolId => if toolId = 1 then priority else -1 }

/-- The Context action `app.sel.move` (address 0) on key M (77) and the Global
action `app.global.cancel` (address 1) on Escape (27), after `UpdateHotKeys`. -/
def endToEnd : ACTION_MANAGER :=
  ACTION_MANAGER.UpdateHotKeys
    (ACTION_MANAGER.ctor store 0
      [action "app.sel.move" AS_CONTEXT 77 (-1),
       action "app.global.cancel" AS_GLOBAL 27 (-1)] 1).mgr [] []

/-- The Global action `t.Z.help` (address 0) on the key `/` (47) and the Global
action `t.A.other` (address 1) on Shift+`/` (47 + 0x1000 = 4143), after
`UpdateHotKeys`. -/
def slashes : ACTION_MANAGER :=
  ACTION_MANAGER.UpdateHotKeys
    (ACTION_MANAGER.ctor store 0
      [action "t.Z.help" AS_GLOBAL 47 (-1), action "t.A.other" AS_GLOBAL 4143 (-1)] 1).mgr [] []

/-- The manager `slashes` after `UnregisterAction` of `t.A.other`. -/
def slashOnly : ACTION_MANAGER :=
  ACTION_MANAGER.UnregisterAction slashes 1

/-- A manager constructed from `t.a` (no key) and `t.b` (key 66), declared
without ids. -/
def unbound : ACTION_MANAGER :=
  (ACTION_MANAGER.ctor store 0
    [action "t.a" AS_CONTEXT 0 (-1), action "t.b" AS_CONTEXT 66 (-1)] 1).mgr

/-- The tool after construction, one update with a non-empty selection whose
eager computation took 30 ms, and a second update with a non-empty selection. -/
def dragging : PCB_EDITOR_CONTROL :=
  PCB_EDITOR_CONTROL.UpdateSelectionRatsnest
    (PCB_EDITOR_CONTROL.UpdateSelectionRatsnest PCB_EDITOR_CONTROL.ctor false 30) false 0

/-- The Context actions `t.A.go` (address 0) and `t.A.run` (address 1), both
owned by the tool `t.A` and both on key X (88), after `UpdateHotKeys`. -/
def sameTool : ACTION_MANAGER :=
  ACTION_MANAGER.UpdateHotKeys
    (ACTION_MANAGER.ctor store 0
      [action "t.A.go" AS_CONTEXT 88 (-1), action "t.A.run" AS_CONTEXT 88 (-1)] 1).mgr [] []

/-- A board with three track widths and two via sizes, both indices at the
upper end. -/
def sizes : BOARD_DESIGN_SETTINGS :=
  { m_TrackWidthList := [150000, 250000, 400000]
    m_ViasDimensionsList := [600000, 800000]
    m_trackWidthIndex := 2
    m_viaSizeIndex := 1
    m_useCustomTrackVia := true }

/-- Lock states: item 1 is locked, every other item is not. -/
def locks : Ptr → Bool := fun p => decide (p = 1)

/-- A zone on net 3, layer 0. -/
def zone (address : Ptr) : ZONE_CONTAINER :=
  { address := address, netCode := 3, priority := 0, isKeepout := false, layer := 0 }

/-- The locals of `PlaceModule` while footprint 7 is being placed. -/
def placing : PLACE_MODULE := { module := some 7, reselect := false, calls := [] }

/-- The locals of `PlaceModule` while no footprint is being placed. -/
def idle : PLACE_MODULE := { module := none, reselect := false, calls := [] }

/-- A cancel event that is not an activation: the action `cancelInteractive`. -/
def plainCancel : PLACE_EVENT :=
  { IsCancelInteractive := true, IsActivate := false, IsClickLeft := false
    IsClickRight := false, IsMotion := false, IsProperties := false
    SelectFootprintFromLibTree := none }

/-- A cancel event that is an activation: another tool is being activated. -/
def activation : PLACE_EVENT := { plainCancel with IsActivate := true }

/-- A left click; the footprint chooser, if asked, returns footprint 9. -/
def leftClick : PLACE_EVENT :=
  { IsCancelInteractive := false, IsActivate := false, IsClickLeft := true
    IsClickRight := false, IsMotion := false, IsProperties := false
    SelectFootprintFromLibTree := some 9 }

/-- Calls in a process: `MakeActionId`, a construction from `t.a` and `t.b`
declared without id, `UnregisterAction` of the first copy, `UpdateHotKeys`, and
`MakeActionId` again. -/
def fourIds : List Call :=
  [Call.makeActionId "x".toList,
   Call.construct store 0 [action "t.a" AS_CONTEXT 65 (-1), action "t.b" AS_CONTEXT 66 (-1)],
   Call.unregisterAction 0,
   Call.updateHotKeys [] [],
   Call.makeActionId "y".toList]

end Scenario

/-! ## Facts about `std::map` -/

namespace StdMap

variable {κ ν : Type} [LinearOrder κ]

theorem find_assign_self (m : StdMap κ ν) (k : κ) (v : ν) : find (assign m k v) k = some v := by
  induction m with
  | nil => simp [assign, find]
  | cons e rest ih =>
    obtain ⟨k', v'⟩ := e
    unfold assign
    split_ifs with h1 h2
    · simp [find]
    · have : k' ≠ k := ne_of_lt h2
      simp [find, this, ih]
    · simp [find]

theorem find_assign_ne (m : StdMap κ ν) (k k₁ : κ) (v : ν) (h : k₁ ≠ k) :
    find (assign m k v) k₁ = find m k₁ := by
  induction m with
  | nil => simp [assign, find, h.symm]
  | cons e rest ih =>
    obtain ⟨k', v'⟩ := e
    unfold assign
    split_ifs with h1 h2
    · simp [find, h.symm]
    · simp [find, ih]
    · have hk : k = k' := le_antisymm (not_lt.mp h2) (not_lt.mp h1)
      subst hk
      simp [find, h.symm]

theorem mem_assign_cases (m : StdMap κ ν) (k : κ) (v : ν) (e : κ × ν) (h : e ∈ assign m k v) :
    e = (k, v) ∨ e ∈ m := by
  induction m with
  | nil => simpa [assign] using h
  | cons e' rest ih =>
    obtain ⟨k', v'⟩ := e'
    unfold assign at h
    split_ifs at h with h1 h2
    · simpa using h
    · rcases List.mem_cons.mp h with h | h
      · exact Or.inr (by simp [h])
      · rcases ih h with h | h
        · exact Or.inl h
        · exact Or.inr (List.mem_cons_of_mem _ h)
    · rcases List.mem_cons.mp h with h | h
      · exact Or.inl h
      · exact Or.inr (List.mem_cons_of_mem _ h)

theorem ordered_assign (m : StdMap κ ν) (k : κ) (v : ν) (h : Ordered m) :
    Ordered (assign m k v) := by
  induction m with
  | nil => simp [assign, Ordered]
  | cons e' rest ih =>
    obtain ⟨k', v'⟩ := e'
    have hr : Ordered rest := (List.pairwise_cons.mp h).2
    have hh := (List.pairwise_cons.mp h).1
    unfold assign
    split_ifs with h1 h2
    · refine List.pairwise_cons.mpr ⟨?_, h⟩
      intro b hb
      rcases List.mem_cons.mp hb with hb | hb
      · simpa [hb] using h1
      · exact lt_trans h1 (hh b hb)
    · refine List.pairwise_cons.mpr ⟨?_, ih hr⟩
      intro b hb
      rcases mem_assign_cases rest k v b hb with hb | hb
      · simpa [hb] using h2
      · exact hh b hb
    · have hk : k = k' := le_antisymm (not_lt.mp h2) (not_lt.mp h1)
      subst hk
      exact List.pairwise_cons.mpr ⟨hh, hr⟩

theorem ordered_erase (m : StdMap κ ν) (k : κ) (h : Ordered m) : Ordered (erase m k) :=
  List.Pairwise.filter _ h

theorem find_erase_self (m : StdMap κ ν) (k : κ) : find (erase m k) k = none := by
  induction m with
  | nil => simp [erase, find]
  | cons e rest ih =>
    obtain ⟨k', v'⟩ := e
    by_cases hk : k' = k
    · simpa [erase, List.filter_cons, hk] using ih
    · simpa [erase, List.filter_cons, hk, find] using ih

theorem mem_of_find (m : StdMap κ ν) (k : κ) (v : ν) (h : find m k = some v) : (k, v) ∈ m := by
  induction m with
  | nil => simp [find] at h
  | cons e rest ih =>
    obtain ⟨k', v'⟩ := e
    unfold find at h
    split_ifs at h with hk
    · simp at h; simp [hk, h]
    · exact List.mem_cons_of_mem _ (ih h)

theorem find_of_mem (m : StdMap κ ν) (k : κ) (v : ν) (ho : Ordered m) (h : (k, v) ∈ m) :
    find m k = some v := by
  induction m with
  | nil => simp at h
  | cons e rest ih =>
    obtain ⟨k', v'⟩ := e
    have hr : Ordered rest := (List.pairwise_cons.mp ho).2
    have hh := (List.pairwise_cons.mp ho).1
    rcases List.mem_cons.mp h with h | h
    · simp at h; simp [find, h.1, h.2]
    · have : k' ≠ k := ne_of_lt (hh _ h)
      simp [find, this, ih hr h]

theorem find_none_of_not_mem (m : StdMap κ ν) (k : κ) (h : ∀ e ∈ m, e.1 ≠ k) :
    find m k = none := by
  cases hf : find m k with
  | none => rfl
  | some v => exact absurd rfl (h _ (mem_of_find m k v hf))

theorem mem_erase (m : StdMap κ ν) (k : κ) (e : κ × ν) (h : e ∈ erase m k) :
    e ∈ m ∧ e.1 ≠ k := by
  simpa [erase] using h

theorem subscript_assign_self (m : StdMap κ ν) (k : κ) (v d : ν) :
    subscript (assign m k v) k d = v := by
  simp [subscript, find_assign_self]

theorem subscript_assign_ne (m : StdMap κ ν) (k k₁ : κ) (v d : ν) (h : k₁ ≠ k) :
    subscript (assign m k v) k₁ d = subscript m k₁ d := by
  simp [subscript, find_assign_ne m k k₁ v h]

end StdMap


/-! ## Registration and lookup -/

namespace ACTION_MANAGER

theorem findAction_register_self (m : ACTION_MANAGER) (a : Ptr) :
    (m.RegisterAction a).val.FindAction (m.nameOf a) = some a := by
  simp [RegisterAction, FindAction, nameOf, StdMap.find_assign_self]

/-- C1 (as the code behaves). Registering an action whose name is already
registered violates the uniqueness assertion and, execution continuing, files
the name under the later action: `FindAction` on the name returns the action
just registered, and every other name keeps its entry. -/
theorem C1_register_overrides (m : ACTION_MANAGER) (a : Ptr) :
    ((m.FindAction (m.nameOf a)).isSome = true → (m.RegisterAction a).assertFailed = true) ∧
    (m.RegisterAction a).val.FindAction (m.nameOf a) = some a ∧
    ∀ s, s ≠ m.nameOf a → (m.RegisterAction a).val.FindAction s = m.FindAction s := by
  refine ⟨?_, ?_, ?_⟩
  · intro h
    simp only [FindAction, nameOf] at h
    cases hf : StdMap.find m.m_actionNameIndex (m.heap a).m_name with
    | none => simp [hf] at h
    | some p => simp [RegisterAction, hf]
  · exact findAction_register_self m a
  · intro s hs
    simp only [RegisterAction, FindAction, nameOf] at hs ⊢
    exact StdMap.find_assign_ne _ _ _ _ hs

/-- C1, an instance: in the manager constructed from `t.a` (stored at address
0), registering the action at address 5, also named `t.a`, trips the assertion
and leaves `FindAction` returning address 5. -/
theorem C1_register_overrides_witness :
    (Scenario.single.FindAction (Scenario.single.nameOf 5)).isSome = true ∧
    (Scenario.single.RegisterAction 5).assertFailed = true ∧
    (Scenario.single.RegisterAction 5).val.FindAction (Scenario.single.nameOf 5) = some 5 :=
  ⟨by decide,
   (C1_register_overrides Scenario.single 5).1 (by decide),
   (C1_register_overrides Scenario.single 5).2.1⟩

/-- C1 (as stated) fails: the name `t.a` is registered for the action at
address 0; after registering the action at address 5, which carries the same
name, `FindAction` no longer returns the original action but the later one. -/
theorem C1_counterexample :
    Scenario.single.FindAction "t.a".toList = some 0 ∧
    Scenario.single.nameOf 5 = "t.a".toList ∧
    (Scenario.single.RegisterAction 5).val.FindAction "t.a".toList = some 5 ∧
    (Scenario.single.RegisterAction 5).val.FindAction "t.a".toList ≠
      Scenario.single.FindAction "t.a".toList := by
  decide

/-- C2. `RegisterAction` violates an assertion exactly when the name has no
`.` or the name is already registered; with a qualified name that is not yet
registered no assertion is violated and the action is registered. -/
theorem C2_register_fails_iff (m : ACTION_MANAGER) (a : Ptr) :
    ((m.RegisterAction a).assertFailed = true ↔
      ('.' ∉ m.nameOf a ∨ ∃ p, m.FindAction (m.nameOf a) = some p)) ∧
    ('.' ∈ m.nameOf a → m.FindAction (m.nameOf a) = none →
      (m.RegisterAction a).assertFailed = false ∧
      (m.RegisterAction a).val.FindAction (m.nameOf a) = some a) := by
  have key : (m.RegisterAction a).assertFailed = true ↔
      ('.' ∉ m.nameOf a ∨ ∃ p, m.FindAction (m.nameOf a) = some p) := by
    simp only [RegisterAction, FindAction, nameOf, hasDot]
    cases hf : StdMap.find m.m_actionNameIndex (m.heap a).m_name with
    | none => simp
    | some p => simp
  refine ⟨key, ?_⟩
  intro hdot hnone
  refine ⟨?_, findAction_register_self m a⟩
  cases hb : (m.RegisterAction a).assertFailed with
  | false => rfl
  | true =>
    rcases key.mp hb with h | ⟨p, hp⟩
    · exact absurd hdot h
    · rw [hnone] at hp; cases hp

/-- C2, instances: registering `t.a` again in the manager that already has it
violates the assertion; in the freshly initialised manager it does not. -/
theorem C2_register_fails_iff_witness :
    (Scenario.single.RegisterAction 5).assertFailed = true ∧
    ((ACTION_MANAGER.empty Scenario.store 0).RegisterAction 5).assertFailed = false ∧
    ((ACTION_MANAGER.empty Scenario.store 0).RegisterAction 5).val.FindAction
      ((ACTION_MANAGER.empty Scenario.store 0).nameOf 5) = some 5 :=
  ⟨(C2_register_fails_iff Scenario.single 5).1.mpr (Or.inr ⟨0, by decide⟩),
   (C2_register_fails_iff (ACTION_MANAGER.empty Scenario.store 0) 5).2 (by decide) (by decide)⟩

end ACTION_MANAGER


/-! ## The id counter -/

theorem makeActionId_eq (n : std_string) (c : Int) (h₁ : -2147483648 ≤ c)
    (h₂ : c < 2147483647) : ACTION_MANAGER.MakeActionId n c = (c, c + 1) := by
  have h : toSigned (toUnsigned (c + 1)) = c + 1 := by
    unfold toUnsigned toSigned
    split_ifs <;> omega
  simp only [ACTION_MANAGER.MakeActionId, h]

theorem issued_snoc (issued : List Int) (cur : Int) (hc : cur = issued.length + 1)
    (hi : issued = (List.range issued.length).map (fun i : Nat => (i : Int) + 1)) :
    cur + 1 = ((issued ++ [cur]).length : Int) + 1 ∧
    issued ++ [cur] =
      (List.range (issued ++ [cur]).length).map (fun i : Nat => (i : Int) + 1) := by
  constructor
  · simp [hc]
  · rw [List.length_append, List.length_singleton, List.range_succ, List.map_append, ← hi]
    simp [hc]

theorem ctorStep_issued_length (r : ACTION_MANAGER.Constructed) (a : TOOL_ACTION) :
    (ACTION_MANAGER.ctorStep r a).issued.length =
      if a.m_id = -1 then r.issued.length + 1 else r.issued.length := by
  by_cases h : a.m_id = -1 <;> simp [ACTION_MANAGER.ctorStep, h]

theorem ctorLoop_issued_length (L : List TOOL_ACTION) :
    ∀ r : ACTION_MANAGER.Constructed,
      r.issued.length ≤ (ACTION_MANAGER.ctorLoop L r).issued.length := by
  induction L with
  | nil => intro r; exact le_refl _
  | cons a rest ih =>
    intro r
    have h1 := ih (ACTION_MANAGER.ctorStep r a)
    have h2 := ctorStep_issued_length r a
    have h3 : ACTION_MANAGER.ctorLoop (a :: rest) r =
        ACTION_MANAGER.ctorLoop rest (ACTION_MANAGER.ctorStep r a) := rfl
    rw [h3]
    split_ifs at h2 <;> omega

theorem ctorLoop_issued (L : List TOOL_ACTION) :
    ∀ (r : ACTION_MANAGER.Constructed) (before : List Int),
      r.currentActionId = (before ++ r.issued).length + 1 →
      before ++ r.issued =
        (List.range (before ++ r.issued).length).map (fun i : Nat => (i : Int) + 1) →
      (before ++ (ACTION_MANAGER.ctorLoop L r).issued).length < 2147483647 →
      (ACTION_MANAGER.ctorLoop L r).currentActionId =
          (before ++ (ACTION_MANAGER.ctorLoop L r).issued).length + 1 ∧
        before ++ (ACTION_MANAGER.ctorLoop L r).issued =
          (List.range (before ++ (ACTION_MANAGER.ctorLoop L r).issued).length).map
            (fun i : Nat => (i : Int) + 1) := by
  induction L with
  | nil => intro r before hc hi _; exact ⟨hc, hi⟩
  | cons action rest ih =>
    intro r before hc hi hb
    have hloop : ACTION_MANAGER.ctorLoop (action :: rest) r =
        ACTION_MANAGER.ctorLoop rest (ACTION_MANAGER.ctorStep r action) := rfl
    rw [hloop] at hb ⊢
    have hmono := ctorLoop_issued_length rest (ACTION_MANAGER.ctorStep r action)
    have hlen := ctorStep_issued_length r action
    by_cases hid : action.m_id = -1
    · rw [if_pos hid] at hlen
      have hcur : r.currentActionId < 2147483647 := by
        rw [hc]
        simp only [List.length_append] at hb ⊢
        push_cast
        omega
      have hlow : -2147483648 ≤ r.currentActionId := by
        rw [hc]
        have : (0 : Int) ≤ ((before ++ r.issued).length : Int) := Int.natCast_nonneg _
        omega
      have hmk := makeActionId_eq action.m_name r.currentActionId hlow hcur
      have h := issued_snoc (before ++ r.issued) r.currentActionId hc hi
      rw [List.append_assoc] at h
      apply ih _ _ _ _ hb
      · simpa [ACTION_MANAGER.ctorStep, hid, hmk] using h.1
      · simpa [ACTION_MANAGER.ctorStep, hid, hmk] using h.2
    · apply ih _ _ _ _ hb
      · simpa [ACTION_MANAGER.ctorStep, hid] using hc
      · simpa [ACTION_MANAGER.ctorStep, hid] using hi

theorem call_issued_length (p : Process) (c : Call) :
    p.issued.length ≤ (p.call c).issued.length := by
  cases c with
  | makeActionId n => simp [Process.call]
  | construct heap heapNext actionList => simp [Process.call]
  | registerAction a => exact le_refl _
  | unregisterAction a => exact le_refl _
  | updateHotKeys l u => exact le_refl _

theorem run_issued_length (calls : List Call) :
    ∀ p : Process, p.issued.length ≤ (p.run calls).issued.length := by
  induction calls with
  | nil => intro p; exact le_refl _
  | cons c rest ih =>
    intro p
    exact le_trans (call_issued_length p c) (ih (p.call c))

theorem call_issued (p : Process) (c : Call)
    (hc : p.currentActionId = p.issued.length + 1)
    (hi : p.issued = (List.range p.issued.length).map (fun i : Nat => (i : Int) + 1))
    (hb : (p.call c).issued.length < 2147483647) :
    (p.call c).currentActionId = (p.call c).issued.length + 1 ∧
      (p.call c).issued =
        (List.range (p.call c).issued.length).map (fun i : Nat => (i : Int) + 1) := by
  cases c with
  | makeActionId n =>
    have hlen : (p.call (Call.makeActionId n)).issued.length = p.issued.length + 1 := by
      simp [Process.call]
    have hmk := makeActionId_eq n p.currentActionId
      (by rw [hc]; have : (0 : Int) ≤ (p.issued.length : Int) := Int.natCast_nonneg _; omega)
      (by rw [hc]; omega)
    have h := issued_snoc p.issued p.currentActionId hc hi
    exact ⟨by simpa [Process.call, hmk] using h.1, by simpa [Process.call, hmk] using h.2⟩
  | construct heap heapNext actionList =>
    exact ctorLoop_issued actionList _ p.issued (by simpa using hc) (by simpa using hi)
      (by simpa [Process.call, ACTION_MANAGER.ctor] using hb)
  | registerAction a => exact ⟨hc, hi⟩
  | unregisterAction a => exact ⟨hc, hi⟩
  | updateHotKeys l u => exact ⟨hc, hi⟩

theorem run_issued (calls : List Call) :
    ∀ p : Process, p.currentActionId = p.issued.length + 1 →
      p.issued = (List.range p.issued.length).map (fun i : Nat => (i : Int) + 1) →
      (p.run calls).issued.length < 2147483647 →
      (p.run calls).issued =
        (List.range (p.run calls).issued.length).map (fun i : Nat => (i : Int) + 1) := by
  induction calls with
  | nil => intro p _ hi _; exact hi
  | cons c rest ih =>
    intro p hc hi hb
    have hrun : p.run (c :: rest) = (p.call c).run rest := rfl
    rw [hrun] at hb ⊢
    have h := call_issued p c hc hi (lt_of_le_of_lt (run_issued_length rest (p.call c)) hb)
    exact ih (p.call c) h.1 h.2 hb

/-- C4. Whatever calls are made from process start (to `MakeActionId`, to the
constructor, to `RegisterAction`, `UnregisterAction`, `UpdateHotKeys`, with
whatever arguments), as long as `MakeActionId` has been called fewer than
2147483647 times (`INT_MAX`, so no increment of its `int` counter has
overflowed), the values it returned are 1, 2, 3, ... in call order: the n-th
call returns n, so they are strictly increasing and no value is returned
twice. -/
theorem C4_ids_count_up (mgr : ACTION_MANAGER) (calls : List Call)
    (hcalls : ((Process.start mgr).run calls).issued.length < 2147483647) :
    ((Process.start mgr).run calls).issued =
        (List.range ((Process.start mgr).run calls).issued.length).map
          (fun i : Nat => (i : Int) + 1) ∧
      ((Process.start mgr).run calls).issued.Pairwise (fun x y => x < y) ∧
      ((Process.start mgr).run calls).issued.Nodup := by
  have h := run_issued calls (Process.start mgr) (by simp [Process.start])
    (by simp [Process.start]) hcalls
  have hp : ((Process.start mgr).run calls).issued.Pairwise (fun x y => x < y) := by
    rw [h, List.pairwise_map]
    exact List.Pairwise.imp (fun hab => by simpa using hab) (List.pairwise_lt_range _)
  exact ⟨h, hp, List.Pairwise.imp (fun hab => ne_of_lt hab) hp⟩

/-- C4, an instance: a call of `MakeActionId`, a construction from two actions
without id, an `UnregisterAction`, an `UpdateHotKeys` and a second call of
`MakeActionId` return the ids 1, 2, 3, 4. -/
theorem C4_ids_count_up_witness :
    ((Process.start Scenario.single).run Scenario.fourIds).issued.length < 2147483647 ∧
    ((Process.start Scenario.single).run Scenario.fourIds).issued = [1, 2, 3, 4] ∧
    ((Process.start Scenario.single).run Scenario.fourIds).issued.Nodup :=
  ⟨by decide,
   (C4_ids_count_up Scenario.single Scenario.fourIds (by decide)).1.trans (by decide),
   (C4_ids_count_up Scenario.single Scenario.fourIds (by decide)).2.2⟩


/-! ## The name index in reachable states -/

namespace ACTION_MANAGER

theorem sameButHotKey_refl (a : TOOL_ACTION) : SameButHotKey a a :=
  ⟨rfl, rfl, rfl, rfl, rfl⟩

theorem sameButHotKey_trans {a b c : TOOL_ACTION} (h₁ : SameButHotKey a b)
    (h₂ : SameButHotKey b c) : SameButHotKey a c :=
  ⟨h₁.1.trans h₂.1, h₁.2.1.trans h₂.2.1, h₁.2.2.1.trans h₂.2.2.1,
    h₁.2.2.2.1.trans h₂.2.2.2.1, h₁.2.2.2.2.trans h₂.2.2.2.2⟩

theorem processHotKey_heap (heap : Ptr → TOOL_ACTION) (a : Ptr)
    (l u : StdMap std_string Int) (q : Ptr) :
    SameButHotKey ((processHotKey heap a l u).1 q) (heap q) := by
  unfold processHotKey
  by_cases hq : q = a
  · subst hq
    simp [SameButHotKey]
  · simp [Function.update_noteq hq, sameButHotKey_refl]

theorem updateHotKeysStep_heap (l u : StdMap std_string Int) (m : ACTION_MANAGER) (a q : Ptr) :
    SameButHotKey ((updateHotKeysStep l u m a).heap q) (m.heap q) := by
  simp only [updateHotKeysStep]
  split_ifs <;> exact processHotKey_heap m.heap a l u q

theorem updateHotKeysStep_index (l u : StdMap std_string Int) (m : ACTION_MANAGER) (a : Ptr) :
    (updateHotKeysStep l u m a).m_actionNameIndex = m.m_actionNameIndex := by
  simp only [updateHotKeysStep]
  split_ifs <;> rfl

theorem updateHotKeysLoop_frame (l u : StdMap std_string Int) (es : List (std_string × Ptr)) :
    ∀ m : ACTION_MANAGER,
      (updateHotKeysLoop l u es m).m_actionNameIndex = m.m_actionNameIndex ∧
      ∀ q, SameButHotKey ((updateHotKeysLoop l u es m).heap q) (m.heap q) := by
  induction es with
  | nil => intro m; exact ⟨rfl, fun q => sameButHotKey_refl _⟩
  | cons e rest ih =>
    intro m
    have h := ih (updateHotKeysStep l u m e.2)
    refine ⟨h.1.trans (updateHotKeysStep_index l u m e.2), fun q => ?_⟩
    exact sameButHotKey_trans (h.2 q) (updateHotKeysStep_heap l u m e.2 q)

theorem updateHotKeys_index (m : ACTION_MANAGER) (l u : StdMap std_string Int) :
    (UpdateHotKeys m l u).m_actionNameIndex = m.m_actionNameIndex :=
  (updateHotKeysLoop_frame l u m.m_actionNameIndex _).1

theorem updateHotKeys_heap (m : ACTION_MANAGER) (l u : StdMap std_string Int) (q : Ptr) :
    SameButHotKey ((UpdateHotKeys m l u).heap q) (m.heap q) :=
  (updateHotKeysLoop_frame l u m.m_actionNameIndex _).2 q

theorem nameIndexOK_register (m : ACTION_MANAGER) (a : Ptr) (h : NameIndexOK m) :
    NameIndexOK (RegisterAction m a).val := by
  refine ⟨StdMap.ordered_assign _ _ _ h.1, ?_⟩
  intro e he
  rcases StdMap.mem_assign_cases _ _ _ _ he with he | he
  · subst he; rfl
  · exact h.2 e he

theorem unregister_index (m : ACTION_MANAGER) (a : Ptr) :
    (UnregisterAction m a).m_actionNameIndex = StdMap.erase m.m_actionNameIndex (m.nameOf a) ∧
    (UnregisterAction m a).heap = m.heap := by
  simp only [UnregisterAction, nameOf]
  split_ifs <;> exact ⟨rfl, rfl⟩

theorem nameIndexOK_unregister (m : ACTION_MANAGER) (a : Ptr) (h : NameIndexOK m) :
    NameIndexOK (UnregisterAction m a) := by
  obtain ⟨hi, hh⟩ := unregister_index m a
  refine ⟨?_, ?_⟩
  · rw [hi]; exact StdMap.ordered_erase _ _ h.1
  · intro e he
    rw [hi] at he
    rw [hh]
    exact h.2 e (StdMap.mem_erase _ _ _ he).1

theorem nameIndexOK_update (m : ACTION_MANAGER) (l u : StdMap std_string Int)
    (h : NameIndexOK m) : NameIndexOK (UpdateHotKeys m l u) := by
  refine ⟨?_, ?_⟩
  · rw [updateHotKeys_index]; exact h.1
  · intro e he
    rw [updateHotKeys_index] at he
    rw [(updateHotKeys_heap m l u e.2).1]
    exact h.2 e he

theorem ctorLoop_nameIndexOK (L : List TOOL_ACTION) :
    ∀ r : Constructed, NameIndexOK r.mgr →
      (∀ e ∈ r.mgr.m_actionNameIndex, e.2 < r.mgr.heapNext) →
      NameIndexOK (ctorLoop L r).mgr := by
  induction L with
  | nil => intro r h _; exact h
  | cons action rest ih =>
    intro r h hlt
    unfold ctorLoop
    apply ih
    · refine ⟨StdMap.ordered_assign _ _ _ h.1, ?_⟩
      intro e he
      rcases StdMap.mem_assign_cases _ _ _ _ he with he | he
      · subst he; rfl
      · have hne : e.2 ≠ r.mgr.heapNext := ne_of_lt (hlt e he)
        simpa [ctorStep, RegisterAction, new, Function.update_noteq hne] using h.2 e he
    · intro e he
      rcases StdMap.mem_assign_cases _ _ _ _ he with he | he
      · subst he; simp [ctorStep, RegisterAction, new]
      · exact Nat.lt_succ_of_lt (hlt e he)

theorem nameIndexOK_of_reachable {m : ACTION_MANAGER} (h : Reachable m) : NameIndexOK m := by
  induction h with
  | construct heap heapNext actionList cur =>
    apply ctorLoop_nameIndexOK
    · exact ⟨List.Pairwise.nil, fun e he => by simp [empty] at he⟩
    · intro e he; simp [empty] at he
  | register a _ ih => exact nameIndexOK_register _ a ih
  | unregister a _ ih => exact nameIndexOK_unregister _ a ih
  | update l u _ ih => exact nameIndexOK_update _ l u ih

theorem findAction_iff_of_nameIndexOK (m : ACTION_MANAGER) (h : NameIndexOK m)
    (s : std_string) (a : Ptr) :
    m.FindAction s = some a ↔ (a ∈ m.registered ∧ m.nameOf a = s) := by
  constructor
  · intro hf
    have hm := StdMap.mem_of_find _ _ _ hf
    exact ⟨List.mem_map.mpr ⟨(s, a), hm, rfl⟩, h.2 _ hm⟩
  · rintro ⟨hr, hn⟩
    obtain ⟨e, he, rfl⟩ := List.mem_map.mp hr
    have hk : e.1 = s := (h.2 e he).symm.trans hn
    have he' : (s, e.2) ∈ m.m_actionNameIndex := by rw [← hk]; exact he
    exact StdMap.find_of_mem _ _ _ h.1 he'

/-- C3. In every reachable state `FindAction( s )` returns the action `a`
exactly when `a` is registered and its name is `s`; for a string that is not
the full name of a registered action (a proper initial part of a registered
name included) it returns `NULL`. -/
theorem C3_find_exact (m : ACTION_MANAGER) (h : Reachable m) (s : std_string) :
    (∀ a, m.FindAction s = some a ↔ (a ∈ m.registered ∧ m.nameOf a = s)) ∧
    ((∀ a ∈ m.registered, m.nameOf a ≠ s) → m.FindAction s = none) := by
  have hok := nameIndexOK_of_reachable h
  refine ⟨fun a => findAction_iff_of_nameIndexOK m hok s a, ?_⟩
  intro hn
  cases hf : m.FindAction s with
  | none => rfl
  | some a =>
    have := (findAction_iff_of_nameIndexOK m hok s a).mp hf
    exact absurd this.2 (hn a this.1)

/-- C3, an instance: with `pcbnew.Control.zoomIn` and `pcbnew.Control.zoom`
registered, each full name is found, and neither the initial part
`pcbnew.Control` nor the longer `pcbnew.Control.zoomIn2` is. -/
theorem C3_find_exact_witness :
    Scenario.zoom.FindAction "pcbnew.Control.zoomIn".toList = some 0 ∧
    Scenario.zoom.FindAction "pcbnew.Control.zoom".toList = some 1 ∧
    Scenario.zoom.FindAction "pcbnew.Control".toList = none ∧
    Scenario.zoom.FindAction "pcbnew.Control.zoomIn2".toList = none :=
  ⟨((C3_find_exact Scenario.zoom (Reachable.construct _ _ _ _)
      "pcbnew.Control.zoomIn".toList).1 0).mpr (by decide),
   by decide,
   (C3_find_exact Scenario.zoom (Reachable.construct _ _ _ _)
      "pcbnew.Control".toList).2 (by decide),
   by decide⟩

end ACTION_MANAGER


/-! ## Ids after construction -/

namespace ACTION_MANAGER

theorem ctorStep_index (r : Constructed) (a : TOOL_ACTION) :
    (ctorStep r a).mgr.m_actionNameIndex =
      StdMap.assign r.mgr.m_actionNameIndex a.m_name r.mgr.heapNext := by
  simp [ctorStep, RegisterAction, new]

theorem ctorStep_heap_new (r : Constructed) (a : TOOL_ACTION) :
    (ctorStep r a).mgr.heap r.mgr.heapNext =
      { a with m_id := if a.m_id = -1 then r.currentActionId else a.m_id } := by
  by_cases h : a.m_id = -1 <;> simp [ctorStep, RegisterAction, new, MakeActionId, h]

theorem ctorStep_heap_old (r : Constructed) (a : TOOL_ACTION) (q : Ptr)
    (h : q ≠ r.mgr.heapNext) : (ctorStep r a).mgr.heap q = r.mgr.heap q := by
  simp [ctorStep, RegisterAction, new, Function.update_noteq h]

theorem ctorStep_heapNext (r : Constructed) (a : TOOL_ACTION) :
    (ctorStep r a).mgr.heapNext = r.mgr.heapNext + 1 := by
  simp [ctorStep, RegisterAction, new]

theorem ctorStep_counter (r : Constructed) (a : TOOL_ACTION)
    (h₁ : -2147483648 ≤ r.currentActionId)
    (h₂ : a.m_id = -1 → r.currentActionId < 2147483647) :
    (ctorStep r a).currentActionId =
      if a.m_id = -1 then r.currentActionId + 1 else r.currentActionId := by
  by_cases h : a.m_id = -1
  · have hm := makeActionId_eq a.m_name r.currentActionId h₁ (h₂ h)
    simp [ctorStep, hm, h]
  · simp [ctorStep, h]

theorem autoCount_cons (a : TOOL_ACTION) (L : List TOOL_ACTION) :
    autoCount (a :: L) = if a.m_id = -1 then autoCount L + 1 else autoCount L := by
  by_cases h : a.m_id = -1 <;> simp [autoCount, List.filter_cons, h]

theorem explicitIds_cons (a : TOOL_ACTION) (L : List TOOL_ACTION) :
    explicitIds (a :: L) = if a.m_id = -1 then explicitIds L else a.m_id :: explicitIds L := by
  by_cases h : a.m_id = -1 <;> simp [explicitIds, List.filter_cons, h]

theorem mem_explicitIds {a : TOOL_ACTION} {L : List TOOL_ACTION} (ha : a ∈ L)
    (h : a.m_id ≠ -1) : a.m_id ∈ explicitIds L := by
  simp only [explicitIds, List.mem_map, List.mem_filter]
  exact ⟨a, ⟨ha, by simpa using h⟩, rfl⟩

theorem idsDistinct_iff (m : ACTION_MANAGER) :
    IdsDistinct m ↔ ∀ e ∈ m.m_actionNameIndex, ∀ f ∈ m.m_actionNameIndex,
      m.idOf e.2 = m.idOf f.2 → e.2 = f.2 := by
  constructor
  · intro h e he f hf
    exact h _ (List.mem_map.mpr ⟨e, he, rfl⟩) _ (List.mem_map.mpr ⟨f, hf, rfl⟩)
  · intro h p hp q hq
    obtain ⟨e, he, rfl⟩ := List.mem_map.mp hp
    obtain ⟨f, hf, rfl⟩ := List.mem_map.mp hq
    exact h e he f hf

theorem ctorStep_bounds (r : Constructed) (a : TOOL_ACTION) (rest : List TOOL_ACTION)
    (hlow : -2147483648 ≤ r.currentActionId)
    (hhigh : r.currentActionId + autoCount (a :: rest) ≤ 2147483647) :
    ((ctorStep r a).currentActionId =
        if a.m_id = -1 then r.currentActionId + 1 else r.currentActionId) ∧
      -2147483648 ≤ (ctorStep r a).currentActionId ∧
      (ctorStep r a).currentActionId + autoCount rest ≤ 2147483647 := by
  have hac := autoCount_cons a rest
  have hcur := ctorStep_counter r a hlow (fun hid => by
    rw [hac, if_pos hid] at hhigh
    push_cast at hhigh
    omega)
  refine ⟨hcur, ?_, ?_⟩
  · rw [hcur]
    split_ifs <;> omega
  · rw [hcur]
    rw [hac] at hhigh
    split_ifs with hid
    · rw [if_pos hid] at hhigh
      push_cast at hhigh
      omega
    · rw [if_neg hid] at hhigh
      exact hhigh

theorem ctorLoop_inj (L : List TOOL_ACTION) :
    ∀ r : Constructed,
      -2147483648 ≤ r.currentActionId →
      r.currentActionId + autoCount L ≤ 2147483647 →
      (∀ e ∈ r.mgr.m_actionNameIndex, e.2 < r.mgr.heapNext) →
      (∀ e ∈ r.mgr.m_actionNameIndex, ∀ f ∈ r.mgr.m_actionNameIndex,
        r.mgr.idOf e.2 = r.mgr.idOf f.2 → e.2 = f.2) →
      (∀ e ∈ r.mgr.m_actionNameIndex,
        r.mgr.idOf e.2 < r.currentActionId ∨
          r.currentActionId + autoCount L ≤ r.mgr.idOf e.2) →
      (∀ a ∈ L, a.m_id ≠ -1 →
        (a.m_id < r.currentActionId ∨ r.currentActionId + autoCount L ≤ a.m_id) ∧
        ∀ e ∈ r.mgr.m_actionNameIndex, r.mgr.idOf e.2 ≠ a.m_id) →
      (explicitIds L).Nodup →
      (∀ e ∈ (ctorLoop L r).mgr.m_actionNameIndex, ∀ f ∈ (ctorLoop L r).mgr.m_actionNameIndex,
        (ctorLoop L r).mgr.idOf e.2 = (ctorLoop L r).mgr.idOf f.2 → e.2 = f.2) := by
  induction L with
  | nil =>
    intro r _ _ _ hinj _ _ _
    exact hinj
  | cons a rest ih =>
    intro r hlow hhigh hlt hinj hrange hexp hnd
    have hidx := ctorStep_index r a
    have hnew := ctorStep_heap_new r a
    have hold := ctorStep_heap_old r a
    have hnx := ctorStep_heapNext r a
    obtain ⟨hcur, hlow1, hhigh1⟩ := ctorStep_bounds r a rest hlow hhigh
    have hac := autoCount_cons a rest
    have hmem : ∀ e ∈ (ctorStep r a).mgr.m_actionNameIndex,
        e = (a.m_name, r.mgr.heapNext) ∨ e ∈ r.mgr.m_actionNameIndex := by
      intro e he
      rw [hidx] at he
      exact StdMap.mem_assign_cases _ _ _ _ he
    have hidOld : ∀ e ∈ r.mgr.m_actionNameIndex,
        (ctorStep r a).mgr.idOf e.2 = r.mgr.idOf e.2 := by
      intro e he
      simp only [idOf]
      rw [hold e.2 (ne_of_lt (hlt e he))]
    have hidNew : (ctorStep r a).mgr.idOf r.mgr.heapNext =
        if a.m_id = -1 then r.currentActionId else a.m_id := by
      simp only [idOf]
      rw [hnew]
    have hnewOld : ∀ e ∈ r.mgr.m_actionNameIndex,
        (ctorStep r a).mgr.idOf e.2 ≠ (ctorStep r a).mgr.idOf r.mgr.heapNext := by
      intro e he
      rw [hidOld e he, hidNew]
      by_cases hid : a.m_id = -1
      · have := hrange e he
        simp only [hid, if_true] at this hac ⊢
        rw [hac] at this
        push_cast at this
        omega
      · simp only [hid, if_false]
        exact (hexp a (List.mem_cons_self _ _) hid).2 e he
    have hlt1 : ∀ e ∈ (ctorStep r a).mgr.m_actionNameIndex, e.2 < (ctorStep r a).mgr.heapNext := by
      intro e he
      rw [hnx]
      rcases hmem e he with h | h
      · subst h; exact Nat.lt_succ_self _
      · exact Nat.lt_succ_of_lt (hlt e h)
    have hinj1 : ∀ e ∈ (ctorStep r a).mgr.m_actionNameIndex,
        ∀ f ∈ (ctorStep r a).mgr.m_actionNameIndex,
        (ctorStep r a).mgr.idOf e.2 = (ctorStep r a).mgr.idOf f.2 → e.2 = f.2 := by
      intro e he f hf hef
      rcases hmem e he with h | h <;> rcases hmem f hf with h' | h'
      · subst h; subst h'; rfl
      · subst h; exact absurd hef.symm (hnewOld f h')
      · subst h'; exact absurd hef (hnewOld e h)
      · rw [hidOld e h, hidOld f h'] at hef
        exact hinj e h f h' hef
    have hrange1 : ∀ e ∈ (ctorStep r a).mgr.m_actionNameIndex,
        (ctorStep r a).mgr.idOf e.2 < (ctorStep r a).currentActionId ∨
          (ctorStep r a).currentActionId + autoCount rest ≤ (ctorStep r a).mgr.idOf e.2 := by
      intro e he
      rw [hcur]
      rcases hmem e he with h | h
      · subst h
        show (ctorStep r a).mgr.idOf r.mgr.heapNext < _ ∨ _ ≤ (ctorStep r a).mgr.idOf r.mgr.heapNext
        rw [hidNew]
        by_cases hid : a.m_id = -1
        · simp only [hid, if_true]; omega
        · simp only [hid, if_false] at hac ⊢
          have := (hexp a (List.mem_cons_self _ _) hid).1
          rw [hac] at this
          exact this
      · rw [hidOld e h]
        have := hrange e h
        by_cases hid : a.m_id = -1
        · simp only [hid, if_true] at hac ⊢
          rw [hac] at this
          push_cast at this
          omega
        · simp only [hid, if_false] at hac ⊢
          rw [hac] at this
          exact this
    have hnd' : (explicitIds rest).Nodup ∧ ∀ b ∈ rest, b.m_id ≠ -1 → a.m_id ≠ -1 →
        b.m_id ≠ a.m_id := by
      rw [explicitIds_cons] at hnd
      by_cases hid : a.m_id = -1
      · simp only [hid, if_true] at hnd
        exact ⟨hnd, fun b _ _ h => absurd hid h⟩
      · simp only [hid, if_false] at hnd
        refine ⟨(List.nodup_cons.mp hnd).2, fun b hb hbid _ hba => ?_⟩
        exact (List.nodup_cons.mp hnd).1 (hba ▸ mem_explicitIds hb hbid)
    have hexp1 : ∀ b ∈ rest, b.m_id ≠ -1 →
        (b.m_id < (ctorStep r a).currentActionId ∨
          (ctorStep r a).currentActionId + autoCount rest ≤ b.m_id) ∧
        ∀ e ∈ (ctorStep r a).mgr.m_actionNameIndex, (ctorStep r a).mgr.idOf e.2 ≠ b.m_id := by
      intro b hb hbid
      have hb0 := hexp b (List.mem_cons_of_mem _ hb) hbid
      refine ⟨?_, ?_⟩
      · rw [hcur]
        have := hb0.1
        by_cases hid : a.m_id = -1
        · simp only [hid, if_true] at hac ⊢
          rw [hac] at this
          push_cast at this
          omega
        · simp only [hid, if_false] at hac ⊢
          rw [hac] at this
          exact this
      · intro e he
        rcases hmem e he with h | h
        · subst h
          show (ctorStep r a).mgr.idOf r.mgr.heapNext ≠ b.m_id
          rw [hidNew]
          by_cases hid : a.m_id = -1
          · have := hb0.1
            simp only [hid, if_true] at hac ⊢
            rw [hac] at this
            push_cast at this
            omega
          · simp only [hid, if_false]
            exact fun h => hnd'.2 b hb hbid hid h.symm
        · rw [hidOld e h]
          exact hb0.2 e h
    exact ih (ctorStep r a) hlow1 hhigh1 hlt1 hinj1 hrange1 hexp1 hnd'.1

theorem ctorLoop_found (L : List TOOL_ACTION) :
    ∀ r : Constructed,
      -2147483648 ≤ r.currentActionId →
      r.currentActionId + autoCount L ≤ 2147483647 →
      NameIndexOK r.mgr →
      (∀ e ∈ r.mgr.m_actionNameIndex, e.2 < r.mgr.heapNext) →
      (L.map (fun a => a.m_name)).Nodup →
      (∀ a ∈ L, ∀ e ∈ r.mgr.m_actionNameIndex, e.1 ≠ a.m_name) →
      (∀ e ∈ r.mgr.m_actionNameIndex, (ctorLoop L r).mgr.FindAction e.1 = some e.2 ∧
        (ctorLoop L r).mgr.heap e.2 = r.mgr.heap e.2) ∧
      (∀ a ∈ L, ∃ p, (ctorLoop L r).mgr.FindAction a.m_name = some p ∧
        (ctorLoop L r).mgr.heap p = { a with m_id := (ctorLoop L r).mgr.idOf p } ∧
        (a.m_id ≠ -1 → (ctorLoop L r).mgr.idOf p = a.m_id) ∧
        (a.m_id = -1 → r.currentActionId ≤ (ctorLoop L r).mgr.idOf p ∧
          (ctorLoop L r).mgr.idOf p < r.currentActionId + autoCount L)) := by
  induction L with
  | nil =>
    intro r _ _ hok _ _ _
    refine ⟨?_, ?_⟩
    · intro e he
      exact ⟨StdMap.find_of_mem _ _ _ hok.1 he, rfl⟩
    · intro a ha; simp at ha
  | cons a rest ih =>
    intro r hlow hhigh hok hlt hnames hfresh
    have hidx := ctorStep_index r a
    have hnew := ctorStep_heap_new r a
    have hold := ctorStep_heap_old r a
    have hnx := ctorStep_heapNext r a
    obtain ⟨hcur, hlow1, hhigh1⟩ := ctorStep_bounds r a rest hlow hhigh
    have hac := autoCount_cons a rest
    have hmem : ∀ e ∈ (ctorStep r a).mgr.m_actionNameIndex,
        e = (a.m_name, r.mgr.heapNext) ∨ e ∈ r.mgr.m_actionNameIndex := by
      intro e he
      rw [hidx] at he
      exact StdMap.mem_assign_cases _ _ _ _ he
    have hok1 : NameIndexOK (ctorStep r a).mgr := by
      refine ⟨by rw [hidx]; exact StdMap.ordered_assign _ _ _ hok.1, ?_⟩
      intro e he
      rcases hmem e he with h | h
      · subst h
        show ((ctorStep r a).mgr.heap r.mgr.heapNext).m_name = a.m_name
        rw [hnew]
      · rw [hold e.2 (ne_of_lt (hlt e h))]
        exact hok.2 e h
    have hlt1 : ∀ e ∈ (ctorStep r a).mgr.m_actionNameIndex, e.2 < (ctorStep r a).mgr.heapNext := by
      intro e he
      rw [hnx]
      rcases hmem e he with h | h
      · subst h; exact Nat.lt_succ_self _
      · exact Nat.lt_succ_of_lt (hlt e h)
    have hnames1 : (rest.map (fun a => a.m_name)).Nodup ∧
        ∀ b ∈ rest, b.m_name ≠ a.m_name := by
      rw [List.map_cons] at hnames
      refine ⟨(List.nodup_cons.mp hnames).2, fun b hb hba => ?_⟩
      exact (List.nodup_cons.mp hnames).1 (hba ▸ List.mem_map.mpr ⟨b, hb, rfl⟩)
    have hfresh1 : ∀ b ∈ rest, ∀ e ∈ (ctorStep r a).mgr.m_actionNameIndex, e.1 ≠ b.m_name := by
      intro b hb e he
      rcases hmem e he with h | h
      · subst h; exact (hnames1.2 b hb).symm
      · exact hfresh b (List.mem_cons_of_mem _ hb) e h
    obtain ⟨g2, g3⟩ := ih (ctorStep r a) hlow1 hhigh1 hok1 hlt1 hnames1.1 hfresh1
    have hnewMem : (a.m_name, r.mgr.heapNext) ∈ (ctorStep r a).mgr.m_actionNameIndex := by
      apply StdMap.mem_of_find
      rw [hidx]
      exact StdMap.find_assign_self _ _ _
    have hloop : ctorLoop (a :: rest) r = ctorLoop rest (ctorStep r a) := rfl
    rw [hloop]
    refine ⟨?_, ?_⟩
    · intro e he
      have hin : e ∈ (ctorStep r a).mgr.m_actionNameIndex := by
        apply StdMap.mem_of_find
        rw [hidx, StdMap.find_assign_ne _ _ _ _ (hfresh a (List.mem_cons_self _ _) e he)]
        exact StdMap.find_of_mem _ _ _ hok.1 he
      refine ⟨(g2 e hin).1, ?_⟩
      rw [(g2 e hin).2, hold e.2 (ne_of_lt (hlt e he))]
    · intro b hb
      rcases List.mem_cons.mp hb with h | h
      · subst h
        have hs := g2 _ hnewMem
        refine ⟨r.mgr.heapNext, hs.1, ?_, ?_, ?_⟩
        · simp only [idOf]
          rw [hs.2, hnew]
        · intro hid
          simp only [idOf]
          rw [hs.2, hnew]
          simp [hid]
        · intro hid
          simp only [idOf]
          rw [hs.2, hnew, hac]
          simp only [hid, if_true]
          push_cast
          omega
      · obtain ⟨p, hp1, hp2, hp3, hp4⟩ := g3 b h
        refine ⟨p, hp1, hp2, hp3, fun hid => ?_⟩
        have := hp4 hid
        rw [hcur] at this
        rw [hac]
        by_cases hida : a.m_id = -1
        · simp only [hida, if_true] at this ⊢
          push_cast
          omega
        · simp only [hida, if_false] at this ⊢
          exact this

/-- A construction from a static action list whose ids come from the counter
leaves the registered actions with pairwise distinct ids. -/
theorem idsDistinct_ctor (heap : Ptr → TOOL_ACTION) (heapNext : Ptr)
    (actionList : List TOOL_ACTION) (c : Int) (h : IdsFromCounter actionList c) :
    IdsDistinct (ctor heap heapNext actionList c).mgr := by
  obtain ⟨h1, h2, h3, h4⟩ := h
  refine (idsDistinct_iff _).mpr ?_
  exact ctorLoop_inj actionList
    { mgr := empty heap heapNext, actionList := [], currentActionId := c, issued := [],
      assertFailed := false }
    (show (-2147483648 : Int) ≤ c by omega) h2
    (fun e he => by simp [empty] at he)
    (fun e he => by simp [empty] at he)
    (fun e he => by simp [empty] at he)
    (fun a ha hid => ⟨Or.inl (h4 _ (mem_explicitIds ha hid)).2,
      fun e he => by simp [empty] at he⟩)
    h3

/-- C5. After construction from an action list with pairwise distinct names
whose ids come from the counter (every entry carries -1 or a value the counter
returned to an earlier construction), the registered actions have pairwise
distinct ids; every action of the list is registered as a copy that differs
from the entry at most in its id; an entry that has an id keeps it, an entry
without one (-1) receives a value the counter returns during this construction
(from its current value `c` up to `c` + the number of id-less entries - 1),
which no other registered action carries. -/
theorem C5_ctor_ids_distinct (heap : Ptr → TOOL_ACTION) (heapNext : Ptr)
    (actionList : List TOOL_ACTION) (c : Int)
    (hnames : (actionList.map (fun a => a.m_name)).Nodup)
    (hids : IdsFromCounter actionList c) :
    IdsDistinct (ctor heap heapNext actionList c).mgr ∧
    ∀ a ∈ actionList, ∃ p,
      (ctor heap heapNext actionList c).mgr.FindAction a.m_name = some p ∧
      p ∈ (ctor heap heapNext actionList c).mgr.registered ∧
      (ctor heap heapNext actionList c).mgr.heap p =
        { a with m_id := (ctor heap heapNext actionList c).mgr.idOf p } ∧
      (a.m_id ≠ -1 → (ctor heap heapNext actionList c).mgr.idOf p = a.m_id) ∧
      (a.m_id = -1 → c ≤ (ctor heap heapNext actionList c).mgr.idOf p ∧
        (ctor heap heapNext actionList c).mgr.idOf p < c + autoCount actionList) ∧
      ∀ q ∈ (ctor heap heapNext actionList c).mgr.registered, q ≠ p →
        (ctor heap heapNext actionList c).mgr.idOf q ≠
          (ctor heap heapNext actionList c).mgr.idOf p := by
  have hd := idsDistinct_ctor heap heapNext actionList c hids
  have h := ctorLoop_found actionList
    { mgr := empty heap heapNext, actionList := [], currentActionId := c, issued := [],
      assertFailed := false }
    (show (-2147483648 : Int) ≤ c by have := hids.1; omega) hids.2.1
    ⟨List.Pairwise.nil, fun e he => by simp [empty] at he⟩
    (fun e he => by simp [empty] at he)
    hnames
    (fun a _ e he => by simp [empty] at he)
  refine ⟨hd, fun a ha => ?_⟩
  obtain ⟨p, hp1, hp2, hp3, hp4⟩ := h.2 a ha
  have hreg : p ∈ (ctor heap heapNext actionList c).mgr.registered :=
    List.mem_map.mpr ⟨(a.m_name, p), StdMap.mem_of_find _ _ _ hp1, rfl⟩
  exact ⟨p, hp1, hreg, hp2, hp3, hp4, fun q hq hne heq => hne (hd q hq p hreg heq)⟩

/-- C5, an instance: `t.a` carries the id 1 from an earlier construction, `t.b`
and `t.c` carry none, the counter is at 2: the three registered ids are
pairwise distinct. -/
theorem C5_ctor_ids_distinct_witness :
    ((Scenario.mixedList.map (fun a => a.m_name)).Nodup ∧ IdsFromCounter Scenario.mixedList 2) ∧
    IdsDistinct Scenario.mixed.mgr ∧
    Scenario.mixed.mgr.idOf 0 = 1 ∧ Scenario.mixed.mgr.idOf 1 = 2 ∧
    Scenario.mixed.mgr.idOf 2 = 3 :=
  ⟨⟨by decide, by unfold IdsFromCounter; decide⟩,
   (C5_ctor_ids_distinct Scenario.store 0 Scenario.mixedList 2
    (by decide) (by unfold IdsFromCounter; decide)).1,
   by decide, by decide, by decide⟩

end ACTION_MANAGER


/-! ## Key resolution -/

namespace ACTION_MANAGER

theorem processHotKey_key (heap : Ptr → TOOL_ACTION) (a : Ptr) (l u : StdMap std_string Int) :
    (processHotKey heap a l u).2 = resolvedKey (heap a) l u := by
  simp only [processHotKey, resolvedKey, StdMap.count, StdMap.subscript]
  cases hu : StdMap.find u (heap a).m_name with
  | some k₃ => simp
  | none =>
    by_cases hl : (heap a).m_legacyName = []
    · simp [hl]
    · cases hf : StdMap.find l (heap a).m_legacyName with
      | some k₂ => simp [hl]
      | none => simp [hl]

theorem resolvedKey_congr {a b : TOOL_ACTION} (h : SameButHotKey a b)
    (l u : StdMap std_string Int) : resolvedKey a l u = resolvedKey b l u := by
  simp only [resolvedKey, h.1, h.2.2.1, h.2.2.2.1]

theorem updateHotKeysStep_skip (l u : StdMap std_string Int) (m : ACTION_MANAGER) (a : Ptr)
    (h : resolvedKey (m.heap a) l u ≤ 0) :
    (updateHotKeysStep l u m a).m_actionHotKeys = m.m_actionHotKeys ∧
      (updateHotKeysStep l u m a).m_hotkeys = m.m_hotkeys := by
  simp only [updateHotKeysStep]
  rw [processHotKey_key]
  simp [h]

/-- C8. `processHotKey` returns, and stores as the action's current key, the
key resolved by three-tier precedence: the user map's value if the user map has
an entry for the action's name; otherwise the legacy map's value if the action
has a non-empty legacy name present in the legacy map; otherwise the default
key. No other object is written. The value wins whatever its source: with a
user entry of 0 the result is 0, and the round of `UpdateHotKeys` for that
action leaves the hotkey table and the reverse map as they are. -/
theorem C8_processHotKey_precedence (m : ACTION_MANAGER) (a : Ptr)
    (l u : StdMap std_string Int) :
    (processHotKey m.heap a l u).2 = resolvedKey (m.heap a) l u ∧
    ((processHotKey m.heap a l u).1 a).m_hotKey = resolvedKey (m.heap a) l u ∧
    (∀ q, q ≠ a → (processHotKey m.heap a l u).1 q = m.heap q) ∧
    (StdMap.find u (m.heap a).m_name = some 0 →
      (processHotKey m.heap a l u).2 = 0 ∧
      (updateHotKeysStep l u m a).m_actionHotKeys = m.m_actionHotKeys ∧
      (updateHotKeysStep l u m a).m_hotkeys = m.m_hotkeys) := by
  have hk := processHotKey_key m.heap a l u
  refine ⟨hk, ?_, ?_, ?_⟩
  · rw [← hk]; simp [processHotKey]
  · intro q hq
    simp [processHotKey, Function.update_noteq hq]
  · intro h0
    have hr : resolvedKey (m.heap a) l u = 0 := by simp [resolvedKey, h0]
    exact ⟨hk.trans hr, updateHotKeysStep_skip l u m a (le_of_eq hr)⟩

/-- C8, instances on the Global action `t.a` with default key 65 and legacy
name empty: alone the default gives 65; a user entry 70 gives 70; a user entry
0 gives 0 and `UpdateHotKeys` then leaves the table empty and the action
unbound. -/
theorem C8_processHotKey_precedence_witness :
    (processHotKey Scenario.bound.heap 0 [] []).2 = 65 ∧
    (processHotKey Scenario.bound.heap 0 [] [("t.a".toList, 70)]).2 = 70 ∧
    (processHotKey Scenario.bound.heap 0 [] [("t.a".toList, 0)]).2 = 0 ∧
    (updateHotKeysStep [] [("t.a".toList, 0)] Scenario.bound 0).m_actionHotKeys =
      Scenario.bound.m_actionHotKeys ∧
    (Scenario.bound.UpdateHotKeys [] [("t.a".toList, 0)]).m_actionHotKeys = [] ∧
    (Scenario.bound.UpdateHotKeys [] [("t.a".toList, 0)]).GetHotKey 0 = 0 :=
  ⟨by decide, by decide,
   ((C8_processHotKey_precedence Scenario.bound 0 [] [("t.a".toList, 0)]).2.2.2
      (by decide)).1,
   ((C8_processHotKey_precedence Scenario.bound 0 [] [("t.a".toList, 0)]).2.2.2
      (by decide)).2.1,
   by decide, by decide⟩

end ACTION_MANAGER


/-! ## The hotkey table built by `UpdateHotKeys` -/

namespace ACTION_MANAGER

theorem isGlobal_congr {h₁ h₂ : Ptr → TOOL_ACTION} (h : ∀ q, SameButHotKey (h₁ q) (h₂ q)) :
    isGlobal h₁ = isGlobal h₂ := by
  funext q
  simp only [isGlobal, (h q).2.1]

theorem bucketStep_congr {h₁ h₂ : Ptr → TOOL_ACTION} (h : ∀ q, SameButHotKey (h₁ q) (h₂ q))
    (l u : StdMap std_string Int) (k : Int) :
    bucketStep h₁ l u k = bucketStep h₂ l u k := by
  funext b p
  simp only [bucketStep, isGlobal_congr h, resolvedKey_congr (h p)]

theorem subscript_nil_of_count {ν : Type} (hk : StdMap Int (List ν)) (k : Int)
    (h : ¬ StdMap.count hk k ≠ 0) : StdMap.subscript hk k [] = [] := by
  simp only [StdMap.count, StdMap.subscript] at h ⊢
  cases hf : StdMap.find hk k with
  | none => rfl
  | some v => simp [hf] at h

theorem updateHotKeysStep_table (l u : StdMap std_string Int) (m : ACTION_MANAGER) (a : Ptr)
    (h : 0 < resolvedKey (m.heap a) l u) :
    ∃ evicted : StdMap Int (List Ptr),
      (evicted = m.m_actionHotKeys ∨
        evicted = StdMap.assign m.m_actionHotKeys (resolvedKey (m.heap a) l u)
          ((bucket m (resolvedKey (m.heap a) l u)).filter (fun q => !(isGlobal m.heap q)))) ∧
      StdMap.subscript evicted (resolvedKey (m.heap a) l u) [] =
        (if isGlobal m.heap a = true then
          (bucket m (resolvedKey (m.heap a) l u)).filter (fun q => !(isGlobal m.heap q))
         else bucket m (resolvedKey (m.heap a) l u)) ∧
      (∀ k, k ≠ resolvedKey (m.heap a) l u →
        StdMap.find evicted k = StdMap.find m.m_actionHotKeys k) ∧
      (updateHotKeysStep l u m a).m_actionHotKeys =
        StdMap.assign evicted (resolvedKey (m.heap a) l u)
          (StdMap.subscript evicted (resolvedKey (m.heap a) l u) [] ++ [a]) ∧
      (updateHotKeysStep l u m a).m_hotkeys =
        StdMap.assign m.m_hotkeys (m.idOf a) (resolvedKey (m.heap a) l u) := by
  have hg : isGlobal (processHotKey m.heap a l u).1 = isGlobal m.heap :=
    isGlobal_congr (processHotKey_heap m.heap a l u)
  have hid : ((processHotKey m.heap a l u).1 a).m_id = m.idOf a :=
    (processHotKey_heap m.heap a l u a).2.2.2.2
  have hstep : (updateHotKeysStep l u m a).m_actionHotKeys =
      StdMap.assign
        (if isGlobal m.heap a = true ∧
            StdMap.count m.m_actionHotKeys (resolvedKey (m.heap a) l u) ≠ 0 then
          StdMap.assign m.m_actionHotKeys (resolvedKey (m.heap a) l u)
            ((bucket m (resolvedKey (m.heap a) l u)).filter (fun q => !(isGlobal m.heap q)))
         else m.m_actionHotKeys)
        (resolvedKey (m.heap a) l u)
        (StdMap.subscript
          (if isGlobal m.heap a = true ∧
              StdMap.count m.m_actionHotKeys (resolvedKey (m.heap a) l u) ≠ 0 then
            StdMap.assign m.m_actionHotKeys (resolvedKey (m.heap a) l u)
              ((bucket m (resolvedKey (m.heap a) l u)).filter (fun q => !(isGlobal m.heap q)))
           else m.m_actionHotKeys)
          (resolvedKey (m.heap a) l u) [] ++ [a]) ∧
      (updateHotKeysStep l u m a).m_hotkeys =
        StdMap.assign m.m_hotkeys (m.idOf a) (resolvedKey (m.heap a) l u) := by
    simp only [updateHotKeysStep]
    rw [processHotKey_key, hg, hid]
    simp [not_le.mpr h, bucket]
  by_cases hc : isGlobal m.heap a = true ∧
      StdMap.count m.m_actionHotKeys (resolvedKey (m.heap a) l u) ≠ 0
  · rw [if_pos hc] at hstep
    refine ⟨_, Or.inr rfl, ?_, ?_, hstep.1, hstep.2⟩
    · rw [StdMap.subscript_assign_self, if_pos hc.1]
    · intro k hk
      exact StdMap.find_assign_ne _ _ _ _ hk
  · rw [if_neg hc] at hstep
    refine ⟨_, Or.inl rfl, ?_, fun k _ => rfl, hstep.1, hstep.2⟩
    by_cases hgl : isGlobal m.heap a = true
    · have hcount : ¬ StdMap.count m.m_actionHotKeys (resolvedKey (m.heap a) l u) ≠ 0 :=
        fun h' => hc ⟨hgl, h'⟩
      have hnil := subscript_nil_of_count _ _ hcount
      rw [if_pos hgl]
      simp only [bucket]
      rw [hnil]
      rfl
    · rw [if_neg hgl]
      rfl

theorem bucket_updateHotKeysStep (l u : StdMap std_string Int) (m : ACTION_MANAGER) (a : Ptr)
    (k : Int) :
    bucket (updateHotKeysStep l u m a) k = bucketStep m.heap l u k (bucket m k) a := by
  by_cases h : 0 < resolvedKey (m.heap a) l u
  · obtain ⟨ev, _, hsub, hother, htab, _⟩ := updateHotKeysStep_table l u m a h
    by_cases hk : resolvedKey (m.heap a) l u = k
    · subst hk
      simp only [bucket, bucketStep] at hsub ⊢
      rw [htab, StdMap.subscript_assign_self, hsub]
      simp [h]
    · have hk' : k ≠ resolvedKey (m.heap a) l u := fun h' => hk h'.symm
      simp only [bucket, bucketStep, StdMap.subscript]
      rw [htab, StdMap.find_assign_ne _ _ _ _ hk', hother k hk']
      simp [hk]
  · have hs := updateHotKeysStep_skip l u m a (not_lt.mp h)
    simp only [bucket, bucketStep]
    rw [hs.1]
    have : ¬ (resolvedKey (m.heap a) l u = k ∧ 0 < k) := fun hh => h (hh.1 ▸ hh.2)
    simp [this]

theorem updateHotKeysLoop_eq_foldl (l u : StdMap std_string Int) (es : List (std_string × Ptr)) :
    ∀ m : ACTION_MANAGER,
      updateHotKeysLoop l u es m = (es.map Prod.snd).foldl (updateHotKeysStep l u) m := by
  induction es with
  | nil => intro m; rfl
  | cons e rest ih => intro m; simp [updateHotKeysLoop, ih]

theorem foldl_step_heap (l u : StdMap std_string Int) (ps : List Ptr) :
    ∀ m : ACTION_MANAGER, ∀ q,
      SameButHotKey ((ps.foldl (updateHotKeysStep l u) m).heap q) (m.heap q) := by
  induction ps with
  | nil => intro m q; exact sameButHotKey_refl _
  | cons p rest ih =>
    intro m q
    exact sameButHotKey_trans (ih _ q) (updateHotKeysStep_heap l u m p q)

theorem bucket_foldl (l u : StdMap std_string Int) (k : Int) (ps : List Ptr) :
    ∀ m : ACTION_MANAGER,
      bucket (ps.foldl (updateHotKeysStep l u) m) k =
        ps.foldl (bucketStep m.heap l u k) (bucket m k) := by
  induction ps with
  | nil => intro m; rfl
  | cons p rest ih =>
    intro m
    simp only [List.foldl_cons]
    rw [ih, bucket_updateHotKeysStep,
      bucketStep_congr (fun q => updateHotKeysStep_heap l u m p q)]

theorem bucket_updateHotKeys (m : ACTION_MANAGER) (l u : StdMap std_string Int) (k : Int) :
    bucket (UpdateHotKeys m l u) k = m.registered.foldl (bucketStep m.heap l u k) [] := by
  simp only [UpdateHotKeys]
  rw [updateHotKeysLoop_eq_foldl, bucket_foldl]
  rfl

theorem ordered_updateHotKeysStep (l u : StdMap std_string Int) (m : ACTION_MANAGER) (a : Ptr)
    (h : StdMap.Ordered m.m_actionHotKeys) :
    StdMap.Ordered (updateHotKeysStep l u m a).m_actionHotKeys := by
  by_cases hk : 0 < resolvedKey (m.heap a) l u
  · obtain ⟨ev, hev, _, _, htab, _⟩ := updateHotKeysStep_table l u m a hk
    rw [htab]
    apply StdMap.ordered_assign
    rcases hev with hev | hev
    · rw [hev]; exact h
    · rw [hev]; exact StdMap.ordered_assign _ _ _ h
  · rw [(updateHotKeysStep_skip l u m a (not_lt.mp hk)).1]
    exact h

theorem ordered_foldl (l u : StdMap std_string Int) (ps : List Ptr) :
    ∀ m : ACTION_MANAGER, StdMap.Ordered m.m_actionHotKeys →
      StdMap.Ordered (ps.foldl (updateHotKeysStep l u) m).m_actionHotKeys := by
  induction ps with
  | nil => intro m h; exact h
  | cons p rest ih =>
    intro m h
    exact ih _ (ordered_updateHotKeysStep l u m p h)

theorem ordered_updateHotKeys (m : ACTION_MANAGER) (l u : StdMap std_string Int) :
    StdMap.Ordered (UpdateHotKeys m l u).m_actionHotKeys := by
  simp only [UpdateHotKeys]
  rw [updateHotKeysLoop_eq_foldl]
  exact ordered_foldl l u _ _ List.Pairwise.nil

theorem entry_eq_bucket (m : ACTION_MANAGER) (h : StdMap.Ordered m.m_actionHotKeys)
    (e : Int × List Ptr) (he : e ∈ m.m_actionHotKeys) : e.2 = bucket m e.1 := by
  simp only [bucket, StdMap.subscript]
  rw [StdMap.find_of_mem _ e.1 e.2 h he]
  rfl

end ACTION_MANAGER


/-! ## One Global action per key -/

namespace ACTION_MANAGER

theorem globals_bucketStep (heap : Ptr → TOOL_ACTION) (l u : StdMap std_string Int) (k : Int)
    (b : List Ptr) (p : Ptr) (h : (b.filter (isGlobal heap)).length ≤ 1) :
    ((bucketStep heap l u k b p).filter (isGlobal heap)).length ≤ 1 := by
  simp only [bucketStep]
  split_ifs with hc hg
  · have : (b.filter (fun q => !(isGlobal heap q))).filter (isGlobal heap) = [] := by
      rw [List.filter_filter]
      apply List.filter_eq_nil_iff.mpr
      intro q _
      cases isGlobal heap q <;> simp
    rw [List.filter_append, this]
    simp [List.filter_cons, hg]
  · rw [List.filter_append]
    simpa [List.filter_cons, hg] using h
  · exact h

theorem globals_foldl (heap : Ptr → TOOL_ACTION) (l u : StdMap std_string Int) (k : Int)
    (ps : List Ptr) :
    ∀ b : List Ptr, (b.filter (isGlobal heap)).length ≤ 1 →
      ((ps.foldl (bucketStep heap l u k) b).filter (isGlobal heap)).length ≤ 1 := by
  induction ps with
  | nil => intro b h; exact h
  | cons p rest ih =>
    intro b h
    exact ih _ (globals_bucketStep heap l u k b p h)

theorem globals_updateHotKeys (m : ACTION_MANAGER) (l u : StdMap std_string Int)
    (e : Int × List Ptr) (he : e ∈ (UpdateHotKeys m l u).m_actionHotKeys) :
    (e.2.filter (isGlobal (UpdateHotKeys m l u).heap)).length ≤ 1 := by
  rw [entry_eq_bucket _ (ordered_updateHotKeys m l u) e he, bucket_updateHotKeys,
    isGlobal_congr (updateHotKeys_heap m l u)]
  exact globals_foldl m.heap l u e.1 _ [] (by simp)

theorem runHotKeyStep_assert (m : ACTION_MANAGER) (tm : TOOL_MANAGER) (env : HOTKEY_ENV)
    (actions : List Ptr) :
    ∀ s : Candidates, s.assertFailed = false →
      (s.global.isSome = true → (actions.filter (isGlobal m.heap)).length = 0) →
      (actions.filter (isGlobal m.heap)).length ≤ 1 →
      (actions.foldl (runHotKeyStep m tm env) s).assertFailed = false := by
  induction actions with
  | nil => intro s h _ _; exact h
  | cons a rest ih =>
    intro s hs hg hle
    simp only [List.foldl_cons]
    by_cases ha : isGlobal m.heap a = true
    · have hrest : (rest.filter (isGlobal m.heap)).length = 0 := by
        simp only [List.filter_cons, ha, if_true, List.length_cons] at hle
        omega
      have hnone : s.global.isSome = false := by
        cases hsg : s.global.isSome with
        | false => rfl
        | true =>
          have := hg hsg
          simp [List.filter_cons, ha] at this
      apply ih
      · simp [runHotKeyStep, ha, hs, hnone]
      · intro _; exact hrest
      · omega
    · have hfil : (a :: rest).filter (isGlobal m.heap) = rest.filter (isGlobal m.heap) := by
        simp [List.filter_cons, ha]
      rw [hfil] at hg hle
      have hstep : (runHotKeyStep m tm env s a).assertFailed = s.assertFailed ∧
          (runHotKeyStep m tm env s a).global = s.global := by
        unfold runHotKeyStep
        rw [if_neg ha]
        cases tm.FindTool (env.GetToolName (m.heap a)) with
        | none => exact ⟨rfl, rfl⟩
        | some t =>
          simp only
          split_ifs <;> exact ⟨rfl, rfl⟩
      apply ih
      · rw [hstep.1]; exact hs
      · rw [hstep.2]; exact hg
      · exact hle

theorem runHotKeyBucket_assert (m : ACTION_MANAGER) (tm : TOOL_MANAGER) (env : HOTKEY_ENV)
    (actions : List Ptr) (h : (actions.filter (isGlobal m.heap)).length ≤ 1) :
    (runHotKeyBucket m tm env actions).assertFailed = false := by
  have hf := runHotKeyStep_assert m tm env actions
    { highestPriority := -1, context := none, global := none, assertFailed := false }
    rfl (by simp) h
  simp only [runHotKeyBucket]
  split <;> exact hf

/-- C7. After `UpdateHotKeys`, whatever the manager held before and whatever
the legacy and user hotkey maps are, every bucket of the hotkey table contains
at most one Global-scope action; consequently `RunHotKey`, run on that table
with any key and any tool manager, never violates its assertion that there is
only one Global action per hot key. -/
theorem C7_one_global_per_key (m : ACTION_MANAGER) (l u : StdMap std_string Int) :
    (∀ e ∈ (UpdateHotKeys m l u).m_actionHotKeys,
      (e.2.filter (isGlobal (UpdateHotKeys m l u).heap)).length ≤ 1) ∧
    ∀ (tm : TOOL_MANAGER) (env : HOTKEY_ENV) (aHotKey : Int),
      (RunHotKey (UpdateHotKeys m l u) tm env aHotKey).assertFailed = false := by
  refine ⟨fun e he => globals_updateHotKeys m l u e he, ?_⟩
  intro tm env aHotKey
  simp only [RunHotKey]
  split
  · next actions hf =>
    exact runHotKeyBucket_assert _ tm env actions
      (globals_updateHotKeys m l u _ (StdMap.mem_of_find _ _ _ hf))
  · split
    · next actions hf =>
      exact runHotKeyBucket_assert _ tm env actions
        (globals_updateHotKeys m l u _ (StdMap.mem_of_find _ _ _ hf))
    · rfl

end ACTION_MANAGER


/-! ## Which actions a bucket holds -/

namespace ACTION_MANAGER

theorem mem_bucketStep {heap : Ptr → TOOL_ACTION} {l u : StdMap std_string Int} {k : Int}
    {b : List Ptr} {p q : Ptr} (h : q ∈ bucketStep heap l u k b p) :
    q ∈ b ∨ (q = p ∧ resolvedKey (heap p) l u = k ∧ 0 < k) := by
  simp only [bucketStep] at h
  split_ifs at h with hc hg
  · rcases List.mem_append.mp h with h | h
    · exact Or.inl (List.mem_filter.mp h).1
    · exact Or.inr ⟨by simpa using h, hc⟩
  · rcases List.mem_append.mp h with h | h
    · exact Or.inl h
    · exact Or.inr ⟨by simpa using h, hc⟩
  · exact Or.inl h

theorem mem_foldl_bucketStep (heap : Ptr → TOOL_ACTION) (l u : StdMap std_string Int) (k : Int)
    (ps : List Ptr) :
    ∀ (b : List Ptr) (q : Ptr), q ∈ ps.foldl (bucketStep heap l u k) b →
      q ∈ b ∨ (q ∈ ps ∧ resolvedKey (heap q) l u = k ∧ 0 < k) := by
  induction ps with
  | nil => intro b q h; exact Or.inl h
  | cons p rest ih =>
    intro b q h
    rcases ih _ q h with h | h
    · rcases mem_bucketStep h with h | h
      · exact Or.inl h
      · exact Or.inr ⟨by simp [h.1], by rw [h.1]; exact h.2⟩
    · exact Or.inr ⟨List.mem_cons_of_mem _ h.1, h.2⟩

theorem count_bucketStep_ne (heap : Ptr → TOOL_ACTION) (l u : StdMap std_string Int) (k : Int)
    (b : List Ptr) (p q : Ptr) (hq : isGlobal heap q = false) (hne : q ≠ p) :
    (bucketStep heap l u k b p).count q = b.count q := by
  have hf : (b.filter (fun x => !(isGlobal heap x))).count q = b.count q :=
    List.count_filter (by simp [hq])
  simp only [bucketStep]
  split_ifs with hc hg
  · rw [List.count_append, hf]
    simp [List.count_cons, hne.symm]
  · rw [List.count_append]
    simp [List.count_cons, hne.symm]
  · rfl

theorem count_foldl_not_mem (heap : Ptr → TOOL_ACTION) (l u : StdMap std_string Int) (k : Int)
    (q : Ptr) (hq : isGlobal heap q = false) (ps : List Ptr) :
    ∀ b : List Ptr, q ∉ ps → (ps.foldl (bucketStep heap l u k) b).count q = b.count q := by
  induction ps with
  | nil => intro b _; rfl
  | cons p rest ih =>
    intro b hn
    simp only [List.foldl_cons]
    rw [ih _ (fun h => hn (List.mem_cons_of_mem _ h))]
    exact count_bucketStep_ne heap l u k b p q hq (fun h => hn (by simp [h]))

theorem count_foldl_mem (heap : Ptr → TOOL_ACTION) (l u : StdMap std_string Int)
    (q : Ptr) (hq : isGlobal heap q = false) (hk : 0 < resolvedKey (heap q) l u)
    (ps : List Ptr) :
    ∀ b : List Ptr, ps.Nodup → q ∈ ps → b.count q = 0 →
      (ps.foldl (bucketStep heap l u (resolvedKey (heap q) l u)) b).count q = 1 := by
  induction ps with
  | nil => intro b _ h; simp at h
  | cons p rest ih =>
    intro b hnd hmem hb
    simp only [List.foldl_cons]
    by_cases hp : q = p
    · subst hp
      rw [count_foldl_not_mem heap l u _ q hq rest _ (List.nodup_cons.mp hnd).1]
      simp only [bucketStep, hk, and_self, if_true, hq]
      rw [List.count_append]
      simp [hb]
    · apply ih _ (List.nodup_cons.mp hnd).2
      · rcases List.mem_cons.mp hmem with h | h
        · exact absurd h hp
        · exact h
      · rw [count_bucketStep_ne heap l u _ b p q hq hp]
        exact hb

theorem registered_nodup (m : ACTION_MANAGER) (h : NameIndexOK m) : m.registered.Nodup := by
  simp only [registered, List.Nodup, List.pairwise_map]
  refine List.Pairwise.imp_of_mem ?_ h.1
  intro e f he hf hlt heq
  have : e.1 = f.1 := by rw [← h.2 e he, ← h.2 f hf, heq]
  exact absurd this (ne_of_lt hlt)

/-- C10. After `UpdateHotKeys` in any reachable state, every registered action
that is not Global-scope and whose resolved key `k` is greater than 0 occurs
exactly once in the bucket for `k`, however many other actions resolve to `k`:
evicting Global entries never removes it. -/
theorem C10_context_kept (m : ACTION_MANAGER) (h : Reachable m) (l u : StdMap std_string Int)
    (a : Ptr) (ha : a ∈ m.registered) (hctx : (m.heap a).m_scope ≠ AS_GLOBAL)
    (hk : 0 < resolvedKey (m.heap a) l u) :
    (bucket (UpdateHotKeys m l u) (resolvedKey (m.heap a) l u)).count a = 1 := by
  rw [bucket_updateHotKeys]
  exact count_foldl_mem m.heap l u a (by simp [isGlobal, hctx]) hk m.registered []
    (registered_nodup m (nameIndexOK_of_reachable h)) ha (by simp)

/-- C10, an instance: with the Context action `t.b` (address 0), the Global
actions `t.a` and `t.c` and the Context action `t.d` all on key 65, `t.b` is in
the bucket of 65 exactly once after `UpdateHotKeys`; the bucket is
`t.b, t.c, t.d`. -/
theorem C10_context_kept_witness :
    (bucket (UpdateHotKeys Scenario.crowded [] []) 65).count 0 = 1 ∧
    bucket (UpdateHotKeys Scenario.crowded [] []) 65 = [0, 2, 3] :=
  ⟨C10_context_kept Scenario.crowded (Reachable.construct _ _ _ _) [] [] 0
      (by decide) (by decide) (by decide),
   by decide⟩

end ACTION_MANAGER


/-! ## Which Global action keeps a key -/

namespace ACTION_MANAGER

theorem not_mem_foldl_bucketStep (heap : Ptr → TOOL_ACTION) (l u : StdMap std_string Int)
    (k : Int) (ps : List Ptr) (b : List Ptr) (q : Ptr) (hb : q ∉ b) (hps : q ∉ ps) :
    q ∉ ps.foldl (bucketStep heap l u k) b := by
  intro h
  rcases mem_foldl_bucketStep heap l u k ps b q h with h | h
  · exact hb h
  · exact hps h.1

theorem mem_foldl_keep (heap : Ptr → TOOL_ACTION) (l u : StdMap std_string Int) (k : Int)
    (q : Ptr) (ps : List Ptr) :
    ∀ b : List Ptr, q ∈ b →
      (∀ p ∈ ps, ¬ (isGlobal heap p = true ∧ resolvedKey (heap p) l u = k)) →
      q ∈ ps.foldl (bucketStep heap l u k) b := by
  induction ps with
  | nil => intro b h _; exact h
  | cons p rest ih =>
    intro b hb hps
    simp only [List.foldl_cons]
    apply ih _ _ (fun x hx => hps x (List.mem_cons_of_mem _ hx))
    have hp := hps p (List.mem_cons_self _ _)
    simp only [bucketStep]
    split_ifs with hc hg
    · exact absurd ⟨hg, hc.1⟩ hp
    · exact List.mem_append_left _ hb
    · exact hb

theorem registered_split (m : ACTION_MANAGER) (hok : NameIndexOK m) (b : Ptr)
    (hb : b ∈ m.registered) :
    ∃ pre post, m.registered = pre ++ b :: post ∧
      (∀ c ∈ pre, m.nameOf c < m.nameOf b) ∧ (∀ c ∈ post, m.nameOf b < m.nameOf c) := by
  obtain ⟨e, he, rfl⟩ := List.mem_map.mp hb
  obtain ⟨s, t, hst⟩ := List.append_of_mem he
  have hp : StdMap.Ordered (s ++ e :: t) := hst ▸ hok.1
  have hp' := List.pairwise_append.mp hp
  have hin : ∀ f, f ∈ s ∨ f ∈ t → f ∈ m.m_actionNameIndex := by
    intro f hf
    rw [hst]
    rcases hf with hf | hf
    · exact List.mem_append_left _ hf
    · exact List.mem_append_right _ (List.mem_cons_of_mem _ hf)
  refine ⟨s.map Prod.snd, t.map Prod.snd, ?_, ?_, ?_⟩
  · simp [registered, hst]
  · intro c hc
    obtain ⟨f, hf, rfl⟩ := List.mem_map.mp hc
    have := hp'.2.2 f hf e (List.mem_cons_self _ _)
    simp only [nameOf]
    rw [hok.2 f (hin f (Or.inl hf)), hok.2 e he]
    exact this
  · intro c hc
    obtain ⟨f, hf, rfl⟩ := List.mem_map.mp hc
    have := (List.pairwise_cons.mp hp'.2.1).1 f hf
    simp only [nameOf]
    rw [hok.2 f (hin f (Or.inr hf)), hok.2 e he]
    exact this

/-- C9 fails in the code: `t.z` (address 0) is registered first and `t.a`
(address 1) is registered last, both Global and both resolving to key 65.
`UpdateHotKeys` walks the name index, so it visits `t.a` before `t.z`, and
`t.z` evicts `t.a`: after `UpdateHotKeys` the bucket of 65 holds `t.z` alone,
the action registered earlier, and not the one registered last. -/
theorem C9_last_registered_evicted :
    Scenario.inTurn.m_actionNameIndex = [("t.a".toList, 1), ("t.z".toList, 0)] ∧
    Scenario.inTurn.registered = [1, 0] ∧
    Scenario.inTurn.nameOf 0 = "t.z".toList ∧ Scenario.inTurn.nameOf 1 = "t.a".toList ∧
    isGlobal Scenario.inTurn.heap 0 = true ∧ isGlobal Scenario.inTurn.heap 1 = true ∧
    resolvedKey (Scenario.inTurn.heap 0) [] [] = 65 ∧
    resolvedKey (Scenario.inTurn.heap 1) [] [] = 65 ∧
    (UpdateHotKeys Scenario.inTurn [] []).m_actionHotKeys = [(65, [0])] ∧
    0 ∈ bucket (UpdateHotKeys Scenario.inTurn [] []) 65 ∧
    1 ∉ bucket (UpdateHotKeys Scenario.inTurn [] []) 65 := by
  decide

end ACTION_MANAGER


/-! ## Unregistering -/

namespace StdMap

variable {κ ν : Type} [LinearOrder κ]

theorem mem_assign_ordered (m : StdMap κ ν) (k : κ) (v : ν) (e : κ × ν) (ho : Ordered m)
    (h : e ∈ assign m k v) : e = (k, v) ∨ (e ∈ m ∧ e.1 ≠ k) := by
  induction m with
  | nil => exact Or.inl (by simpa [assign] using h)
  | cons e' rest ih =>
    obtain ⟨k', v'⟩ := e'
    have hr : Ordered rest := (List.pairwise_cons.mp ho).2
    have hh := (List.pairwise_cons.mp ho).1
    unfold assign at h
    split_ifs at h with h1 h2
    · rcases List.mem_cons.mp h with h | h
      · exact Or.inl h
      · refine Or.inr ⟨h, ?_⟩
        rcases List.mem_cons.mp h with h | h
        · rw [h]; exact (ne_of_lt h1).symm
        · exact (ne_of_lt (lt_trans h1 (hh e h))).symm
    · rcases List.mem_cons.mp h with h | h
      · exact Or.inr ⟨by rw [h]; exact List.mem_cons_self _ _, by rw [h]; exact ne_of_lt h2⟩
      · rcases ih hr h with h | h
        · exact Or.inl h
        · exact Or.inr ⟨List.mem_cons_of_mem _ h.1, h.2⟩
    · have hk : k = k' := le_antisymm (not_lt.mp h2) (not_lt.mp h1)
      rcases List.mem_cons.mp h with h | h
      · exact Or.inl h
      · exact Or.inr ⟨List.mem_cons_of_mem _ h, by rw [hk]; exact (ne_of_lt (hh e h)).symm⟩

end StdMap

namespace ACTION_MANAGER

theorem bucketOK_sublist {m : ACTION_MANAGER} {pending : List Int} {k : Int} {b b' : List Ptr}
    (hs : b'.Sublist b) (h : BucketOK m pending (k, b)) : BucketOK m pending (k, b') :=
  ⟨hs.nodup h.1, fun p hp => h.2 p (hs.subset hp)⟩

theorem bucketOK_bucket (m : ACTION_MANAGER) (pending : List Int)
    (h : ∀ e ∈ m.m_actionHotKeys, BucketOK m pending e) (k : Int) :
    BucketOK m pending (k, bucket m k) := by
  simp only [bucket, StdMap.subscript]
  cases hf : StdMap.find m.m_actionHotKeys k with
  | none => exact ⟨List.nodup_nil, fun p hp => by simp at hp⟩
  | some b => exact h _ (StdMap.mem_of_find _ _ _ hf)

theorem idOf_updateHotKeysStep (l u : StdMap std_string Int) (m : ACTION_MANAGER) (a : Ptr) :
    (updateHotKeysStep l u m a).idOf = m.idOf := by
  funext q
  exact (updateHotKeysStep_heap l u m a q).2.2.2.2

theorem bucketOK_step (l u : StdMap std_string Int) (m : ACTION_MANAGER) (a : Ptr)
    (rest : List Int) (hnew : m.idOf a ∉ rest)
    (h : ∀ e ∈ m.m_actionHotKeys, BucketOK m (m.idOf a :: rest) e) :
    ∀ e ∈ (updateHotKeysStep l u m a).m_actionHotKeys,
      BucketOK (updateHotKeysStep l u m a) rest e := by
  by_cases hk : 0 < resolvedKey (m.heap a) l u
  · obtain ⟨ev, hev, hsub, _, htab, hrev⟩ := updateHotKeysStep_table l u m a hk
    have hold : ∀ k b, BucketOK m (m.idOf a :: rest) (k, b) →
        BucketOK (updateHotKeysStep l u m a) rest (k, b) := by
      intro k b hb
      refine ⟨hb.1, fun p hp => ?_⟩
      obtain ⟨h1, h2, h3⟩ := hb.2 p hp
      have hne : m.idOf p ≠ m.idOf a := fun hh => h3 (by simp [hh])
      rw [idOf_updateHotKeysStep, hrev, StdMap.find_assign_ne _ _ _ _ hne]
      exact ⟨h1, h2, fun hh => h3 (List.mem_cons_of_mem _ hh)⟩
    have hbk := bucketOK_bucket m _ h (resolvedKey (m.heap a) l u)
    have hfil : BucketOK m (m.idOf a :: rest) (resolvedKey (m.heap a) l u,
        (bucket m (resolvedKey (m.heap a) l u)).filter (fun q => !(isGlobal m.heap q))) :=
      bucketOK_sublist (List.filter_sublist _) hbk
    have hev' : ∀ e ∈ ev, BucketOK m (m.idOf a :: rest) e := by
      intro e he
      rcases hev with hev | hev
      · rw [hev] at he; exact h e he
      · rw [hev] at he
        rcases StdMap.mem_assign_cases _ _ _ _ he with he | he
        · rw [he]; exact hfil
        · exact h e he
    have hX : BucketOK m (m.idOf a :: rest)
        (resolvedKey (m.heap a) l u, StdMap.subscript ev (resolvedKey (m.heap a) l u) []) := by
      rw [hsub]
      split_ifs
      · exact hfil
      · exact hbk
    intro e he
    rw [htab] at he
    rcases StdMap.mem_assign_cases _ _ _ _ he with he | he
    · rw [he]
      have haX : a ∉ StdMap.subscript ev (resolvedKey (m.heap a) l u) [] := by
        intro hh
        exact (hX.2 a hh).2.2 (List.mem_cons_self _ _)
      refine ⟨?_, ?_⟩
      · exact List.Nodup.append hX.1 (List.nodup_singleton a)
          (by intro x hx hx'; exact haX ((List.mem_singleton.mp hx') ▸ hx))
      · intro p hp
        rcases List.mem_append.mp hp with hp | hp
        · exact (hold _ _ hX).2 p hp
        · have hpa : p = a := List.mem_singleton.mp hp
          rw [hpa, idOf_updateHotKeysStep, hrev, StdMap.find_assign_self]
          exact ⟨rfl, ne_of_gt hk, hnew⟩
    · exact hold e.1 e.2 (hev' e he)
  · have hs := updateHotKeysStep_skip l u m a (not_lt.mp hk)
    intro e he
    rw [hs.1] at he
    obtain ⟨h1, h2⟩ := h e he
    refine ⟨h1, fun p hp => ?_⟩
    obtain ⟨g1, g2, g3⟩ := h2 p hp
    rw [idOf_updateHotKeysStep, hs.2]
    exact ⟨g1, g2, fun hh => g3 (List.mem_cons_of_mem _ hh)⟩

theorem bucketOK_foldl (l u : StdMap std_string Int) (ps : List Ptr) :
    ∀ m : ACTION_MANAGER, (ps.map m.idOf).Nodup →
      (∀ e ∈ m.m_actionHotKeys, BucketOK m (ps.map m.idOf) e) →
      ∀ e ∈ (ps.foldl (updateHotKeysStep l u) m).m_actionHotKeys,
        BucketOK (ps.foldl (updateHotKeysStep l u) m) [] e := by
  induction ps with
  | nil => intro m _ h; exact h
  | cons p rest ih =>
    intro m hnd h
    simp only [List.foldl_cons]
    rw [List.map_cons] at hnd h
    apply ih
    · rw [idOf_updateHotKeysStep]; exact (List.nodup_cons.mp hnd).2
    · rw [idOf_updateHotKeysStep]
      exact bucketOK_step l u m p _ (List.nodup_cons.mp hnd).1 h

theorem ctorLoop_tables (L : List TOOL_ACTION) :
    ∀ r : Constructed, (ctorLoop L r).mgr.m_actionHotKeys = r.mgr.m_actionHotKeys := by
  induction L with
  | nil => intro r; rfl
  | cons a rest ih => intro r; exact (ih _).trans rfl

theorem idsDistinct_update (m : ACTION_MANAGER) (l u : StdMap std_string Int)
    (h : IdsDistinct m) : IdsDistinct (UpdateHotKeys m l u) := by
  intro p hp q hq hpq
  simp only [registered, updateHotKeys_index] at hp hq
  simp only [idOf, (updateHotKeys_heap m l u p).2.2.2.2,
    (updateHotKeys_heap m l u q).2.2.2.2] at hpq
  exact h p hp q hq hpq

theorem idsDistinct_unregister (m : ACTION_MANAGER) (a : Ptr)
    (h : IdsDistinct m) : IdsDistinct (UnregisterAction m a) := by
  obtain ⟨hi, hh⟩ := unregister_index m a
  have hsub : ∀ p, p ∈ (UnregisterAction m a).registered → p ∈ m.registered := by
    intro p hp
    simp only [registered, hi] at hp
    obtain ⟨e, he, rfl⟩ := List.mem_map.mp hp
    exact List.mem_map.mpr ⟨e, (StdMap.mem_erase _ _ _ he).1, rfl⟩
  intro p hp q hq hpq
  simp only [idOf, hh] at hpq
  exact h p (hsub p hp) q (hsub q hq) hpq

theorem unregister_tables (m : ACTION_MANAGER) (a : Ptr) :
    (UnregisterAction m a).m_hotkeys = m.m_hotkeys ∧
    ((m.GetHotKey a = 0 ∧ (UnregisterAction m a).m_actionHotKeys = m.m_actionHotKeys) ∨
     (m.GetHotKey a ≠ 0 ∧ (UnregisterAction m a).m_actionHotKeys =
        StdMap.assign m.m_actionHotKeys (m.GetHotKey a) ((bucket m (m.GetHotKey a)).erase a))) := by
  simp only [UnregisterAction, bucket]
  split_ifs with hk
  · exact ⟨rfl, Or.inr ⟨hk, rfl⟩⟩
  · exact ⟨rfl, Or.inl ⟨not_not.mp hk, rfl⟩⟩

theorem tables_of_reachableDistinctIds {m : ACTION_MANAGER} (h : ReachableDistinctIds m) :
    NameIndexOK m ∧ IdsDistinct m ∧ StdMap.Ordered m.m_actionHotKeys ∧
      ∀ e ∈ m.m_actionHotKeys, BucketOK m [] e := by
  induction h with
  | construct heap heapNext actionList c hd =>
    refine ⟨nameIndexOK_of_reachable (Reachable.construct _ _ _ _), hd, ?_, ?_⟩
    · simp only [ctor]
      rw [ctorLoop_tables]
      exact List.Pairwise.nil
    · intro e he
      simp only [ctor] at he
      rw [ctorLoop_tables] at he
      simp [empty] at he
  | @unregister m a _ ih =>
    obtain ⟨h1, h2, h3, h4⟩ := ih
    obtain ⟨hrev, htab⟩ := unregister_tables m a
    have hheap := (unregister_index m a).2
    have hold : ∀ k b, BucketOK m [] (k, b) → BucketOK (UnregisterAction m a) [] (k, b) := by
      intro k b hb
      refine ⟨hb.1, fun p hp => ?_⟩
      simp only [idOf, hheap, hrev]
      exact hb.2 p hp
    refine ⟨nameIndexOK_unregister m a h1, idsDistinct_unregister m a h2, ?_, ?_⟩
    · rcases htab with ⟨_, ht⟩ | ⟨_, ht⟩
      · rw [ht]; exact h3
      · rw [ht]; exact StdMap.ordered_assign _ _ _ h3
    · intro e he
      rcases htab with ⟨_, ht⟩ | ⟨_, ht⟩
      · rw [ht] at he; exact hold _ _ (h4 e he)
      · rw [ht] at he
        rcases StdMap.mem_assign_cases _ _ _ _ he with he | he
        · rw [he]
          exact hold _ _ (bucketOK_sublist (List.erase_sublist _ _) (bucketOK_bucket m [] h4 _))
        · exact hold _ _ (h4 e he)
  | @update m l u _ ih =>
    obtain ⟨h1, h2, _, _⟩ := ih
    refine ⟨nameIndexOK_update m l u h1, idsDistinct_update m l u h2,
      ordered_updateHotKeys m l u, ?_⟩
    simp only [UpdateHotKeys]
    rw [updateHotKeysLoop_eq_foldl]
    apply bucketOK_foldl
    · exact List.Nodup.map_on (fun p hp q hq hpq => h2 p hp q hq hpq) (registered_nodup m h1)
    · intro e he
      simp at he

theorem getHotKey_of_mem (m : ACTION_MANAGER) (h : ∀ e ∈ m.m_actionHotKeys, BucketOK m [] e)
    (e : Int × List Ptr) (he : e ∈ m.m_actionHotKeys) (a : Ptr) (ha : a ∈ e.2) :
    m.GetHotKey a = e.1 ∧ e.1 ≠ 0 := by
  obtain ⟨h1, h2, _⟩ := (h e he).2 a ha
  simp only [GetHotKey, idOf] at h1 ⊢
  rw [h1]
  exact ⟨rfl, h2⟩

theorem reachableDistinctIds_of_counterIds {m : ACTION_MANAGER} (h : ReachableCounterIds m) :
    ReachableDistinctIds m := by
  induction h with
  | construct heap heapNext actionList c hc =>
    exact ReachableDistinctIds.construct _ _ _ _ (idsDistinct_ctor _ _ _ _ hc)
  | unregister a _ ih => exact ReachableDistinctIds.unregister a ih
  | update l u _ ih => exact ReachableDistinctIds.update l u ih

/-- C6. In every state reachable through construction (from a static action
list whose ids come from the counter), `UpdateHotKeys` and `UnregisterAction`
calls, and for every registered action `a`: after `UnregisterAction( a )`,
`FindAction` on the name of `a` returns `NULL` and no bucket of the hotkey
table contains `a`. -/
theorem C6_unregister_cleans (m : ACTION_MANAGER) (h : ReachableCounterIds m) (a : Ptr)
    (_ha : a ∈ m.registered) :
    (UnregisterAction m a).FindAction (m.nameOf a) = none ∧
    ∀ e ∈ (UnregisterAction m a).m_actionHotKeys, a ∉ e.2 := by
  obtain ⟨_, _, h3, h4⟩ := tables_of_reachableDistinctIds (reachableDistinctIds_of_counterIds h)
  refine ⟨?_, ?_⟩
  · simp only [FindAction]
    rw [(unregister_index m a).1]
    exact StdMap.find_erase_self _ _
  · intro e he hmem
    rcases (unregister_tables m a).2 with ⟨h0, ht⟩ | ⟨hne, ht⟩
    · rw [ht] at he
      have := getHotKey_of_mem m h4 e he a hmem
      exact this.2 (this.1.symm.trans h0)
    · rw [ht] at he
      rcases StdMap.mem_assign_ordered _ _ _ _ h3 he with he | he
      · rw [he] at hmem
        have hnd := (bucketOK_bucket m [] h4 (m.GetHotKey a)).1
        exact ((List.Nodup.mem_erase_iff hnd).mp hmem).1 rfl
      · exact he.2 (getHotKey_of_mem m h4 e he.1 a hmem).1.symm

/-- C6, an instance: `t.a` (key 65) and `t.b` (key 66) constructed from entries
without ids, after `UpdateHotKeys`: unregistering `t.a` (address 0) removes its
name and leaves it in no bucket. -/
theorem C6_unregister_cleans_witness :
    0 ∈ Scenario.twoKeys.registered ∧
    0 ∈ bucket Scenario.twoKeys 65 ∧
    (UnregisterAction Scenario.twoKeys 0).FindAction (Scenario.twoKeys.nameOf 0) = none ∧
    ∀ e ∈ (UnregisterAction Scenario.twoKeys 0).m_actionHotKeys, 0 ∉ e.2 :=
  ⟨by decide, by decide,
   C6_unregister_cleans Scenario.twoKeys
    (ReachableCounterIds.update [] []
      (ReachableCounterIds.construct _ _ _ _ (by unfold IdsFromCounter; decide)))
    0 (by decide)⟩

end ACTION_MANAGER


/-! ## The choice made by `RunHotKey` -/

namespace ACTION_MANAGER

theorem runHotKey_eq (m : ACTION_MANAGER) (tm : TOOL_MANAGER) (env : HOTKEY_ENV) (x : Int) :
    RunHotKey m tm env x =
      match hotKeyBucket m env x with
      | some actions => runHotKeyBucket m tm env actions
      | none => { handled := false, runAction := [], assertFailed := false } := by
  simp only [RunHotKey, hotKeyBucket]
  split
  · rfl
  · split <;> simp_all

theorem runHotKeyStep_global (m : ACTION_MANAGER) (tm : TOOL_MANAGER) (env : HOTKEY_ENV)
    (s : Candidates) (a : Ptr) (h : isGlobal m.heap a = true) :
    (runHotKeyStep m tm env s a).context = s.context ∧
    (runHotKeyStep m tm env s a).highestPriority = s.highestPriority ∧
    (runHotKeyStep m tm env s a).global = some a := by
  unfold runHotKeyStep
  rw [if_pos h]
  exact ⟨rfl, rfl, rfl⟩

theorem runHotKeyStep_context (m : ACTION_MANAGER) (tm : TOOL_MANAGER) (env : HOTKEY_ENV)
    (s : Candidates) (a : Ptr) (h : isGlobal m.heap a = false) :
    (runHotKeyStep m tm env s a).global = s.global ∧
    ((∃ p, activePriority m tm env a = some p ∧ s.highestPriority < p ∧
        (runHotKeyStep m tm env s a).context = some a ∧
        (runHotKeyStep m tm env s a).highestPriority = p) ∨
     ((∀ p, activePriority m tm env a = some p → p ≤ s.highestPriority) ∧
        (runHotKeyStep m tm env s a).context = s.context ∧
        (runHotKeyStep m tm env s a).highestPriority = s.highestPriority)) := by
  unfold runHotKeyStep activePriority
  rw [if_neg (by simp [h])]
  cases tm.FindTool (env.GetToolName (m.heap a)) with
  | none => exact ⟨rfl, Or.inr ⟨fun p hp => by simp at hp, rfl, rfl⟩⟩
  | some t =>
    simp only
    by_cases hp : tm.GetPriority t ≥ 0 ∧ tm.GetPriority t > s.highestPriority
    · rw [if_pos hp, if_pos hp.1]
      exact ⟨rfl, Or.inl ⟨_, rfl, hp.2, rfl, rfl⟩⟩
    · rw [if_neg hp]
      refine ⟨rfl, Or.inr ⟨fun p hq => ?_, rfl, rfl⟩⟩
      by_cases h0 : tm.GetPriority t ≥ 0
      · rw [if_pos h0] at hq
        have : tm.GetPriority t = p := Option.some.inj hq
        rw [← this]
        exact not_lt.mp (fun hh => hp ⟨h0, hh⟩)
      · rw [if_neg h0] at hq
        cases hq

theorem activePriority_nonneg (m : ACTION_MANAGER) (tm : TOOL_MANAGER) (env : HOTKEY_ENV)
    (a : Ptr) (p : Int) (h : activePriority m tm env a = some p) : 0 ≤ p := by
  unfold activePriority at h
  cases hf : tm.FindTool (env.GetToolName (m.heap a)) with
  | none => simp [hf] at h
  | some t =>
    simp only [hf] at h
    by_cases h0 : tm.GetPriority t ≥ 0
    · rw [if_pos h0] at h
      exact (Option.some.inj h) ▸ h0
    · rw [if_neg h0] at h
      cases h

theorem candidates_context (m : ACTION_MANAGER) (tm : TOOL_MANAGER) (env : HOTKEY_ENV)
    (actions : List Ptr) :
    ((actions.foldl (runHotKeyStep m tm env)
        { highestPriority := -1, context := none, global := none,
          assertFailed := false }).context = none →
      ∀ a ∈ actions, isGlobal m.heap a = false → activePriority m tm env a = none) ∧
    (∀ c, (actions.foldl (runHotKeyStep m tm env)
        { highestPriority := -1, context := none, global := none,
          assertFailed := false }).context = some c →
      c ∈ actions ∧ isGlobal m.heap c = false ∧
      (∃ p, activePriority m tm env c = some p ∧
        ∀ a ∈ actions, isGlobal m.heap a = false →
          ∀ q, activePriority m tm env a = some q → q ≤ p)) ∧
    ((actions.foldl (runHotKeyStep m tm env)
        { highestPriority := -1, context := none, global := none,
          assertFailed := false }).context = none →
      (actions.foldl (runHotKeyStep m tm env)
        { highestPriority := -1, context := none, global := none,
          assertFailed := false }).highestPriority = -1) ∧
    (∀ c, (actions.foldl (runHotKeyStep m tm env)
        { highestPriority := -1, context := none, global := none,
          assertFailed := false }).context = some c →
      activePriority m tm env c = some (actions.foldl (runHotKeyStep m tm env)
        { highestPriority := -1, context := none, global := none,
          assertFailed := false }).highestPriority) := by
  induction actions using List.reverseRecOn with
  | nil =>
    refine ⟨fun _ a ha => by simp at ha, fun c hc => by simp at hc, fun _ => rfl,
      fun c hc => by simp at hc⟩
  | append_singleton l a ih =>
    obtain ⟨ih1, ih2, ih3, ih4⟩ := ih
    rw [List.foldl_append, List.foldl_cons, List.foldl_nil]
    generalize hs : l.foldl (runHotKeyStep m tm env)
      { highestPriority := -1, context := none, global := none, assertFailed := false } = s
      at ih1 ih2 ih3 ih4
    by_cases hg : isGlobal m.heap a = true
    · obtain ⟨e1, e2, _⟩ := runHotKeyStep_global m tm env s a hg
      rw [e1, e2]
      refine ⟨?_, ?_, ih3, ih4⟩
      · intro hn b hb hbg
        rcases List.mem_append.mp hb with hb | hb
        · exact ih1 hn b hb hbg
        · rw [List.mem_singleton.mp hb, hg] at hbg
          cases hbg
      · intro c hc
        obtain ⟨h1, h2, p, h3, h4⟩ := ih2 c hc
        refine ⟨List.mem_append_left _ h1, h2, p, h3, ?_⟩
        intro b hb hbg q hq
        rcases List.mem_append.mp hb with hb | hb
        · exact h4 b hb hbg q hq
        · rw [List.mem_singleton.mp hb, hg] at hbg
          cases hbg
    · have hg' : isGlobal m.heap a = false := by simpa using hg
      obtain ⟨_, hcase⟩ := runHotKeyStep_context m tm env s a hg'
      rcases hcase with ⟨p, hp, hlt, e1, e2⟩ | ⟨hle, e1, e2⟩
      · rw [e1, e2]
        refine ⟨fun hn => (by cases hn), ?_, fun hn => (by cases hn), ?_⟩
        · intro c hc
          have hca : a = c := Option.some.inj hc
          subst hca
          refine ⟨List.mem_append_right _ (List.mem_singleton_self _), hg', p, hp, ?_⟩
          intro b hb hbg q hq
          rcases List.mem_append.mp hb with hb | hb
          · cases hctx : s.context with
            | none =>
              have := ih1 hctx b hb hbg
              rw [this] at hq
              cases hq
            | some c' =>
              obtain ⟨_, _, p', h3, h4⟩ := ih2 c' hctx
              have h5 := ih4 c' hctx
              rw [h3] at h5
              have hpp : p' = s.highestPriority := Option.some.inj h5
              have := h4 b hb hbg q hq
              omega
          · rw [List.mem_singleton.mp hb, hp] at hq
            exact le_of_eq (Option.some.inj hq).symm
        · intro c hc
          have hca : a = c := Option.some.inj hc
          subst hca
          exact hp
      · rw [e1, e2]
        refine ⟨?_, ?_, ih3, ih4⟩
        · intro hn b hb hbg
          rcases List.mem_append.mp hb with hb | hb
          · exact ih1 hn b hb hbg
          · rw [List.mem_singleton.mp hb]
            cases hq : activePriority m tm env a with
            | none => rfl
            | some q =>
              have h1 := hle q hq
              have h2 := activePriority_nonneg m tm env a q hq
              have h3 := ih3 hn
              omega
        · intro c hc
          obtain ⟨h1, h2, p, h3, h4⟩ := ih2 c hc
          refine ⟨List.mem_append_left _ h1, h2, p, h3, ?_⟩
          intro b hb hbg q hq
          rcases List.mem_append.mp hb with hb | hb
          · exact h4 b hb hbg q hq
          · rw [List.mem_singleton.mp hb] at hq
            have h5 := ih4 c hc
            rw [h3] at h5
            have hpp : p = s.highestPriority := Option.some.inj h5
            have := hle q hq
            omega

theorem candidates_global (m : ACTION_MANAGER) (tm : TOOL_MANAGER) (env : HOTKEY_ENV)
    (actions : List Ptr) :
    ((actions.foldl (runHotKeyStep m tm env)
        { highestPriority := -1, context := none, global := none,
          assertFailed := false }).global = none →
      ∀ a ∈ actions, isGlobal m.heap a = false) ∧
    (∀ g, (actions.foldl (runHotKeyStep m tm env)
        { highestPriority := -1, context := none, global := none,
          assertFailed := false }).global = some g →
      g ∈ actions ∧ isGlobal m.heap g = true) := by
  induction actions using List.reverseRecOn with
  | nil => exact ⟨fun _ a ha => by simp at ha, fun g hg => by simp at hg⟩
  | append_singleton l a ih =>
    obtain ⟨ih1, ih2⟩ := ih
    rw [List.foldl_append, List.foldl_cons, List.foldl_nil]
    generalize hs : l.foldl (runHotKeyStep m tm env)
      { highestPriority := -1, context := none, global := none, assertFailed := false } = s
      at ih1 ih2
    by_cases hg : isGlobal m.heap a = true
    · obtain ⟨_, _, e3⟩ := runHotKeyStep_global m tm env s a hg
      rw [e3]
      refine ⟨fun hn => (by cases hn), fun g hgs => ?_⟩
      have : a = g := Option.some.inj hgs
      subst this
      exact ⟨List.mem_append_right _ (List.mem_singleton_self _), hg⟩
    · have hg' : isGlobal m.heap a = false := by simpa using hg
      rw [(runHotKeyStep_context m tm env s a hg').1]
      refine ⟨?_, fun g hgs => ⟨List.mem_append_left _ (ih2 g hgs).1, (ih2 g hgs).2⟩⟩
      intro hn b hb
      rcases List.mem_append.mp hb with hb | hb
      · exact ih1 hn b hb
      · rw [List.mem_singleton.mp hb]; exact hg'

theorem runHotKeyBucket_cases (m : ACTION_MANAGER) (tm : TOOL_MANAGER) (env : HOTKEY_ENV)
    (actions : List Ptr) :
    (∃ c, c ∈ actions ∧ isGlobal m.heap c = false ∧
      (∃ p, activePriority m tm env c = some p ∧
        ∀ a ∈ actions, isGlobal m.heap a = false →
          ∀ q, activePriority m tm env a = some q → q ≤ p) ∧
      (runHotKeyBucket m tm env actions).handled = true ∧
      (runHotKeyBucket m tm env actions).runAction = [(c, true)]) ∨
    ((∀ a ∈ actions, isGlobal m.heap a = false → activePriority m tm env a = none) ∧
      ∃ g, g ∈ actions ∧ isGlobal m.heap g = true ∧
      (runHotKeyBucket m tm env actions).handled = true ∧
      (runHotKeyBucket m tm env actions).runAction = [(g, true)]) ∨
    ((∀ a ∈ actions, isGlobal m.heap a = false → activePriority m tm env a = none) ∧
      (∀ a ∈ actions, isGlobal m.heap a = false) ∧
      (runHotKeyBucket m tm env actions).handled = false ∧
      (runHotKeyBucket m tm env actions).runAction = []) := by
  obtain ⟨c1, c2, _, _⟩ := candidates_context m tm env actions
  obtain ⟨g1, g2⟩ := candidates_global m tm env actions
  simp only [runHotKeyBucket]
  generalize actions.foldl (runHotKeyStep m tm env)
    { highestPriority := -1, context := none, global := none, assertFailed := false } = s
    at c1 c2 g1 g2
  cases hc : s.context with
  | some c =>
    obtain ⟨h1, h2, h3⟩ := c2 c hc
    exact Or.inl ⟨c, h1, h2, h3, rfl, rfl⟩
  | none =>
    cases hg : s.global with
    | some g =>
      obtain ⟨h1, h2⟩ := g2 g hg
      exact Or.inr (Or.inl ⟨c1 hc, g, h1, h2, rfl, rfl⟩)
    | none =>
      exact Or.inr (Or.inr ⟨c1 hc, g1 hg, rfl, rfl⟩)

end ACTION_MANAGER


/-! ## Priority, context before global, fallback -/

namespace ACTION_MANAGER

theorem globals_of_reachable {m : ACTION_MANAGER} (h : Reachable m) :
    ∀ e ∈ m.m_actionHotKeys, (e.2.filter (isGlobal m.heap)).length ≤ 1 := by
  induction h with
  | construct heap heapNext actionList c =>
    intro e he
    simp only [ctor] at he
    rw [ctorLoop_tables] at he
    simp [empty] at he
  | register a _ ih => exact ih
  | @unregister m a _ ih =>
    obtain ⟨_, htab⟩ := unregister_tables m a
    rw [(unregister_index m a).2]
    intro e he
    rcases htab with ⟨_, ht⟩ | ⟨_, ht⟩
    · rw [ht] at he; exact ih e he
    · rw [ht] at he
      rcases StdMap.mem_assign_cases _ _ _ _ he with he | he
      · rw [he]
        have hb : ((bucket m (m.GetHotKey a)).filter (isGlobal m.heap)).length ≤ 1 := by
          simp only [bucket, StdMap.subscript]
          cases hf : StdMap.find m.m_actionHotKeys (m.GetHotKey a) with
          | none => simp
          | some b => exact ih _ (StdMap.mem_of_find _ _ _ hf)
        exact le_trans
          (List.Sublist.length_le (List.Sublist.filter _ (List.erase_sublist _ _))) hb
      · exact ih e he
  | update l u _ _ => exact fun e he => globals_updateHotKeys _ l u e he

theorem dispatched_eq (r : Dispatched) (handled : Bool) (runAction : List (Ptr × Bool))
    (assertFailed : Bool) (h₁ : r.handled = handled) (h₂ : r.runAction = runAction)
    (h₃ : r.assertFailed = assertFailed) :
    r = { handled := handled, runAction := runAction, assertFailed := assertFailed } := by
  cases r
  simp_all

theorem eq_of_globals_le_one (heap : Ptr → TOOL_ACTION) (actions : List Ptr)
    (h : (actions.filter (isGlobal heap)).length ≤ 1) (g g' : Ptr)
    (hg : g ∈ actions) (hg' : g' ∈ actions)
    (hgg : isGlobal heap g = true) (hgg' : isGlobal heap g' = true) : g = g' := by
  have h1 : g ∈ actions.filter (isGlobal heap) := List.mem_filter.mpr ⟨hg, hgg⟩
  have h2 : g' ∈ actions.filter (isGlobal heap) := List.mem_filter.mpr ⟨hg', hgg'⟩
  generalize actions.filter (isGlobal heap) = f at h h1 h2
  match f, h, h1, h2 with
  | [x], _, h1, h2 =>
    rw [List.mem_singleton.mp h1, List.mem_singleton.mp h2]

/-- C15. Whenever the bucket `RunHotKey` looks up contains a Context action of
an active tool, `RunHotKey` is handled and runs exactly one action: a Context
action of the bucket whose owning tool is active and has a priority not below
that of any other active tool owning a Context action of the bucket. The
order of the actions in the bucket does not matter: on every rearrangement of
the bucket the candidate loop runs a Context action of that same greatest
priority. -/
theorem C15_priority_dispatch (m : ACTION_MANAGER) (tm : TOOL_MANAGER) (env : HOTKEY_ENV)
    (aHotKey : Int) (actions : List Ptr)
    (hb : hotKeyBucket m env aHotKey = some actions)
    (ha : ∃ a ∈ actions, isGlobal m.heap a = false ∧ (activePriority m tm env a).isSome = true) :
    ∃ c p, c ∈ actions ∧ isGlobal m.heap c = false ∧ activePriority m tm env c = some p ∧
      (∀ a ∈ actions, isGlobal m.heap a = false →
        ∀ q, activePriority m tm env a = some q → q ≤ p) ∧
      (RunHotKey m tm env aHotKey).handled = true ∧
      (RunHotKey m tm env aHotKey).runAction = [(c, true)] ∧
      ∀ rearranged : List Ptr, rearranged.Perm actions →
        ∃ d, d ∈ actions ∧ isGlobal m.heap d = false ∧ activePriority m tm env d = some p ∧
          (runHotKeyBucket m tm env rearranged).runAction = [(d, true)] := by
  rw [runHotKey_eq, hb]
  obtain ⟨a, ha1, ha2, ha3⟩ := ha
  rcases runHotKeyBucket_cases m tm env actions with
    ⟨c, h1, h2, ⟨p, h3, h4⟩, h5, h6⟩ | ⟨hn, _⟩ | ⟨hn, _⟩
  · refine ⟨c, p, h1, h2, h3, h4, h5, h6, ?_⟩
    intro rearranged hperm
    rcases runHotKeyBucket_cases m tm env rearranged with
      ⟨d, g1, g2, ⟨q, g3, g4⟩, _, g6⟩ | ⟨gn, _⟩ | ⟨gn, _⟩
    · have hd : d ∈ actions := hperm.mem_iff.mp g1
      have hc : c ∈ rearranged := hperm.mem_iff.mpr h1
      have hqp : q = p := le_antisymm (h4 d hd g2 q g3) (g4 c hc h2 p h3)
      exact ⟨d, hd, g2, hqp ▸ g3, g6⟩
    · rw [gn a (hperm.mem_iff.mpr ha1) ha2] at ha3; cases ha3
    · rw [gn a (hperm.mem_iff.mpr ha1) ha2] at ha3; cases ha3
  · rw [hn a ha1 ha2] at ha3; cases ha3
  · rw [hn a ha1 ha2] at ha3; cases ha3

/-- C15, the instance of the specification: tool `t.A` at priority 1 and tool
`t.B` at priority 2 each own a Context action on key X (88), nothing Global is
on X: dispatching X runs the action of `t.B` (address 1), and so does the
candidate loop on the bucket in the opposite order. -/
theorem C15_priority_dispatch_witness :
    hotKeyBucket Scenario.keyX Scenario.env 88 = some [0, 1] ∧
    (∃ c p, c ∈ [0, 1] ∧ isGlobal Scenario.keyX.heap c = false ∧
      activePriority Scenario.keyX (Scenario.tools 1 2) Scenario.env c = some p ∧
      (RunHotKey Scenario.keyX (Scenario.tools 1 2) Scenario.env 88).handled = true ∧
      (RunHotKey Scenario.keyX (Scenario.tools 1 2) Scenario.env 88).runAction = [(c, true)]) ∧
    (RunHotKey Scenario.keyX (Scenario.tools 1 2) Scenario.env 88).runAction = [(1, true)] ∧
    (runHotKeyBucket Scenario.keyX (Scenario.tools 1 2) Scenario.env [1, 0]).runAction =
      [(1, true)] :=
  ⟨by decide,
   (C15_priority_dispatch Scenario.keyX (Scenario.tools 1 2) Scenario.env 88 [0, 1] (by decide)
     ⟨0, by decide, by decide, by decide⟩).elim
     (fun c hc => hc.elim (fun p hp => ⟨c, p, hp.1, hp.2.1, hp.2.2.1, hp.2.2.2.2.1,
       hp.2.2.2.2.2.1⟩)),
   by decide, by decide⟩

/-- C16. Whenever the bucket `RunHotKey` looks up contains a Context action
whose owning tool is found and has a priority of at least 0, `RunHotKey` is
handled and runs exactly one action, a Context action; no Global action is
run, wherever a Global action stands in the bucket. -/
theorem C16_context_beats_global (m : ACTION_MANAGER) (tm : TOOL_MANAGER) (env : HOTKEY_ENV)
    (aHotKey : Int) (actions : List Ptr)
    (hb : hotKeyBucket m env aHotKey = some actions)
    (ha : ∃ a ∈ actions, isGlobal m.heap a = false ∧ (activePriority m tm env a).isSome = true) :
    (RunHotKey m tm env aHotKey).handled = true ∧
    (∃ c, c ∈ actions ∧ isGlobal m.heap c = false ∧
      (RunHotKey m tm env aHotKey).runAction = [(c, true)]) ∧
    ∀ g flag, isGlobal m.heap g = true → (g, flag) ∉ (RunHotKey m tm env aHotKey).runAction := by
  rw [runHotKey_eq, hb]
  obtain ⟨a, ha1, ha2, ha3⟩ := ha
  rcases runHotKeyBucket_cases m tm env actions with
    ⟨c, h1, h2, _, h5, h6⟩ | ⟨hn, _⟩ | ⟨hn, _⟩
  · refine ⟨h5, ⟨c, h1, h2, h6⟩, ?_⟩
    intro g flag hg hmem
    rw [h6] at hmem
    have : g = c := (Prod.mk.inj (List.mem_singleton.mp hmem)).1
    rw [this, h2] at hg
    cases hg
  · rw [hn a ha1 ha2] at ha3; cases ha3
  · rw [hn a ha1 ha2] at ha3; cases ha3

/-- C16, an instance: the Global action `t.C.all` (address 0) and the Context
actions of `t.A` (address 1) and `t.B` (address 2) share key Y (89); with `t.A`
active at priority 0 and `t.B` inactive, dispatching Y runs the action of
`t.A`, also when the Global action stands last in the bucket. -/
theorem C16_context_beats_global_witness :
    hotKeyBucket Scenario.keyY Scenario.env 89 = some [1, 2, 0] ∧
    (RunHotKey Scenario.keyY (Scenario.tools 0 (-1)) Scenario.env 89).handled = true ∧
    (RunHotKey Scenario.keyY (Scenario.tools 0 (-1)) Scenario.env 89).runAction = [(1, true)] ∧
    (runHotKeyBucket Scenario.keyY (Scenario.tools 0 (-1)) Scenario.env [0, 1, 2]).runAction =
      [(1, true)] :=
  ⟨by decide,
   (C16_context_beats_global Scenario.keyY (Scenario.tools 0 (-1)) Scenario.env 89 [1, 2, 0]
     (by decide) ⟨1, by decide, by decide, by decide⟩).1,
   by decide, by decide⟩

/-- C17. In every reachable state, whenever the bucket `RunHotKey` looks up
contains a Global action `G` and every Context action of the bucket belongs to
a tool that `FindTool` does not find or that has no priority (is inactive),
`RunHotKey` runs `G`, once, as a user-invoked action, returns true and
violates no assertion: a tool that is not found counts as inactive. -/
theorem C17_fallback_to_global (m : ACTION_MANAGER) (h : Reachable m) (tm : TOOL_MANAGER)
    (env : HOTKEY_ENV) (aHotKey : Int) (actions : List Ptr) (G : Ptr)
    (hb : hotKeyBucket m env aHotKey = some actions)
    (hG : G ∈ actions) (hGg : isGlobal m.heap G = true)
    (hctx : ∀ a ∈ actions, isGlobal m.heap a = false → activePriority m tm env a = none) :
    RunHotKey m tm env aHotKey =
      { handled := true, runAction := [(G, true)], assertFailed := false } := by
  have hmem : (aHotKey, actions).2 ∈ m.m_actionHotKeys.map Prod.snd := by
    simp only [hotKeyBucket] at hb
    split at hb
    · next acts hf =>
      have := StdMap.mem_of_find _ _ _ hf
      rw [Option.some.inj hb] at this
      exact List.mem_map.mpr ⟨_, this, rfl⟩
    · exact List.mem_map.mpr ⟨_, StdMap.mem_of_find _ _ _ hb, rfl⟩
  obtain ⟨e, he, hee⟩ := List.mem_map.mp hmem
  have hone : (actions.filter (isGlobal m.heap)).length ≤ 1 := by
    have := globals_of_reachable h e he
    rw [hee] at this
    exact this
  have hassert := runHotKeyBucket_assert m tm env actions hone
  rw [runHotKey_eq, hb]
  rcases runHotKeyBucket_cases m tm env actions with
    ⟨c, h1, h2, ⟨p, h3, _⟩, _, _⟩ | ⟨_, g, h1, h2, h3, h4⟩ | ⟨_, hn, _⟩
  · rw [hctx c h1 h2] at h3; cases h3
  · have hgG : g = G := eq_of_globals_le_one m.heap actions hone g G h1 hG h2 hGg
    rw [hgG] at h4
    exact dispatched_eq _ _ _ _ h3 h4 hassert
  · rw [hn G hG] at hGg; cases hGg

/-- C17, an instance: on key Y (89) stand the Global action `t.C.all` (address
0) and Context actions of `t.A` and `t.B`; with both tools inactive, and
likewise with a tool registry that finds neither tool, dispatching Y runs the
Global action. -/
theorem C17_fallback_to_global_witness :
    RunHotKey Scenario.keyY (Scenario.tools (-1) (-1)) Scenario.env 89 =
      { handled := true, runAction := [(0, true)], assertFailed := false } ∧
    (RunHotKey Scenario.keyY (Scenario.selTool 0) Scenario.env 89).runAction = [(0, true)] :=
  ⟨C17_fallback_to_global Scenario.keyY
     (Reachable.update [] [] (Reachable.construct _ _ _ _))
     (Scenario.tools (-1) (-1)) Scenario.env 89 [1, 2, 0] 0
     (by decide) (by decide) (by decide) (by decide),
   by decide⟩

/-- C18. When the bucket `RunHotKey` looks up consists of a single action `a`
that is not Global: if the owning tool of `a` is found and active (a priority
of 0 counts as active), `RunHotKey` runs `a` and returns true; if the tool is
not found or inactive, `RunHotKey` returns false and runs no action; so it is
handled exactly when the tool is found and active. -/
theorem C18_single_context_action (m : ACTION_MANAGER) (tm : TOOL_MANAGER) (env : HOTKEY_ENV)
    (aHotKey : Int) (a : Ptr)
    (hb : hotKeyBucket m env aHotKey = some [a]) (hctx : isGlobal m.heap a = false) :
    ((RunHotKey m tm env aHotKey).handled = true ↔
      (activePriority m tm env a).isSome = true) ∧
    ((activePriority m tm env a).isSome = true →
      RunHotKey m tm env aHotKey =
        { handled := true, runAction := [(a, true)], assertFailed := false }) ∧
    (activePriority m tm env a = none →
      RunHotKey m tm env aHotKey =
        { handled := false, runAction := [], assertFailed := false }) := by
  have hassert := runHotKeyBucket_assert m tm env [a] (by simp [List.filter_cons, hctx])
  rw [runHotKey_eq, hb]
  rcases runHotKeyBucket_cases m tm env [a] with
    ⟨c, h1, _, ⟨p, h3, _⟩, h5, h6⟩ | ⟨_, g, h1, h2, _, _⟩ | ⟨hn, _, h5, h6⟩
  · have hca : c = a := List.mem_singleton.mp h1
    rw [hca] at h3 h6
    have hr := dispatched_eq _ _ _ _ h5 h6 hassert
    refine ⟨?_, fun _ => hr, fun hn => ?_⟩
    · rw [h5, h3]; simp
    · rw [hn] at h3; cases h3
  · rw [List.mem_singleton.mp h1, hctx] at h2; cases h2
  · have hna := hn a (List.mem_singleton_self _) hctx
    have hr := dispatched_eq _ _ _ _ h5 h6 hassert
    refine ⟨?_, fun hs => ?_, fun _ => hr⟩
    · rw [h5, hna]; simp
    · rw [hna] at hs; cases hs

/-- C18, the scenario of the specification: `app.sel.move` (Context, address 0)
is the only action on key M (77), `app.global.cancel` (Global) is on Escape;
with tool `app.sel` active at priority 0 dispatching M is handled by
`app.sel.move`; after the tool is deactivated (no priority) dispatching M is
unhandled and runs nothing. -/
theorem C18_single_context_action_witness :
    hotKeyBucket Scenario.endToEnd Scenario.env 77 = some [0] ∧
    RunHotKey Scenario.endToEnd (Scenario.selTool 0) Scenario.env 77 =
      { handled := true, runAction := [(0, true)], assertFailed := false } ∧
    RunHotKey Scenario.endToEnd (Scenario.selTool (-1)) Scenario.env 77 =
      { handled := false, runAction := [], assertFailed := false } :=
  ⟨by decide,
   (C18_single_context_action Scenario.endToEnd (Scenario.selTool 0) Scenario.env 77 0
     (by decide) (by decide)).2.1 (by decide),
   (C18_single_context_action Scenario.endToEnd (Scenario.selTool (-1)) Scenario.env 77 0
     (by decide) (by decide)).2.2 (by decide)⟩

/-- C19. For every state, tool manager and key press, `RunHotKey` calls
`RunAction` at most once; every call has the user-invoked flag set; the action
run is a member of the bucket that was looked up; and the value returned is
true exactly when `RunAction` was called. -/
theorem C19_at_most_one_action (m : ACTION_MANAGER) (tm : TOOL_MANAGER) (env : HOTKEY_ENV)
    (aHotKey : Int) :
    (RunHotKey m tm env aHotKey).runAction.length ≤ 1 ∧
    (∀ c ∈ (RunHotKey m tm env aHotKey).runAction, c.2 = true) ∧
    (∀ c ∈ (RunHotKey m tm env aHotKey).runAction,
      ∃ actions, hotKeyBucket m env aHotKey = some actions ∧ c.1 ∈ actions) ∧
    ((RunHotKey m tm env aHotKey).handled = true ↔
      (RunHotKey m tm env aHotKey).runAction ≠ []) := by
  rw [runHotKey_eq]
  cases hb : hotKeyBucket m env aHotKey with
  | none => simp
  | some actions =>
    simp only
    rcases runHotKeyBucket_cases m tm env actions with
      ⟨c, h1, _, _, h5, h6⟩ | ⟨_, g, h1, _, h5, h6⟩ | ⟨_, _, h5, h6⟩
    · rw [h5, h6]
      refine ⟨by simp, by simp, ?_, by simp⟩
      intro x hx
      rw [List.mem_singleton.mp hx]
      exact ⟨actions, rfl, h1⟩
    · rw [h5, h6]
      refine ⟨by simp, by simp, ?_, by simp⟩
      intro x hx
      rw [List.mem_singleton.mp hx]
      exact ⟨actions, rfl, h1⟩
    · rw [h5, h6]
      simp

end ACTION_MANAGER


/-! ## Key codes and modifier bits -/

namespace ACTION_MANAGER

end ACTION_MANAGER


/-! ## The retry without Shift -/

namespace ACTION_MANAGER

theorem runHotKey_retry (m : ACTION_MANAGER) (tm : TOOL_MANAGER) (env : HOTKEY_ENV)
    (key mod : Int) (hkey : ¬ (key ≥ 97 ∧ key ≤ 122))
    (hk : and32 (or32 key mod) (not32 env.MD_MODIFIER_MASK) = key)
    (hm : and32 (or32 key mod) env.MD_MODIFIER_MASK = mod)
    (hnone : StdMap.find m.m_actionHotKeys (or32 key mod) = none) :
    RunHotKey m tm env (or32 key mod) =
      match StdMap.find m.m_actionHotKeys (or32 key (and32 mod (not32 env.MD_SHIFT))) with
      | some actions => runHotKeyBucket m tm env actions
      | none => { handled := false, runAction := [], assertFailed := false } := by
  simp only [RunHotKey, hk, hm, if_neg hkey, hnone]

/-- C14, the code at the failing input. `t.Z.help` is bound to `/` (47) and
`t.A.other` to Shift+`/` (4143); after `UnregisterAction` of `t.A.other` no
action is bound to Shift+`/`, but its bucket is still in the table, empty.
Dispatching `/` runs `t.Z.help`; dispatching Shift+`/` finds the empty bucket,
does not retry without Shift, runs nothing and returns false. -/
theorem C14_retry_blocked_by_empty_bucket :
    Scenario.slashOnly.m_actionHotKeys = [(47, [0]), (4143, [])] ∧
    bucket Scenario.slashOnly (or32 47 4096) = [] ∧
    and32 4096 Scenario.env.MD_SHIFT = 4096 ∧
    or32 47 (and32 4096 (not32 Scenario.env.MD_SHIFT)) = 47 ∧
    (RunHotKey Scenario.slashOnly (Scenario.tools 0 0) Scenario.env 47).handled = true ∧
    (RunHotKey Scenario.slashOnly (Scenario.tools 0 0) Scenario.env 47).runAction =
      [(0, true)] ∧
    (RunHotKey Scenario.slashOnly (Scenario.tools 0 0) Scenario.env (or32 47 4096)).handled =
      false ∧
    (RunHotKey Scenario.slashOnly (Scenario.tools 0 0) Scenario.env (or32 47 4096)).runAction =
      [] := by
  decide

end ACTION_MANAGER


/-! ## The reverse map after `UpdateHotKeys` -/

namespace ACTION_MANAGER

theorem hotkeys_step (l u : StdMap std_string Int) (m : ACTION_MANAGER) (a : Ptr)
    (i k : Int) (h : StdMap.find (updateHotKeysStep l u m a).m_hotkeys i = some k) :
    StdMap.find m.m_hotkeys i = some k ∨
      (m.idOf a = i ∧ resolvedKey (m.heap a) l u = k ∧ 0 < k) := by
  by_cases hk : 0 < resolvedKey (m.heap a) l u
  · obtain ⟨_, _, _, _, _, hrev⟩ := updateHotKeysStep_table l u m a hk
    rw [hrev] at h
    by_cases hi : i = m.idOf a
    · rw [hi, StdMap.find_assign_self] at h
      have := Option.some.inj h
      exact Or.inr ⟨hi.symm, this, this ▸ hk⟩
    · rw [StdMap.find_assign_ne _ _ _ _ hi] at h
      exact Or.inl h
  · rw [(updateHotKeysStep_skip l u m a (not_lt.mp hk)).2] at h
    exact Or.inl h

theorem hotkeys_foldl (l u : StdMap std_string Int) (i k : Int) (ps : List Ptr) :
    ∀ m : ACTION_MANAGER,
      StdMap.find (ps.foldl (updateHotKeysStep l u) m).m_hotkeys i = some k →
      StdMap.find m.m_hotkeys i = some k ∨
        ∃ b ∈ ps, m.idOf b = i ∧ resolvedKey (m.heap b) l u = k ∧ 0 < k := by
  induction ps with
  | nil => intro m h; exact Or.inl h
  | cons p rest ih =>
    intro m h
    simp only [List.foldl_cons] at h
    rcases ih _ h with h | ⟨b, hb, h1, h2, h3⟩
    · rcases hotkeys_step l u m p i k h with h | h
      · exact Or.inl h
      · exact Or.inr ⟨p, List.mem_cons_self _ _, h⟩
    · refine Or.inr ⟨b, List.mem_cons_of_mem _ hb, ?_, ?_, h3⟩
      · rw [idOf_updateHotKeysStep] at h1; exact h1
      · rw [resolvedKey_congr (updateHotKeysStep_heap l u m p b)] at h2; exact h2

theorem hotkeys_updateHotKeys (m : ACTION_MANAGER) (l u : StdMap std_string Int) (i k : Int)
    (h : StdMap.find (UpdateHotKeys m l u).m_hotkeys i = some k) :
    ∃ b ∈ m.registered, m.idOf b = i ∧ resolvedKey (m.heap b) l u = k ∧ 0 < k := by
  simp only [UpdateHotKeys] at h
  rw [updateHotKeysLoop_eq_foldl] at h
  rcases hotkeys_foldl l u i k _ _ h with h | h
  · simp [StdMap.find] at h
  · exact h

theorem idOf_updateHotKeys (m : ACTION_MANAGER) (l u : StdMap std_string Int) (a : Ptr) :
    (UpdateHotKeys m l u).idOf a = m.idOf a :=
  (updateHotKeys_heap m l u a).2.2.2.2

theorem getHotKey_updateHotKeys (m : ACTION_MANAGER) (l u : StdMap std_string Int) (a : Ptr)
    (k : Int) (hk : k ≠ 0) (h : (UpdateHotKeys m l u).GetHotKey a = k) :
    ∃ b ∈ m.registered, m.idOf b = m.idOf a ∧ resolvedKey (m.heap b) l u = k ∧ 0 < k := by
  have hid := idOf_updateHotKeys m l u a
  simp only [idOf] at hid
  simp only [GetHotKey, hid] at h
  cases hf : StdMap.find (UpdateHotKeys m l u).m_hotkeys (m.heap a).m_id with
  | none => rw [hf] at h; exact absurd h.symm hk
  | some k' =>
    rw [hf] at h
    have hk' : k' = k := h
    rw [hk'] at hf
    exact hotkeys_updateHotKeys m l u _ k hf

theorem not_mem_bucket_of_unbound (m : ACTION_MANAGER) (l u : StdMap std_string Int) (a : Ptr)
    (hk : resolvedKey (m.heap a) l u ≤ 0) :
    ∀ e ∈ (UpdateHotKeys m l u).m_actionHotKeys, a ∉ e.2 := by
  intro e he ha
  rw [entry_eq_bucket _ (ordered_updateHotKeys m l u) e he, bucket_updateHotKeys] at ha
  rcases mem_foldl_bucketStep m.heap l u e.1 _ [] a ha with h | h
  · simp at h
  · omega

/-- C11. For every registered action whose resolved key is 0 or negative, after
`UpdateHotKeys` no bucket contains the action (in whatever state the manager
is), and `GetHotKey` of the action returns 0 whenever the registered actions
have pairwise distinct ids, as they have in every state reachable through
construction (from a static action list whose ids come from the counter),
`UpdateHotKeys` and `UnregisterAction` calls. -/
theorem C11_unbound_action (m : ACTION_MANAGER) (l u : StdMap std_string Int) (a : Ptr)
    (ha : a ∈ m.registered) (hk : resolvedKey (m.heap a) l u ≤ 0) :
    (∀ e ∈ (UpdateHotKeys m l u).m_actionHotKeys, a ∉ e.2) ∧
    (IdsDistinct m → (UpdateHotKeys m l u).GetHotKey a = 0) ∧
    (ReachableCounterIds m → (UpdateHotKeys m l u).GetHotKey a = 0) := by
  have key : IdsDistinct m → (UpdateHotKeys m l u).GetHotKey a = 0 := by
    intro hd
    by_contra hne
    obtain ⟨b, hb, h1, h2, h3⟩ := getHotKey_updateHotKeys m l u a _ hne rfl
    rw [hd b hb a ha h1] at h2
    omega
  exact ⟨not_mem_bucket_of_unbound m l u a hk, key,
    fun h => key (tables_of_reachableDistinctIds (reachableDistinctIds_of_counterIds h)).2.1⟩

/-- C11, an instance: `t.a` (no key) and `t.b` (key 66), constructed from
entries without ids: after `UpdateHotKeys` the action `t.a` (address 0) is in
no bucket and its `GetHotKey` is 0. -/
theorem C11_unbound_action_witness :
    (0 ∈ Scenario.unbound.registered ∧ resolvedKey (Scenario.unbound.heap 0) [] [] ≤ 0) ∧
    (∀ e ∈ (UpdateHotKeys Scenario.unbound [] []).m_actionHotKeys, 0 ∉ e.2) ∧
    (UpdateHotKeys Scenario.unbound [] []).GetHotKey 0 = 0 :=
  ⟨⟨by decide, by decide⟩,
   (C11_unbound_action Scenario.unbound [] [] 0 (by decide) (by decide)).1,
   (C11_unbound_action Scenario.unbound [] [] 0 (by decide) (by decide)).2.2
     (ReachableCounterIds.construct _ _ _ _ (by unfold IdsFromCounter; decide))⟩

theorem bucketOK_updateHotKeys (m : ACTION_MANAGER) (h1 : NameIndexOK m) (h2 : IdsDistinct m)
    (l u : StdMap std_string Int) :
    ∀ e ∈ (UpdateHotKeys m l u).m_actionHotKeys, BucketOK (UpdateHotKeys m l u) [] e := by
  simp only [UpdateHotKeys]
  rw [updateHotKeysLoop_eq_foldl]
  apply bucketOK_foldl
  · exact List.Nodup.map_on (fun p hp q hq hpq => h2 p hp q hq hpq) (registered_nodup m h1)
  · intro e he
    simp at he

theorem mem_bucket_of_last (m : ACTION_MANAGER) (hok : NameIndexOK m)
    (l u : StdMap std_string Int) (b : Ptr) (k : Int) (hb : b ∈ m.registered) (hk : 0 < k)
    (hkb : resolvedKey (m.heap b) l u = k)
    (hmax : ∀ c ∈ m.registered, isGlobal m.heap c = true → resolvedKey (m.heap c) l u = k →
      m.nameOf c ≤ m.nameOf b) :
    b ∈ bucket (UpdateHotKeys m l u) k := by
  obtain ⟨pre, post, hsplit, _, hpost⟩ := registered_split m hok b hb
  rw [bucket_updateHotKeys, hsplit, List.foldl_append, List.foldl_cons]
  apply mem_foldl_keep
  · simp only [bucketStep, hkb, hk, and_self, if_true]
    exact List.mem_append_right _ (List.mem_singleton_self _)
  · intro p hp hgp
    have hpreg : p ∈ m.registered := by
      rw [hsplit]
      exact List.mem_append_right _ (List.mem_cons_of_mem _ hp)
    exact absurd (hpost p hp) (not_lt.mpr (hmax p hpreg hgp.1 hgp.2))

/-- C12 (as the code behaves). After `UpdateHotKeys` in a reachable state whose
registered actions have pairwise distinct ids, for every registered action `a`
and every key `k` different from 0: if `a` is contained in the bucket for `k`
then `GetHotKey( a )` is `k`; and if `GetHotKey( a )` is `k` then `k` is the
resolved key of `a`, and `a` is contained in the bucket for `k` provided `a` is
not Global-scope or no registered Global-scope action with a greater name
resolves to `k`. -/
theorem C12_maps_consistent (m : ACTION_MANAGER) (h : Reachable m) (hd : IdsDistinct m)
    (l u : StdMap std_string Int) (a : Ptr) (k : Int) (ha : a ∈ m.registered) (hk : k ≠ 0) :
    (a ∈ bucket (UpdateHotKeys m l u) k → (UpdateHotKeys m l u).GetHotKey a = k) ∧
    ((UpdateHotKeys m l u).GetHotKey a = k →
      resolvedKey (m.heap a) l u = k ∧ 0 < k ∧
      ((isGlobal m.heap a = false ∨
          ∀ c ∈ m.registered, isGlobal m.heap c = true → resolvedKey (m.heap c) l u = k →
            m.nameOf c ≤ m.nameOf a) →
        a ∈ bucket (UpdateHotKeys m l u) k)) := by
  have hok := nameIndexOK_of_reachable h
  constructor
  · intro hmem
    have hb := bucketOK_bucket _ [] (bucketOK_updateHotKeys m hok hd l u) k
    obtain ⟨h1, _, _⟩ := hb.2 a hmem
    simp only [GetHotKey, idOf] at h1 ⊢
    rw [h1]
  · intro hget
    obtain ⟨b, hb, h1, h2, h3⟩ := getHotKey_updateHotKeys m l u a k hk hget
    have hba : b = a := hd b hb a ha h1
    rw [hba] at h2
    refine ⟨h2, h3, ?_⟩
    rintro (hctx | hmax)
    · have hcount := count_foldl_mem m.heap l u a hctx (h2 ▸ h3) m.registered []
        (registered_nodup m hok) ha (by simp)
      rw [h2] at hcount
      rw [bucket_updateHotKeys]
      exact List.count_pos_iff.mp (by omega)
    · exact mem_bucket_of_last m hok l u a k ha h3 h2 hmax

/-- C12, an instance: of the Global actions `t.z` (address 0, id 1) and `t.a`
(address 1, id 2) on key 65, `t.z` has the greater name: it is in the bucket of
65 and its `GetHotKey` is 65. -/
theorem C12_maps_consistent_witness :
    (UpdateHotKeys Scenario.twoGlobals [] []).GetHotKey 0 = 65 ∧
    0 ∈ bucket (UpdateHotKeys Scenario.twoGlobals [] []) 65 :=
  ⟨(C12_maps_consistent Scenario.twoGlobals (Reachable.construct _ _ _ _)
      (by unfold IdsDistinct; decide) [] [] 0 65 (by decide) (by decide)).1 (by decide),
   ((C12_maps_consistent Scenario.twoGlobals (Reachable.construct _ _ _ _)
      (by unfold IdsDistinct; decide) [] [] 0 65 (by decide) (by decide)).2
      (by decide)).2.2 (Or.inr (by decide))⟩

/-- C12 (as stated) fails: the Global actions `t.z` (address 0, id 1) and `t.a`
(address 1, id 2) both resolve to key 65; `UpdateHotKeys` evicts `t.a` from the
bucket of 65 when it adds `t.z`, but the reverse map keeps the entry of `t.a`:
`GetHotKey` of `t.a` is 65 although `t.a` is not in the bucket for 65. -/
theorem C12_counterexample :
    Scenario.twoGlobals.registered = [1, 0] ∧
    Scenario.twoGlobals.idOf 0 = 1 ∧ Scenario.twoGlobals.idOf 1 = 2 ∧
    (UpdateHotKeys Scenario.twoGlobals [] []).GetHotKey 1 = 65 ∧
    bucket (UpdateHotKeys Scenario.twoGlobals [] []) 65 = [0] ∧
    1 ∉ bucket (UpdateHotKeys Scenario.twoGlobals [] []) 65 := by
  decide

end ACTION_MANAGER


/-! ## The ratsnest timer -/

namespace PCB_EDITOR_CONTROL

theorem update_empty (s : PCB_EDITOR_CONTROL) (msecs : ℚ) :
    UpdateSelectionRatsnest s true msecs =
      { s with calls := s.calls ++ [RATSNEST_CALL.ClearDynamicRatsnest] } := by
  simp [UpdateSelectionRatsnest]

theorem update_slow (s : PCB_EDITOR_CONTROL) (msecs : ℚ) (h : s.m_slowRatsnest = true) :
    UpdateSelectionRatsnest s false msecs =
      { s with
        calls := s.calls ++ [RATSNEST_CALL.HideDynamicRatsnest]
        m_ratsnestTimer := s.m_ratsnestTimer.Start 20 } := by
  simp [UpdateSelectionRatsnest, h]

theorem update_eager_slow (s : PCB_EDITOR_CONTROL) (msecs : ℚ) (h : s.m_slowRatsnest = false)
    (hm : msecs > 25) :
    UpdateSelectionRatsnest s false msecs =
      { s with
        m_slowRatsnest := true
        calls := s.calls ++
          [RATSNEST_CALL.ComputeDynamicRatsnest, RATSNEST_CALL.HideDynamicRatsnest] } := by
  simp [UpdateSelectionRatsnest, calculateSelectionRatsnest, h, hm]

theorem computed_timerElapses (s : PCB_EDITOR_CONTROL) (h : s.m_ratsnestTimer.running = true) :
    (timerElapses s).computed = s.computed + 1 ∧
      (timerElapses s).m_ratsnestTimer.running = false := by
  simp only [timerElapses, h, if_true, ratsnestTimer, calculateSelectionRatsnest, computed,
    wxTimer.Stop]
  split_ifs <;> simp [List.count_append, List.count_cons]

theorem dragging_eq :
    Scenario.dragging =
      { m_slowRatsnest := true
        m_ratsnestTimer := { running := true, milliseconds := 20, oneShot := false }
        calls := [RATSNEST_CALL.ComputeDynamicRatsnest, RATSNEST_CALL.HideDynamicRatsnest,
          RATSNEST_CALL.HideDynamicRatsnest] } := by
  unfold Scenario.dragging
  rw [update_eager_slow ctor 30 rfl (by norm_num), update_slow _ 0 rfl]
  rfl

/-- C20 (as the code behaves). `UpdateSelectionRatsnest` with an empty
selection calls `ClearDynamicRatsnest` and does nothing else: the slow-mode
flag and the timer are left as they are. A timer that is running stays running,
and when it elapses afterwards `ratsnestTimer` stops it and runs
`calculateSelectionRatsnest` once. -/
theorem C20_empty_selection_keeps_timer (s : PCB_EDITOR_CONTROL) (msecs : ℚ) :
    (UpdateSelectionRatsnest s true msecs).calls =
      s.calls ++ [RATSNEST_CALL.ClearDynamicRatsnest] ∧
    (UpdateSelectionRatsnest s true msecs).m_slowRatsnest = s.m_slowRatsnest ∧
    (UpdateSelectionRatsnest s true msecs).m_ratsnestTimer = s.m_ratsnestTimer ∧
    (s.m_ratsnestTimer.running = true →
      (timerElapses (UpdateSelectionRatsnest s true msecs)).computed = s.computed + 1 ∧
      (timerElapses (UpdateSelectionRatsnest s true msecs)).m_ratsnestTimer.running = false) := by
  rw [update_empty]
  refine ⟨rfl, rfl, rfl, fun h => ?_⟩
  have := computed_timerElapses
    { s with calls := s.calls ++ [RATSNEST_CALL.ClearDynamicRatsnest] } h
  refine ⟨?_, this.2⟩
  rw [this.1]
  simp [computed, List.count_append, List.count_cons]

/-- C20, an instance: in the state reached by dragging in slow mode the timer
is running; after an update with an empty selection it is still running, and
its elapsing runs the computation once more. -/
theorem C20_empty_selection_keeps_timer_witness :
    Scenario.dragging.m_ratsnestTimer.running = true ∧
    (timerElapses (UpdateSelectionRatsnest Scenario.dragging true 0)).computed =
      Scenario.dragging.computed + 1 ∧
    (timerElapses (UpdateSelectionRatsnest Scenario.dragging true 0)).m_ratsnestTimer.running =
      false :=
  ⟨by rw [dragging_eq],
   (C20_empty_selection_keeps_timer Scenario.dragging 0).2.2.2 (by rw [dragging_eq])⟩

/-- C20 (as stated) fails: after an update that was measured at 30 ms and a
second update in slow mode the timer is pending; the following update with an
empty selection does not stop it, and when it elapses the deferred computation
runs: `ComputeDynamicRatsnest` is called a second time. -/
theorem C20_counterexample :
    Scenario.dragging.m_ratsnestTimer.running = true ∧
    Scenario.dragging.computed = 1 ∧
    (UpdateSelectionRatsnest Scenario.dragging true 0).m_ratsnestTimer.running = true ∧
    (timerElapses (UpdateSelectionRatsnest Scenario.dragging true 0)).computed = 2 ∧
    (timerElapses (UpdateSelectionRatsnest Scenario.dragging true 0)).calls =
      [RATSNEST_CALL.ComputeDynamicRatsnest, RATSNEST_CALL.HideDynamicRatsnest,
       RATSNEST_CALL.HideDynamicRatsnest, RATSNEST_CALL.ClearDynamicRatsnest,
       RATSNEST_CALL.ComputeDynamicRatsnest, RATSNEST_CALL.RedrawRatsnest,
       RATSNEST_CALL.Refresh] := by
  rw [update_empty, dragging_eq]
  decide

end PCB_EDITOR_CONTROL


/-! ## The order in which `UpdateHotKeys` visits the actions -/

namespace ACTION_MANAGER

theorem sublist_bucketStep (heap : Ptr → TOOL_ACTION) (l u : StdMap std_string Int) (k : Int)
    (b : List Ptr) (p : Ptr) : (bucketStep heap l u k b p).Sublist (b ++ [p]) := by
  simp only [bucketStep]
  split_ifs
  · exact List.Sublist.append (List.filter_sublist _) (List.Sublist.refl _)
  · exact List.Sublist.refl _
  · exact List.sublist_append_left _ _

theorem sublist_foldl_bucketStep (heap : Ptr → TOOL_ACTION) (l u : StdMap std_string Int)
    (k : Int) (ps : List Ptr) :
    ∀ b : List Ptr, (ps.foldl (bucketStep heap l u k) b).Sublist (b ++ ps) := by
  induction ps with
  | nil => intro b; simp
  | cons p rest ih =>
    intro b
    simp only [List.foldl_cons]
    have h1 := ih (bucketStep heap l u k b p)
    have h2 : (bucketStep heap l u k b p ++ rest).Sublist ((b ++ [p]) ++ rest) :=
      List.Sublist.append (sublist_bucketStep heap l u k b p) (List.Sublist.refl _)
    have h3 : (b ++ [p]) ++ rest = b ++ p :: rest := by simp
    exact h3 ▸ h1.trans h2

theorem registered_names_ascending (m : ACTION_MANAGER) (hok : NameIndexOK m) :
    (m.registered.map m.nameOf).Pairwise (fun x y => x < y) := by
  simp only [registered, List.pairwise_map]
  refine List.Pairwise.imp_of_mem ?_ hok.1
  intro e f he hf hlt
  simp only [nameOf]
  rw [hok.2 e he, hok.2 f hf]
  exact hlt

theorem eq_singleton_of_mem {α : Type} (l : List α) (b : α) (hl : l.length ≤ 1) (hb : b ∈ l) :
    l = [b] := by
  match l, hl, hb with
  | [x], _, hb => rw [List.mem_singleton.mp hb]

/-- C25. In every reachable state the registered actions, in the order in which
the loop of `UpdateHotKeys` visits them, have strictly ascending names,
whatever the order of registration was. Consequently, after `UpdateHotKeys`,
every bucket lists its actions in strictly ascending order of their names, and
for every key `k > 0` the Global actions left in the bucket for `k` are exactly
one: the registered Global action resolving to `k` whose name is greatest. -/
theorem C25_name_order (m : ACTION_MANAGER) (h : Reachable m) (l u : StdMap std_string Int) :
    (m.registered.map m.nameOf).Pairwise (fun x y => x < y) ∧
    UpdateHotKeys m l u =
      m.registered.foldl (updateHotKeysStep l u)
        { m with m_actionHotKeys := [], m_hotkeys := [] } ∧
    (∀ e ∈ (UpdateHotKeys m l u).m_actionHotKeys,
      (e.2.map m.nameOf).Pairwise (fun x y => x < y)) ∧
    (∀ (b : Ptr) (k : Int), b ∈ m.registered → isGlobal m.heap b = true → 0 < k →
      resolvedKey (m.heap b) l u = k →
      (∀ c ∈ m.registered, isGlobal m.heap c = true → resolvedKey (m.heap c) l u = k →
        m.nameOf c ≤ m.nameOf b) →
      (bucket (UpdateHotKeys m l u) k).filter (isGlobal m.heap) = [b]) := by
  have hok := nameIndexOK_of_reachable h
  have hasc := registered_names_ascending m hok
  refine ⟨hasc, ?_, ?_, ?_⟩
  · simp only [UpdateHotKeys]
    rw [updateHotKeysLoop_eq_foldl]
    rfl
  · intro e he
    rw [entry_eq_bucket _ (ordered_updateHotKeys m l u) e he, bucket_updateHotKeys]
    have hs := sublist_foldl_bucketStep m.heap l u e.1 m.registered []
    rw [List.nil_append] at hs
    exact List.Pairwise.sublist (List.Sublist.map _ hs) hasc
  · intro b k hb hg hk hkb hmax
    have hmem := mem_bucket_of_last m hok l u b k hb hk hkb hmax
    have hle : ((bucket (UpdateHotKeys m l u) k).filter (isGlobal m.heap)).length ≤ 1 := by
      rw [bucket_updateHotKeys]
      exact globals_foldl m.heap l u k _ [] (by simp)
    exact eq_singleton_of_mem _ b hle (List.mem_filter.mpr ⟨hmem, hg⟩)

/-- C25, an instance: `t.z` (address 0) is registered before `t.a` (address 1);
the loop visits `t.a` first; both are Global on key 65 and the one left in the
bucket is `t.z`, the greater name. -/
theorem C25_name_order_witness :
    Scenario.inTurn.registered = [1, 0] ∧
    (Scenario.inTurn.registered.map Scenario.inTurn.nameOf).Pairwise (fun x y => x < y) ∧
    (bucket (UpdateHotKeys Scenario.inTurn [] []) 65).filter (isGlobal Scenario.inTurn.heap) =
      [0] :=
  ⟨by decide,
   (C25_name_order Scenario.inTurn
      (Reachable.register 1 (Reachable.register 0 (Reachable.construct Scenario.storeZA 2 [] 1)))
      [] []).1,
   (C25_name_order Scenario.inTurn
      (Reachable.register 1 (Reachable.register 0 (Reachable.construct Scenario.storeZA 2 [] 1)))
      [] []).2.2.2 0 65 (by decide) (by decide) (by decide) (by decide) (by decide)⟩

end ACTION_MANAGER


/-! ## Ties between candidates -/

namespace ACTION_MANAGER

theorem candidates_first (m : ACTION_MANAGER) (tm : TOOL_MANAGER) (env : HOTKEY_ENV)
    (actions : List Ptr) :
    ∀ c, (actions.foldl (runHotKeyStep m tm env)
        { highestPriority := -1, context := none, global := none,
          assertFailed := false }).context = some c →
      ∃ pre post p, actions = pre ++ c :: post ∧ activePriority m tm env c = some p ∧
        (∀ a ∈ pre, isGlobal m.heap a = false →
          ∀ q, activePriority m tm env a = some q → q < p) ∧
        (∀ a ∈ post, isGlobal m.heap a = false →
          ∀ q, activePriority m tm env a = some q → q ≤ p) := by
  induction actions using List.reverseRecOn with
  | nil => intro c hc; simp at hc
  | append_singleton l a ih =>
    obtain ⟨c1, c2, c3, c4⟩ := candidates_context m tm env l
    rw [List.foldl_append, List.foldl_cons, List.foldl_nil]
    generalize hs : l.foldl (runHotKeyStep m tm env)
      { highestPriority := -1, context := none, global := none, assertFailed := false } = s
      at ih c1 c2 c3 c4
    have keep : ∀ c, s.context = some c →
        (∀ q, activePriority m tm env a = some q → isGlobal m.heap a = false →
          q ≤ s.highestPriority) →
        ∃ pre post p, l ++ [a] = pre ++ c :: post ∧ activePriority m tm env c = some p ∧
          (∀ b ∈ pre, isGlobal m.heap b = false →
            ∀ q, activePriority m tm env b = some q → q < p) ∧
          (∀ b ∈ post, isGlobal m.heap b = false →
            ∀ q, activePriority m tm env b = some q → q ≤ p) := by
      intro c hc hle
      obtain ⟨pre, post, p, h1, h2, h3, h4⟩ := ih c hc
      have hp : p = s.highestPriority := by
        have := c4 c hc
        rw [h2] at this
        exact Option.some.inj this
      refine ⟨pre, post ++ [a], p, by rw [h1]; simp, h2, h3, ?_⟩
      intro b hb hbg q hq
      rcases List.mem_append.mp hb with hb | hb
      · exact h4 b hb hbg q hq
      · rw [List.mem_singleton.mp hb] at hbg hq
        rw [hp]
        exact hle q hq hbg
    intro c hc
    by_cases hg : isGlobal m.heap a = true
    · obtain ⟨e1, _, _⟩ := runHotKeyStep_global m tm env s a hg
      rw [e1] at hc
      exact keep c hc (fun q _ hag => by rw [hg] at hag; cases hag)
    · have hg' : isGlobal m.heap a = false := by simpa using hg
      obtain ⟨_, hcase⟩ := runHotKeyStep_context m tm env s a hg'
      rcases hcase with ⟨p, hp, hlt, e1, _⟩ | ⟨hle, e1, _⟩
      · rw [e1] at hc
        have hca : a = c := Option.some.inj hc
        subst hca
        refine ⟨l, [], p, rfl, hp, ?_, fun b hb => by simp at hb⟩
        intro b hb hbg q hq
        cases hctx : s.context with
        | none =>
          rw [c1 hctx b hb hbg] at hq
          cases hq
        | some c' =>
          obtain ⟨_, _, p', h3, h4⟩ := c2 c' hctx
          have h5 := c4 c' hctx
          rw [h3] at h5
          have hpp : p' = s.highestPriority := Option.some.inj h5
          have := h4 b hb hbg q hq
          omega
      · rw [e1] at hc
        exact keep c hc (fun q hq _ => hle q hq)

theorem runHotKeyBucket_context (m : ACTION_MANAGER) (tm : TOOL_MANAGER) (env : HOTKEY_ENV)
    (actions : List Ptr) (c : Ptr)
    (h : (runHotKeyBucket m tm env actions).runAction = [(c, true)])
    (hc : isGlobal m.heap c = false) :
    (actions.foldl (runHotKeyStep m tm env)
        { highestPriority := -1, context := none, global := none,
          assertFailed := false }).context = some c := by
  obtain ⟨_, g2⟩ := candidates_global m tm env actions
  simp only [runHotKeyBucket] at h
  generalize actions.foldl (runHotKeyStep m tm env)
    { highestPriority := -1, context := none, global := none, assertFailed := false } = s
    at h g2 ⊢
  cases hctx : s.context with
  | some c' =>
    rw [hctx] at h
    simp only at h
    have : c' = c := (Prod.mk.inj (List.cons.inj h).1).1
    rw [this]
  | none =>
    rw [hctx] at h
    cases hgl : s.global with
    | some g =>
      rw [hgl] at h
      simp only at h
      have : g = c := (Prod.mk.inj (List.cons.inj h).1).1
      rw [this] at hgl
      rw [(g2 c hgl).2] at hc
      cases hc
    | none =>
      rw [hgl] at h
      simp at h

/-- C26. Whenever the bucket `RunHotKey` looks up contains a Context action of
an active tool, the action run is the first candidate of the bucket that
obtains the greatest priority: every Context candidate before it in the bucket
has a strictly smaller priority, every Context candidate after it a priority
that is smaller or equal. So among several candidates of the same maximal
priority the one that comes first in the bucket is run. -/
theorem C26_first_of_equals (m : ACTION_MANAGER) (tm : TOOL_MANAGER) (env : HOTKEY_ENV)
    (aHotKey : Int) (actions : List Ptr)
    (hb : hotKeyBucket m env aHotKey = some actions)
    (ha : ∃ a ∈ actions, isGlobal m.heap a = false ∧ (activePriority m tm env a).isSome = true) :
    ∃ pre c post p, actions = pre ++ c :: post ∧ isGlobal m.heap c = false ∧
      activePriority m tm env c = some p ∧
      (∀ a ∈ pre, isGlobal m.heap a = false →
        ∀ q, activePriority m tm env a = some q → q < p) ∧
      (∀ a ∈ post, isGlobal m.heap a = false →
        ∀ q, activePriority m tm env a = some q → q ≤ p) ∧
      (RunHotKey m tm env aHotKey).runAction = [(c, true)] := by
  rw [runHotKey_eq, hb]
  obtain ⟨a, ha1, ha2, ha3⟩ := ha
  rcases runHotKeyBucket_cases m tm env actions with
    ⟨c, _, h2, _, _, h6⟩ | ⟨hn, _⟩ | ⟨hn, _⟩
  · obtain ⟨pre, post, p, g1, g2, g3, g4⟩ :=
      candidates_first m tm env actions c (runHotKeyBucket_context m tm env actions c h6 h2)
    exact ⟨pre, c, post, p, g1, h2, g2, g3, g4, h6⟩
  · rw [hn a ha1 ha2] at ha3; cases ha3
  · rw [hn a ha1 ha2] at ha3; cases ha3

/-- C26, an instance: `t.A.go` (address 0) and `t.A.run` (address 1) are owned
by the same tool and bound to the same key X (88); with the tool at priority 1
both obtain priority 1, and dispatching X runs `t.A.go`, the first in the
bucket; on the bucket in the opposite order the loop runs `t.A.run`. -/
theorem C26_first_of_equals_witness :
    hotKeyBucket Scenario.sameTool Scenario.env 88 = some [0, 1] ∧
    activePriority Scenario.sameTool (Scenario.tools 1 2) Scenario.env 0 = some 1 ∧
    activePriority Scenario.sameTool (Scenario.tools 1 2) Scenario.env 1 = some 1 ∧
    (∃ pre c post p, [0, 1] = pre ++ c :: post ∧
      activePriority Scenario.sameTool (Scenario.tools 1 2) Scenario.env c = some p ∧
      (RunHotKey Scenario.sameTool (Scenario.tools 1 2) Scenario.env 88).runAction =
        [(c, true)]) ∧
    (RunHotKey Scenario.sameTool (Scenario.tools 1 2) Scenario.env 88).runAction = [(0, true)] ∧
    (runHotKeyBucket Scenario.sameTool (Scenario.tools 1 2) Scenario.env [1, 0]).runAction =
      [(1, true)] :=
  ⟨by decide, by decide, by decide,
   (C26_first_of_equals Scenario.sameTool (Scenario.tools 1 2) Scenario.env 88 [0, 1]
     (by decide) ⟨0, by decide, by decide, by decide⟩).elim
     (fun pre h => h.elim (fun c h => h.elim (fun post h => h.elim (fun p h =>
       ⟨pre, c, post, p, h.1, h.2.2.1, h.2.2.2.2.2⟩)))),
   by decide, by decide⟩

theorem activePriority_congr (m : ACTION_MANAGER) (tm : TOOL_MANAGER) (env : HOTKEY_ENV)
    (a b : Ptr)
    (h : tm.FindTool (env.GetToolName (m.heap a)) = tm.FindTool (env.GetToolName (m.heap b))) :
    activePriority m tm env a = activePriority m tm env b := by
  simp only [activePriority, h]

/-- C23 (as the code behaves). With pairwise distinct priorities of the active
tools, two Context candidates that obtain the same priority in `RunHotKey` are
owned by the same tool. So whenever the bucket looked up contains a Context
action of an active tool, a Context action `c` of an active tool is run, every
candidate owned by another tool than `c` has a strictly smaller priority than
`c` (the owning tool of the action run is uniquely determined by priority),
and no candidate that comes before `c` in the bucket is owned by the tool of
`c`: among the candidates of that tool, which all obtain the same priority,
the first in the bucket is run. -/
theorem C23_ties_within_one_tool (m : ACTION_MANAGER) (tm : TOOL_MANAGER) (env : HOTKEY_ENV)
    (hdistinct : ∀ t₁ t₂ : Int, t₁ ≠ t₂ → 0 ≤ tm.GetPriority t₁ →
      tm.GetPriority t₁ ≠ tm.GetPriority t₂) :
    (∀ (a b : Ptr) (p : Int), activePriority m tm env a = some p →
      activePriority m tm env b = some p →
      tm.FindTool (env.GetToolName (m.heap a)) = tm.FindTool (env.GetToolName (m.heap b))) ∧
    (∀ (a b : Ptr),
      tm.FindTool (env.GetToolName (m.heap a)) = tm.FindTool (env.GetToolName (m.heap b)) →
      activePriority m tm env a = activePriority m tm env b) ∧
    (∀ (aHotKey : Int) (actions : List Ptr), hotKeyBucket m env aHotKey = some actions →
      (∃ a ∈ actions, isGlobal m.heap a = false ∧ (activePriority m tm env a).isSome = true) →
      ∃ pre c post p, actions = pre ++ c :: post ∧
        (RunHotKey m tm env aHotKey).runAction = [(c, true)] ∧
        isGlobal m.heap c = false ∧
        activePriority m tm env c = some p ∧
        (∀ a ∈ actions, isGlobal m.heap a = false → ∀ q, activePriority m tm env a = some q →
          tm.FindTool (env.GetToolName (m.heap a)) ≠
            tm.FindTool (env.GetToolName (m.heap c)) → q < p) ∧
        (∀ a ∈ pre, isGlobal m.heap a = false → (activePriority m tm env a).isSome = true →
          tm.FindTool (env.GetToolName (m.heap a)) ≠
            tm.FindTool (env.GetToolName (m.heap c)))) := by
  have same : ∀ (a b : Ptr) (p : Int), activePriority m tm env a = some p →
      activePriority m tm env b = some p →
      tm.FindTool (env.GetToolName (m.heap a)) = tm.FindTool (env.GetToolName (m.heap b)) := by
    intro a b p ha hb
    unfold activePriority at ha hb
    cases hfa : tm.FindTool (env.GetToolName (m.heap a)) with
    | none => simp [hfa] at ha
    | some ta =>
      cases hfb : tm.FindTool (env.GetToolName (m.heap b)) with
      | none => simp [hfb] at hb
      | some tb =>
        simp only [hfa] at ha
        simp only [hfb] at hb
        by_cases h0 : tm.GetPriority ta ≥ 0
        · rw [if_pos h0] at ha
          by_cases h1 : tm.GetPriority tb ≥ 0
          · rw [if_pos h1] at hb
            by_contra hne
            have hne' : ta ≠ tb := fun h => hne (by rw [h])
            exact hdistinct ta tb hne' h0
              ((Option.some.inj ha).trans (Option.some.inj hb).symm)
          · rw [if_neg h1] at hb; cases hb
        · rw [if_neg h0] at ha; cases ha
  refine ⟨same, activePriority_congr m tm env, ?_⟩
  intro aHotKey actions hb ha
  rw [runHotKey_eq, hb]
  obtain ⟨a, ha1, ha2, ha3⟩ := ha
  rcases runHotKeyBucket_cases m tm env actions with
    ⟨c, _, h2, _, _, h6⟩ | ⟨hn, _⟩ | ⟨hn, _⟩
  · obtain ⟨pre, post, p, g1, g2, g3, g4⟩ :=
      candidates_first m tm env actions c (runHotKeyBucket_context m tm env actions c h6 h2)
    refine ⟨pre, c, post, p, g1, h6, h2, g2, ?_, ?_⟩
    · intro b hb1 hb2 q hq hne
      rw [g1] at hb1
      rcases List.mem_append.mp hb1 with hpre | hrest
      · exact g3 b hpre hb2 q hq
      · rcases List.mem_cons.mp hrest with hbc | hpost
        · rw [hbc] at hne
          exact absurd rfl hne
        · rcases lt_or_eq_of_le (g4 b hpost hb2 q hq) with hlt | heq
          · exact hlt
          · rw [heq] at hq
            exact absurd (same b c p hq g2) hne
    · intro b hb1 hb2 hsome heq
      have hpb := activePriority_congr m tm env b c heq
      rw [g2] at hpb
      have := g3 b hb1 hb2 p hpb
      omega
  · rw [hn a ha1 ha2] at ha3; cases ha3
  · rw [hn a ha1 ha2] at ha3; cases ha3

/-- C23, an instance: tool `t.A` at priority 1 and tool `t.B` at priority 2
(distinct priorities); `t.A.go` (address 0) and `t.A.run` (address 1) are both
owned by `t.A` and both on key X: a Context action is run, and it is `t.A.go`,
the first of the two in the bucket. -/
theorem C23_ties_within_one_tool_witness :
    (∃ pre c post p, [0, 1] = pre ++ c :: post ∧
      (RunHotKey Scenario.sameTool (Scenario.tools 1 2) Scenario.env 88).runAction =
        [(c, true)] ∧
      activePriority Scenario.sameTool (Scenario.tools 1 2) Scenario.env c = some p) ∧
    (RunHotKey Scenario.sameTool (Scenario.tools 1 2) Scenario.env 88).runAction =
      [(0, true)] :=
  ⟨((C23_ties_within_one_tool Scenario.sameTool (Scenario.tools 1 2) Scenario.env
      (by
        intro t₁ t₂ hne h0
        simp only [Scenario.tools] at h0 ⊢
        split_ifs at h0 ⊢ <;> omega)).2.2
      88 [0, 1] (by decide) ⟨0, by decide, by decide, by decide⟩).elim
    (fun pre h => h.elim (fun c h => h.elim (fun post h => h.elim (fun p h =>
      ⟨pre, c, post, p, h.1, h.2.1, h.2.2.2.1⟩)))),
   by decide⟩

/-- C23 (as stated) fails: the tools `t.A` and `t.B` have the distinct
priorities 1 and 2; the Context actions `t.A.go` (address 0) and `t.A.run`
(address 1) are both in the bucket of key X (88) and both owned by the active
tool `t.A`, and both obtain the priority 1 in `RunHotKey`. -/
theorem C23_counterexample :
    hotKeyBucket Scenario.sameTool Scenario.env 88 = some [0, 1] ∧
    isGlobal Scenario.sameTool.heap 0 = false ∧ isGlobal Scenario.sameTool.heap 1 = false ∧
    (Scenario.tools 1 2).GetPriority 1 ≠ (Scenario.tools 1 2).GetPriority 2 ∧
    activePriority Scenario.sameTool (Scenario.tools 1 2) Scenario.env 0 = some 1 ∧
    activePriority Scenario.sameTool (Scenario.tools 1 2) Scenario.env 1 = some 1 := by
  decide

end ACTION_MANAGER


/-! ## One bucket per action -/

namespace ACTION_MANAGER

theorem updateHotKeysStep_heap_eq (l u : StdMap std_string Int) (m : ACTION_MANAGER) (a : Ptr) :
    (updateHotKeysStep l u m a).heap = (processHotKey m.heap a l u).1 := by
  simp only [updateHotKeysStep]
  split_ifs <;> rfl

theorem processHotKey_other (heap : Ptr → TOOL_ACTION) (a q : Ptr)
    (l u : StdMap std_string Int) (h : q ≠ a) : (processHotKey heap a l u).1 q = heap q := by
  simp [processHotKey, Function.update_noteq h]

theorem processHotKey_stored (heap : Ptr → TOOL_ACTION) (a : Ptr)
    (l u : StdMap std_string Int) :
    ((processHotKey heap a l u).1 a).m_hotKey = resolvedKey (heap a) l u := by
  rw [← processHotKey_key]
  simp [processHotKey]

theorem storedOK_sublist {m : ACTION_MANAGER} {pending : List Ptr} {k : Int} {b b' : List Ptr}
    (hs : b'.Sublist b) (h : StoredOK m pending (k, b)) : StoredOK m pending (k, b') :=
  fun p hp => h p (hs.subset hp)

theorem storedOK_bucket (m : ACTION_MANAGER) (pending : List Ptr)
    (h : ∀ e ∈ m.m_actionHotKeys, StoredOK m pending e) (k : Int) :
    StoredOK m pending (k, bucket m k) := by
  simp only [bucket, StdMap.subscript]
  cases hf : StdMap.find m.m_actionHotKeys k with
  | none => exact fun p hp => by simp at hp
  | some b => exact h _ (StdMap.mem_of_find _ _ _ hf)

theorem storedOK_step (l u : StdMap std_string Int) (m : ACTION_MANAGER) (a : Ptr)
    (rest : List Ptr) (hnew : a ∉ rest)
    (h : ∀ e ∈ m.m_actionHotKeys, StoredOK m (a :: rest) e) :
    ∀ e ∈ (updateHotKeysStep l u m a).m_actionHotKeys,
      StoredOK (updateHotKeysStep l u m a) rest e := by
  have hold : ∀ k b, StoredOK m (a :: rest) (k, b) →
      StoredOK (updateHotKeysStep l u m a) rest (k, b) := by
    intro k b hb p hp
    obtain ⟨h1, h2⟩ := hb p hp
    have hne : p ≠ a := fun hh => h2 (by simp [hh])
    rw [updateHotKeysStep_heap_eq, processHotKey_other _ _ _ _ _ hne]
    exact ⟨h1, fun hh => h2 (List.mem_cons_of_mem _ hh)⟩
  by_cases hk : 0 < resolvedKey (m.heap a) l u
  · obtain ⟨ev, hev, hsub, _, htab, _⟩ := updateHotKeysStep_table l u m a hk
    have hbk := storedOK_bucket m _ h (resolvedKey (m.heap a) l u)
    have hfil : StoredOK m (a :: rest) (resolvedKey (m.heap a) l u,
        (bucket m (resolvedKey (m.heap a) l u)).filter (fun q => !(isGlobal m.heap q))) :=
      storedOK_sublist (List.filter_sublist _) hbk
    have hev' : ∀ e ∈ ev, StoredOK m (a :: rest) e := by
      intro e he
      rcases hev with hev | hev
      · rw [hev] at he; exact h e he
      · rw [hev] at he
        rcases StdMap.mem_assign_cases _ _ _ _ he with he | he
        · rw [he]; exact hfil
        · exact h e he
    have hX : StoredOK m (a :: rest)
        (resolvedKey (m.heap a) l u, StdMap.subscript ev (resolvedKey (m.heap a) l u) []) := by
      rw [hsub]
      split_ifs
      · exact hfil
      · exact hbk
    intro e he
    rw [htab] at he
    rcases StdMap.mem_assign_cases _ _ _ _ he with he | he
    · rw [he]
      intro p hp
      rcases List.mem_append.mp hp with hp | hp
      · exact hold _ _ hX p hp
      · have hpa : p = a := List.mem_singleton.mp hp
        rw [hpa, updateHotKeysStep_heap_eq, processHotKey_stored]
        exact ⟨rfl, hnew⟩
    · exact hold e.1 e.2 (hev' e he)
  · have hs := updateHotKeysStep_skip l u m a (not_lt.mp hk)
    intro e he
    rw [hs.1] at he
    exact hold e.1 e.2 (h e he)

theorem storedOK_foldl (l u : StdMap std_string Int) (ps : List Ptr) :
    ∀ m : ACTION_MANAGER, ps.Nodup →
      (∀ e ∈ m.m_actionHotKeys, StoredOK m ps e) →
      ∀ e ∈ (ps.foldl (updateHotKeysStep l u) m).m_actionHotKeys,
        StoredOK (ps.foldl (updateHotKeysStep l u) m) [] e := by
  induction ps with
  | nil => intro m _ h; exact h
  | cons p rest ih =>
    intro m hnd h
    simp only [List.foldl_cons]
    exact ih _ (List.nodup_cons.mp hnd).2
      (storedOK_step l u m p rest (List.nodup_cons.mp hnd).1 h)

theorem storedOK_of_reachableDistinctIds {m : ACTION_MANAGER} (h : ReachableDistinctIds m) :
    ∀ e ∈ m.m_actionHotKeys, StoredOK m [] e := by
  induction h with
  | construct heap heapNext actionList c hd =>
    intro e he
    simp only [ctor] at he
    rw [ctorLoop_tables] at he
    simp [empty] at he
  | @unregister m a _ ih =>
    obtain ⟨_, htab⟩ := unregister_tables m a
    have hheap := (unregister_index m a).2
    have hold : ∀ k b, StoredOK m [] (k, b) → StoredOK (UnregisterAction m a) [] (k, b) := by
      intro k b hb p hp
      rw [hheap]
      exact hb p hp
    intro e he
    rcases htab with ⟨_, ht⟩ | ⟨_, ht⟩
    · rw [ht] at he; exact hold _ _ (ih e he)
    · rw [ht] at he
      rcases StdMap.mem_assign_cases _ _ _ _ he with he | he
      · rw [he]
        exact hold _ _ (storedOK_sublist (List.erase_sublist _ _) (storedOK_bucket m [] ih _))
      · exact hold _ _ (ih e he)
  | @update m l u hm _ =>
    have hok := (tables_of_reachableDistinctIds hm).1
    simp only [UpdateHotKeys]
    rw [updateHotKeysLoop_eq_foldl]
    apply storedOK_foldl
    · exact registered_nodup m hok
    · intro e he
      simp at he

/-- C27. In every state reachable by construction (from a static action list
whose ids come from the counter), `UpdateHotKeys` and `UnregisterAction`, the
registered actions have pairwise distinct ids, each action occurs in at most
one bucket and at most once in it, and if it occurs in the bucket for key `k`
then `GetHotKey` of the action is `k` and the current key stored in the action
is `k`. -/
theorem C27_single_bucket (m : ACTION_MANAGER) (h : ReachableCounterIds m) (a : Ptr) :
    IdsDistinct m ∧
    (∀ e ∈ m.m_actionHotKeys, ∀ e' ∈ m.m_actionHotKeys, a ∈ e.2 → a ∈ e'.2 → e = e') ∧
    (∀ e ∈ m.m_actionHotKeys, e.2.count a ≤ 1) ∧
    (∀ k, a ∈ bucket m k → m.GetHotKey a = k ∧ (m.heap a).m_hotKey = k) := by
  have hr := reachableDistinctIds_of_counterIds h
  obtain ⟨_, hd, hord, hb⟩ := tables_of_reachableDistinctIds hr
  have hst := storedOK_of_reachableDistinctIds hr
  refine ⟨hd, ?_, ?_, ?_⟩
  · intro e he e' he' ha ha'
    have h1 := (getHotKey_of_mem m hb e he a ha).1
    have h2 := (getHotKey_of_mem m hb e' he' a ha').1
    have hk : e.1 = e'.1 := h1.symm.trans h2
    have f1 := StdMap.find_of_mem _ e.1 e.2 hord he
    have f2 := StdMap.find_of_mem _ e'.1 e'.2 hord he'
    rw [hk, f2] at f1
    exact Prod.ext hk (Option.some.inj f1).symm
  · intro e he
    exact List.nodup_iff_count_le_one.mp (hb e he).1 a
  · intro k hmem
    have h1 := (bucketOK_bucket m [] hb k).2 a hmem
    have h2 := storedOK_bucket m [] hst k a hmem
    refine ⟨?_, h2.1⟩
    simp only [GetHotKey, idOf] at h1 ⊢
    rw [h1.1]

/-- C27, an instance: `t.a` (key 65) and `t.b` (key 66), constructed from
entries without ids, after `UpdateHotKeys` and `UnregisterAction` of `t.b`:
`t.a` (address 0) is in the bucket of 65, its `GetHotKey` is 65 and its stored
key is 65. -/
theorem C27_single_bucket_witness :
    0 ∈ bucket (UnregisterAction Scenario.twoKeys 1) 65 ∧
    (UnregisterAction Scenario.twoKeys 1).GetHotKey 0 = 65 ∧
    ((UnregisterAction Scenario.twoKeys 1).heap 0).m_hotKey = 65 :=
  ⟨by decide,
   (C27_single_bucket (UnregisterAction Scenario.twoKeys 1)
     (ReachableCounterIds.unregister 1
       (ReachableCounterIds.update [] []
         (ReachableCounterIds.construct _ _ _ _ (by unfold IdsFromCounter; decide)))) 0).2.2.2
     65 (by decide)⟩

end ACTION_MANAGER


/-! ## Slow mode and the debounce -/

namespace PCB_EDITOR_CONTROL

theorem update_slow_facts (s : PCB_EDITOR_CONTROL) (msecs : ℚ) (h : s.m_slowRatsnest = true) :
    (UpdateSelectionRatsnest s false msecs).m_slowRatsnest = true ∧
    (UpdateSelectionRatsnest s false msecs).computed = s.computed ∧
    (UpdateSelectionRatsnest s false msecs).calls =
      s.calls ++ [RATSNEST_CALL.HideDynamicRatsnest] ∧
    (UpdateSelectionRatsnest s false msecs).m_ratsnestTimer =
      { running := true, milliseconds := 20, oneShot := false } := by
  rw [update_slow s msecs h]
  refine ⟨h, ?_, rfl, rfl⟩
  simp [computed, List.count_append, List.count_cons]

theorem update_eager_fast (s : PCB_EDITOR_CONTROL) (msecs : ℚ) (h : s.m_slowRatsnest = false)
    (hm : ¬ msecs > 25) :
    UpdateSelectionRatsnest s false msecs = calculateSelectionRatsnest s := by
  simp [UpdateSelectionRatsnest, calculateSelectionRatsnest, h, hm]

theorem updates_slow (mss : List ℚ) :
    ∀ s : PCB_EDITOR_CONTROL, s.m_slowRatsnest = true →
      s.m_ratsnestTimer = { running := true, milliseconds := 20, oneShot := false } →
      (mss.foldl (fun t ms => UpdateSelectionRatsnest t false ms) s).m_slowRatsnest = true ∧
      (mss.foldl (fun t ms => UpdateSelectionRatsnest t false ms) s).computed = s.computed ∧
      (mss.foldl (fun t ms => UpdateSelectionRatsnest t false ms) s).m_ratsnestTimer =
        { running := true, milliseconds := 20, oneShot := false } := by
  induction mss with
  | nil => intro s h ht; exact ⟨h, rfl, ht⟩
  | cons ms rest ih =>
    intro s h _
    obtain ⟨h1, h2, _, h4⟩ := update_slow_facts s ms h
    obtain ⟨g1, g2, g3⟩ := ih _ h1 h4
    exact ⟨g1, g2.trans h2, g3⟩

theorem timerElapses_stopped (s : PCB_EDITOR_CONTROL) (h : s.m_ratsnestTimer.running = false) :
    timerElapses s = s := by
  simp [timerElapses, h]

/-- C21. While the tool is in slow mode, an `UpdateSelectionRatsnest` with a
non-empty selection computes no ratsnest, calls `HideDynamicRatsnest` and
(re)starts the timer with 20 ms, whatever the timer was before. After any
number n >= 1 of such updates the tool is still in slow mode, nothing has been
computed and the timer is running; when the timer then elapses,
`calculateSelectionRatsnest` runs exactly once and the timer is stopped, so a
further elapsing delivers nothing. -/
theorem C21_debounce (s : PCB_EDITOR_CONTROL) (hslow : s.m_slowRatsnest = true)
    (ms : ℚ) (mss : List ℚ) :
    ((UpdateSelectionRatsnest s false ms).computed = s.computed ∧
      (UpdateSelectionRatsnest s false ms).m_ratsnestTimer = s.m_ratsnestTimer.Start 20 ∧
      (UpdateSelectionRatsnest s false ms).m_ratsnestTimer.milliseconds = 20) ∧
    ((ms :: mss).foldl (fun t d => UpdateSelectionRatsnest t false d) s).m_slowRatsnest = true ∧
    ((ms :: mss).foldl (fun t d => UpdateSelectionRatsnest t false d) s).computed = s.computed ∧
    ((ms :: mss).foldl (fun t d => UpdateSelectionRatsnest t false d) s).m_ratsnestTimer.running =
      true ∧
    (timerElapses
      ((ms :: mss).foldl (fun t d => UpdateSelectionRatsnest t false d) s)).computed =
      s.computed + 1 ∧
    (timerElapses
      ((ms :: mss).foldl (fun t d => UpdateSelectionRatsnest t false d) s)).m_ratsnestTimer.running =
      false ∧
    timerElapses (timerElapses
      ((ms :: mss).foldl (fun t d => UpdateSelectionRatsnest t false d) s)) =
      timerElapses ((ms :: mss).foldl (fun t d => UpdateSelectionRatsnest t false d) s) := by
  obtain ⟨h1, h2, _, h4⟩ := update_slow_facts s ms hslow
  obtain ⟨g1, g2, g3⟩ := updates_slow mss _ h1 h4
  simp only [List.foldl_cons]
  have hrun : (mss.foldl (fun t d => UpdateSelectionRatsnest t false d)
      (UpdateSelectionRatsnest s false ms)).m_ratsnestTimer.running = true := by rw [g3]
  obtain ⟨e1, e2⟩ := computed_timerElapses _ hrun
  refine ⟨⟨h2, ?_, ?_⟩, g1, g2.trans h2, hrun, ?_, e2, timerElapses_stopped _ e2⟩
  · rw [h4]; rfl
  · rw [h4]
  · rw [e1, g2, h2]

/-- C21, an instance: from the slow-mode state reached by dragging, three more
updates with a non-empty selection and one elapsing of the timer run the
computation once. -/
theorem C21_debounce_witness :
    Scenario.dragging.m_slowRatsnest = true ∧
    (timerElapses
      (([0, 0, 0] : List ℚ).foldl (fun t d => UpdateSelectionRatsnest t false d)
        Scenario.dragging)).computed = Scenario.dragging.computed + 1 :=
  ⟨by rw [dragging_eq],
   (C21_debounce Scenario.dragging (by rw [dragging_eq]) 0 [0, 0]).2.2.2.2.1⟩

/-- C24. The slow-mode flag is false after construction. An
`UpdateSelectionRatsnest` turns it from false to true only if the selection is
not empty and the eager computation, which was performed in that call, was
measured at more than 25 ms; no `UpdateSelectionRatsnest` and no timer event
turns it from true to false, `HideDynamicRatsnest` does; and while it is false
every update with a non-empty selection computes the ratsnest in the call
itself. -/
theorem C24_slow_mode_is_measured :
    ctor.m_slowRatsnest = false ∧
    (∀ (s : PCB_EDITOR_CONTROL) (selectionEmpty : Bool) (msecs : ℚ),
      s.m_slowRatsnest = false →
      (UpdateSelectionRatsnest s selectionEmpty msecs).m_slowRatsnest = true →
      selectionEmpty = false ∧ msecs > 25 ∧
        (UpdateSelectionRatsnest s selectionEmpty msecs).computed = s.computed + 1) ∧
    (∀ (s : PCB_EDITOR_CONTROL) (selectionEmpty : Bool) (msecs : ℚ),
      s.m_slowRatsnest = true →
      (UpdateSelectionRatsnest s selectionEmpty msecs).m_slowRatsnest = true) ∧
    (∀ s : PCB_EDITOR_CONTROL, (ratsnestTimer s).m_slowRatsnest = s.m_slowRatsnest ∧
      (timerElapses s).m_slowRatsnest = s.m_slowRatsnest) ∧
    (∀ s : PCB_EDITOR_CONTROL, (HideDynamicRatsnest s).m_slowRatsnest = false) ∧
    (∀ (s : PCB_EDITOR_CONTROL) (msecs : ℚ), s.m_slowRatsnest = false →
      (UpdateSelectionRatsnest s false msecs).computed = s.computed + 1) := by
  have eager : ∀ (s : PCB_EDITOR_CONTROL) (msecs : ℚ), s.m_slowRatsnest = false →
      (UpdateSelectionRatsnest s false msecs).computed = s.computed + 1 := by
    intro s msecs hs
    by_cases hm : msecs > 25
    · rw [update_eager_slow s msecs hs hm]
      simp [computed, List.count_append, List.count_cons]
    · rw [update_eager_fast s msecs hs hm]
      simp [computed, calculateSelectionRatsnest, List.count_append, List.count_cons]
  refine ⟨rfl, ?_, ?_, ?_, fun s => rfl, eager⟩
  · intro s sel msecs hs hafter
    cases sel with
    | true =>
      rw [update_empty] at hafter
      simp only at hafter
      rw [hs] at hafter
      cases hafter
    | false =>
      refine ⟨rfl, ?_, eager s msecs hs⟩
      by_contra hm
      rw [update_eager_fast s msecs hs hm] at hafter
      simp only [calculateSelectionRatsnest] at hafter
      rw [hs] at hafter
      cases hafter
  · intro s sel msecs hs
    cases sel with
    | true => rw [update_empty]; exact hs
    | false => exact (update_slow_facts s msecs hs).1
  · intro s
    constructor
    · rfl
    · simp only [timerElapses, ratsnestTimer, calculateSelectionRatsnest]
      split_ifs <;> rfl

/-- C24, instances: an eager computation measured at 30 ms switches slow mode
on, one measured at 25 ms does not (both compute in the call);
`HideDynamicRatsnest` switches it off. -/
theorem C24_slow_mode_is_measured_witness :
    (UpdateSelectionRatsnest ctor false 30).m_slowRatsnest = true ∧
    (UpdateSelectionRatsnest ctor false 25).m_slowRatsnest = false ∧
    (UpdateSelectionRatsnest ctor false 25).computed = ctor.computed + 1 ∧
    (HideDynamicRatsnest (UpdateSelectionRatsnest ctor false 30)).m_slowRatsnest = false :=
  ⟨by rw [update_eager_slow ctor 30 rfl (by norm_num)],
   by rw [update_eager_fast ctor 25 rfl (by norm_num)]; rfl,
   C24_slow_mode_is_measured.2.2.2.2.2 ctor 25 rfl,
   C24_slow_mode_is_measured.2.2.2.2.1 _⟩

end PCB_EDITOR_CONTROL


/-! ## Track width and via size stepping -/

namespace PCB_EDITOR_CONTROL

/-- C29: `TrackWidthInc` sets the track width index to `min (old + 1) (n - 1)`
and `TrackWidthDec` to `max (old - 1) 0`, `n` the length of the track width
list; `ViaSizeInc` and `ViaSizeDec` do the same on the via list; so for a
non-empty list and an old index in `[0, n - 1]` the new index is in
`[0, n - 1]`; each of the four switches the custom size flag off (and runs
`trackViaSizeChanged`, leaving the lists and the other index alone). -/
theorem C29_stepping_saturates (b : BOARD_DESIGN_SETTINGS) :
    ((TrackWidthInc b).1.m_trackWidthIndex
        = min (b.m_trackWidthIndex + 1) ((b.m_TrackWidthList.length : Int) - 1) ∧
      (TrackWidthDec b).1.m_trackWidthIndex = max (b.m_trackWidthIndex - 1) 0 ∧
      (ViaSizeInc b).1.m_viaSizeIndex
        = min (b.m_viaSizeIndex + 1) ((b.m_ViasDimensionsList.length : Int) - 1) ∧
      (ViaSizeDec b).1.m_viaSizeIndex = max (b.m_viaSizeIndex - 1) 0) ∧
    (b.m_TrackWidthList ≠ [] → 0 ≤ b.m_trackWidthIndex →
      b.m_trackWidthIndex < (b.m_TrackWidthList.length : Int) →
      (0 ≤ (TrackWidthInc b).1.m_trackWidthIndex ∧
        (TrackWidthInc b).1.m_trackWidthIndex ≤ (b.m_TrackWidthList.length : Int) - 1) ∧
      (0 ≤ (TrackWidthDec b).1.m_trackWidthIndex ∧
        (TrackWidthDec b).1.m_trackWidthIndex ≤ (b.m_TrackWidthList.length : Int) - 1)) ∧
    (b.m_ViasDimensionsList ≠ [] → 0 ≤ b.m_viaSizeIndex →
      b.m_viaSizeIndex < (b.m_ViasDimensionsList.length : Int) →
      (0 ≤ (ViaSizeInc b).1.m_viaSizeIndex ∧
        (ViaSizeInc b).1.m_viaSizeIndex ≤ (b.m_ViasDimensionsList.length : Int) - 1) ∧
      (0 ≤ (ViaSizeDec b).1.m_viaSizeIndex ∧
        (ViaSizeDec b).1.m_viaSizeIndex ≤ (b.m_ViasDimensionsList.length : Int) - 1)) ∧
    ((TrackWidthInc b).1.m_useCustomTrackVia = false ∧
      (TrackWidthDec b).1.m_useCustomTrackVia = false ∧
      (ViaSizeInc b).1.m_useCustomTrackVia = false ∧
      (ViaSizeDec b).1.m_useCustomTrackVia = false) ∧
    ((TrackWidthInc b).2 = [PCB_ACTION.trackViaSizeChanged] ∧
      (TrackWidthDec b).2 = [PCB_ACTION.trackViaSizeChanged] ∧
      (ViaSizeInc b).2 = [PCB_ACTION.trackViaSizeChanged] ∧
      (ViaSizeDec b).2 = [PCB_ACTION.trackViaSizeChanged]) ∧
    ((TrackWidthInc b).1 =
        { b with m_trackWidthIndex := (TrackWidthInc b).1.m_trackWidthIndex
                 m_useCustomTrackVia := false } ∧
      (TrackWidthDec b).1 =
        { b with m_trackWidthIndex := (TrackWidthDec b).1.m_trackWidthIndex
                 m_useCustomTrackVia := false } ∧
      (ViaSizeInc b).1 =
        { b with m_viaSizeIndex := (ViaSizeInc b).1.m_viaSizeIndex
                 m_useCustomTrackVia := false } ∧
      (ViaSizeDec b).1 =
        { b with m_viaSizeIndex := (ViaSizeDec b).1.m_viaSizeIndex
                 m_useCustomTrackVia := false }) := by
  have hti : (TrackWidthInc b).1.m_trackWidthIndex
      = min (b.m_trackWidthIndex + 1) ((b.m_TrackWidthList.length : Int) - 1) := by
    simp only [TrackWidthInc]
    split_ifs with h
    · exact (min_eq_right (by omega)).symm
    · exact (min_eq_left (by omega)).symm
  have htd : (TrackWidthDec b).1.m_trackWidthIndex = max (b.m_trackWidthIndex - 1) 0 := by
    simp only [TrackWidthDec]
    split_ifs with h
    · exact (max_eq_right (by omega)).symm
    · exact (max_eq_left (by omega)).symm
  have hvi : (ViaSizeInc b).1.m_viaSizeIndex
      = min (b.m_viaSizeIndex + 1) ((b.m_ViasDimensionsList.length : Int) - 1) := by
    simp only [ViaSizeInc]
    split_ifs with h
    · exact (min_eq_right (by omega)).symm
    · exact (min_eq_left (by omega)).symm
  have hvd : (ViaSizeDec b).1.m_viaSizeIndex = max (b.m_viaSizeIndex - 1) 0 := by
    simp only [ViaSizeDec]
    split_ifs with h
    · exact (max_eq_right (by omega)).symm
    · exact (max_eq_left (by omega)).symm
  refine ⟨⟨hti, htd, hvi, hvd⟩, ?_, ?_, ⟨rfl, rfl, rfl, rfl⟩, ⟨rfl, rfl, rfl, rfl⟩,
    ⟨rfl, rfl, rfl, rfl⟩⟩
  · intro hne h0 hlt
    rw [hti, htd]
    have hpos : 0 < (b.m_TrackWidthList.length : Int) := by
      have := List.length_pos.mpr hne
      omega
    refine ⟨⟨le_min (by omega) (by omega), min_le_right _ _⟩,
      ⟨le_max_right _ _, max_le (by omega) (by omega)⟩⟩
  · intro hne h0 hlt
    rw [hvi, hvd]
    have hpos : 0 < (b.m_ViasDimensionsList.length : Int) := by
      have := List.length_pos.mpr hne
      omega
    refine ⟨⟨le_min (by omega) (by omega), min_le_right _ _⟩,
      ⟨le_max_right _ _, max_le (by omega) (by omega)⟩⟩

/-- C29 at a board whose two indices are at the upper end of their lists:
stepping up leaves them there, stepping down gives 1 and 0. -/
theorem C29_stepping_saturates_witness :
    (Scenario.sizes.m_TrackWidthList ≠ [] ∧ (0 : Int) ≤ Scenario.sizes.m_trackWidthIndex ∧
      Scenario.sizes.m_trackWidthIndex < (Scenario.sizes.m_TrackWidthList.length : Int)) ∧
    ((0 ≤ (TrackWidthInc Scenario.sizes).1.m_trackWidthIndex ∧
        (TrackWidthInc Scenario.sizes).1.m_trackWidthIndex
          ≤ (Scenario.sizes.m_TrackWidthList.length : Int) - 1) ∧
      (0 ≤ (TrackWidthDec Scenario.sizes).1.m_trackWidthIndex ∧
        (TrackWidthDec Scenario.sizes).1.m_trackWidthIndex
          ≤ (Scenario.sizes.m_TrackWidthList.length : Int) - 1)) ∧
    (TrackWidthInc Scenario.sizes).1.m_trackWidthIndex = 2 ∧
    (TrackWidthDec Scenario.sizes).1.m_trackWidthIndex = 1 ∧
    (ViaSizeInc Scenario.sizes).1.m_viaSizeIndex = 1 ∧
    (ViaSizeDec Scenario.sizes).1.m_viaSizeIndex = 0 :=
  ⟨⟨by decide, by decide, by decide⟩,
   (C29_stepping_saturates Scenario.sizes).2.1 (by decide) (by decide) (by decide),
   by decide, by decide, by decide, by decide⟩

end PCB_EDITOR_CONTROL


/-! ## Locking the selected items -/

namespace PCB_EDITOR_CONTROL

theorem modifyLockStep_locked (aMode : MODIFY_MODE) (s : LOCKED) (item : Ptr) :
    (modifyLockStep aMode s item).locked
      = Function.update s.locked item (lockedAfter aMode (s.locked item)) := by
  cases aMode <;> rfl

theorem modifyLockStep_calls (aMode : MODIFY_MODE) (s : LOCKED) (item : Ptr) :
    (modifyLockStep aMode s item).calls = s.calls := rfl

theorem modifyLockStep_modified (aMode : MODIFY_MODE) (s : LOCKED) (item : Ptr) :
    (modifyLockStep aMode s item).modified = true ↔
      s.modified = true ∨ lockedAfter aMode (s.locked item) ≠ s.locked item := by
  cases aMode <;> cases hm : s.modified <;> cases hl : s.locked item <;>
    simp [modifyLockStep, lockedAfter, hm, hl]

theorem modifyLock_foldl_calls (aMode : MODIFY_MODE) (items : List Ptr) (s : LOCKED) :
    (items.foldl (modifyLockStep aMode) s).calls = s.calls := by
  induction items generalizing s with
  | nil => rfl
  | cons i rest ih => rw [List.foldl_cons, ih, modifyLockStep_calls]

/-- The loop of `modifyLockSelected` over a selection that lists every item
once: each listed item gets the state its mode prescribes from its state before
the loop, every other item keeps its state. -/
theorem modifyLock_foldl_locked (aMode : MODIFY_MODE) (items : List Ptr) (s : LOCKED)
    (hnd : items.Nodup) (p : Ptr) :
    (items.foldl (modifyLockStep aMode) s).locked p
      = if p ∈ items then lockedAfter aMode (s.locked p) else s.locked p := by
  induction items generalizing s with
  | nil => simp
  | cons i rest ih =>
    rw [List.foldl_cons, ih _ (List.nodup_cons.mp hnd).2, modifyLockStep_locked]
    have hi : i ∉ rest := (List.nodup_cons.mp hnd).1
    by_cases hp : p = i
    · subst hp
      simp [hi]
    · by_cases hr : p ∈ rest
      · simp [hr, Function.update_noteq hp]
      · simp [hr, hp, Function.update_noteq hp]

/-- The local `modified` after the loop of `modifyLockSelected` over a
selection that lists every item once. -/
theorem modifyLock_foldl_modified (aMode : MODIFY_MODE) (items : List Ptr) (s : LOCKED)
    (hnd : items.Nodup) :
    (items.foldl (modifyLockStep aMode) s).modified = true ↔
      s.modified = true ∨ ∃ p ∈ items, lockedAfter aMode (s.locked p) ≠ s.locked p := by
  induction items generalizing s with
  | nil => simp
  | cons i rest ih =>
    have hi : i ∉ rest := (List.nodup_cons.mp hnd).1
    rw [List.foldl_cons, ih _ (List.nodup_cons.mp hnd).2, modifyLockStep_modified,
      modifyLockStep_locked]
    constructor
    · rintro ((h | h) | ⟨p, hp, h⟩)
      · exact Or.inl h
      · exact Or.inr ⟨i, List.mem_cons_self _ _, h⟩
      · have hpi : p ≠ i := fun e => hi (e ▸ hp)
        rw [Function.update_noteq hpi] at h
        exact Or.inr ⟨p, List.mem_cons_of_mem _ hp, h⟩
    · rintro (h | ⟨p, hp, h⟩)
      · exact Or.inl (Or.inl h)
      · rcases List.mem_cons.mp hp with e | hp'
        · subst e
          exact Or.inl (Or.inr h)
        · have hpi : p ≠ i := fun e => hi (e ▸ hp')
          refine Or.inr ⟨p, hp', ?_⟩
          rw [Function.update_noteq hpi]
          exact h

theorem modifyLockSelected_locked (aMode : MODIFY_MODE) (locked : Ptr → Bool)
    (selection cursorSelection : List Ptr) (hne : selection ≠ []) (hnd : selection.Nodup)
    (p : Ptr) :
    (modifyLockSelected aMode locked selection cursorSelection).locked p
      = if p ∈ selection then lockedAfter aMode (locked p) else locked p := by
  have he : selection.isEmpty = false := by
    cases selection with
    | nil => exact absurd rfl hne
    | cons a l => rfl
  have hf := modifyLock_foldl_locked aMode selection
    { locked := locked, modified := false, calls := [] } hnd p
  simp only [modifyLockSelected, he, Bool.false_eq_true, if_false]
  by_cases hmod : (selection.foldl (modifyLockStep aMode)
      { locked := locked, modified := false, calls := [] }).modified = true
  · rw [if_pos hmod]
    exact hf
  · rw [if_neg hmod]
    exact hf

theorem modifyLockSelected_calls (aMode : MODIFY_MODE) (locked : Ptr → Bool)
    (selection cursorSelection : List Ptr) (hne : selection ≠ []) (hnd : selection.Nodup) :
    (modifyLockSelected aMode locked selection cursorSelection).calls
      = if ∃ p ∈ selection, lockedAfter aMode (locked p) ≠ locked p then
          [LOCK_CALL.PostEventSelectedItemsModified, LOCK_CALL.OnModify]
        else [] := by
  have he : selection.isEmpty = false := by
    cases selection with
    | nil => exact absurd rfl hne
    | cons a l => rfl
  have hm := modifyLock_foldl_modified aMode selection
    { locked := locked, modified := false, calls := [] } hnd
  simp only [Bool.false_eq_true, false_or] at hm
  simp only [modifyLockSelected, he, Bool.false_eq_true, if_false]
  by_cases hch : ∃ p ∈ selection, lockedAfter aMode (locked p) ≠ locked p
  · rw [if_pos (hm.mpr hch), if_pos hch]
    simp only [modifyLock_foldl_calls, List.nil_append]
  · rw [if_neg (fun h => hch (hm.mp h)), if_neg hch]
    exact modifyLock_foldl_calls _ _ _

/-- C30: `modifyLockSelected` on a non-empty selection (a selection holds each
of its items once): in mode `ON` every selected item ends locked, in mode
`OFF` unlocked, in mode `TOGGLE` with its lock state negated, so that `TOGGLE`
applied twice gives every item its state back; items outside the selection
keep their state; and the event `SelectedItemsModified` and `OnModify` are
issued, once each and nothing else, if the lock state of at least one item
differs from what it was, and nothing is issued otherwise. -/
theorem C30_lock_modes (locked : Ptr → Bool) (selection cursorSelection : List Ptr)
    (hne : selection ≠ []) (hnd : selection.Nodup) :
    (∀ p ∈ selection,
      (modifyLockSelected MODIFY_MODE.ON locked selection cursorSelection).locked p = true) ∧
    (∀ p ∈ selection,
      (modifyLockSelected MODIFY_MODE.OFF locked selection cursorSelection).locked p = false) ∧
    (∀ p ∈ selection,
      (modifyLockSelected MODIFY_MODE.TOGGLE locked selection cursorSelection).locked p
        = !locked p) ∧
    (modifyLockSelected MODIFY_MODE.TOGGLE
        (modifyLockSelected MODIFY_MODE.TOGGLE locked selection cursorSelection).locked
        selection cursorSelection).locked = locked ∧
    (∀ aMode p, p ∉ selection →
      (modifyLockSelected aMode locked selection cursorSelection).locked p = locked p) ∧
    (∀ aMode,
      ((∃ p ∈ selection,
          (modifyLockSelected aMode locked selection cursorSelection).locked p ≠ locked p) →
        (modifyLockSelected aMode locked selection cursorSelection).calls
          = [LOCK_CALL.PostEventSelectedItemsModified, LOCK_CALL.OnModify]) ∧
      ((∀ p ∈ selection,
          (modifyLockSelected aMode locked selection cursorSelection).locked p = locked p) →
        (modifyLockSelected aMode locked selection cursorSelection).calls = [])) := by
  refine ⟨?_, ?_, ?_, ?_, ?_, ?_⟩
  · intro p hp
    rw [modifyLockSelected_locked _ _ _ _ hne hnd, if_pos hp]
    rfl
  · intro p hp
    rw [modifyLockSelected_locked _ _ _ _ hne hnd, if_pos hp]
    rfl
  · intro p hp
    rw [modifyLockSelected_locked _ _ _ _ hne hnd, if_pos hp]
    rfl
  · funext p
    rw [modifyLockSelected_locked _ _ _ _ hne hnd, modifyLockSelected_locked _ _ _ _ hne hnd]
    by_cases hp : p ∈ selection
    · simp [hp, lockedAfter]
    · simp [hp]
  · intro aMode p hp
    rw [modifyLockSelected_locked _ _ _ _ hne hnd, if_neg hp]
  · intro aMode
    rw [modifyLockSelected_calls _ _ _ _ hne hnd]
    constructor
    · rintro ⟨p, hp, h⟩
      rw [modifyLockSelected_locked _ _ _ _ hne hnd, if_pos hp] at h
      rw [if_pos ⟨p, hp, h⟩]
    · intro h
      rw [if_neg]
      rintro ⟨p, hp, hch⟩
      have := h p hp
      rw [modifyLockSelected_locked _ _ _ _ hne hnd, if_pos hp] at this
      exact hch this

/-- C30 at the selection of items 1 (locked) and 2 (not locked): locking it
changes item 2 and issues the two calls. -/
theorem C30_lock_modes_witness :
    ([1, 2] : List Ptr) ≠ [] ∧ ([1, 2] : List Ptr).Nodup ∧
    (∀ p ∈ ([1, 2] : List Ptr),
      (modifyLockSelected MODIFY_MODE.ON Scenario.locks [1, 2] []).locked p = true) ∧
    (modifyLockSelected MODIFY_MODE.ON Scenario.locks [1, 2] []).calls
      = [LOCK_CALL.PostEventSelectedItemsModified, LOCK_CALL.OnModify] ∧
    (modifyLockSelected MODIFY_MODE.ON Scenario.locks [1] []).calls = [] :=
  ⟨by decide, by decide,
   (C30_lock_modes Scenario.locks [1, 2] [] (by decide) (by decide)).1,
   by decide, by decide⟩

end PCB_EDITOR_CONTROL


/-! ## Merging zones -/

namespace PCB_EDITOR_CONTROL

theorem zoneMergeStep_none (T : ZONE_CONTAINER → ZONE_CONTAINER → Bool)
    (selection : List (Option ZONE_CONTAINER)) (s : ZONE_MERGE)
    (hnone : ∀ item ∈ selection, item = none) :
    selection.foldl (zoneMergeStep T) s = s := by
  induction selection with
  | nil => rfl
  | cons item rest ih =>
    rw [List.foldl_cons, hnone item (List.mem_cons_self _ _)]
    exact ih (fun i hi => hnone i (List.mem_cons_of_mem _ hi))

/-- A selection in which no item is a zone leaves `toMerge` empty, and
`ZoneMerge`, given two or more such items, reads element 0 of the empty
vector. -/
theorem zoneMerge_without_zones (T : ZONE_CONTAINER → ZONE_CONTAINER → Bool)
    (outlineCount : Nat) (selection : List (Option ZONE_CONTAINER))
    (hsize : 2 ≤ selection.length) (hnone : ∀ item ∈ selection, item = none) :
    zoneMergeList T selection = [] ∧ ZoneMerge T outlineCount selection = none := by
  have hl : zoneMergeList T selection = [] := by
    unfold zoneMergeList
    rw [zoneMergeStep_none T selection _ hnone]
  refine ⟨hl, ?_⟩
  unfold ZoneMerge
  rw [if_neg (by omega), hl]
  rfl

/-- C28 fails: for the selection of two items neither of which is a zone,
`ZoneMerge` passes the size check, collects nothing, and `mergeZones` reads
`aOriginZones[0]` of the empty vector; the same happens for a zone selected
together with an item that is not a zone when the board reports that the zone
does not intersect itself. A selection of two zones that intersect is merged
into the first. -/
theorem C28_reads_outside_the_vector :
    zoneMergeList (fun _ _ => true) [none, none] = [] ∧
    mergeZones 1 (zoneMergeList (fun _ _ => true) [none, none]) [] = none ∧
    ZoneMerge (fun _ _ => true) 1 [none, none] = none ∧
    zoneMergeList (fun _ _ => false) [some (Scenario.zone 1), none] = [] ∧
    ZoneMerge (fun _ _ => false) 1 [some (Scenario.zone 1), none] = none ∧
    ZoneMerge (fun _ _ => true) 1 [some (Scenario.zone 1), some (Scenario.zone 2)]
      = some ([COMMIT_CALL.Remove (Scenario.zone 2), COMMIT_CALL.Modify (Scenario.zone 1),
          COMMIT_CALL.Push], [Scenario.zone 1]) := by
  refine ⟨by decide, by decide, by decide, by decide, by decide, by decide⟩

end PCB_EDITOR_CONTROL


/-! ## The event loop of `PlaceModule` -/

namespace PCB_EDITOR_CONTROL

theorem placeModuleFrom_cons (s : PLACE_MODULE) (evt : PLACE_EVENT) (rest : List PLACE_EVENT) :
    placeModuleFrom s (evt :: rest)
      = if (placeModuleRound s evt).2 = true then placeModuleFrom (placeModuleRound s evt).1 []
        else placeModuleFrom (placeModuleRound s evt).1 rest := by
  unfold placeModuleFrom
  by_cases h : (placeModuleRound s evt).2 = true
  · simp only [placeModuleLoop, h, if_true]
  · simp only [placeModuleLoop, h, if_false, Bool.false_eq_true]

/-- A cancel event while a footprint is being placed. -/
theorem placeModuleRound_cancel_placing (s : PLACE_MODULE) (evt : PLACE_EVENT) (module : Ptr)
    (hcancel : evt.IsCancelInteractive = true) (hmodule : s.module = some module) :
    placeModuleRound s evt =
      (if evt.IsActivate = true then
        { module := none, reselect := s.reselect
          calls := s.calls ++ (if s.reselect = true then [PLACE_CALL.selectItem module] else [])
            ++ [PLACE_CALL.selectionClear, PLACE_CALL.Revert] }
       else
        { module := none, reselect := s.reselect
          calls := s.calls ++ (if s.reselect = true then [PLACE_CALL.selectItem module] else [])
            ++ [PLACE_CALL.selectionClear, PLACE_CALL.Revert]
            ++ [PLACE_CALL.SetAutoPan false, PLACE_CALL.CaptureCursor false] },
       evt.IsActivate) := by
  obtain ⟨m, r, c⟩ := s
  simp only at hmodule
  subst hmodule
  cases r <;> cases ha : evt.IsActivate <;>
    simp [placeModuleRound, placeModuleRoundEnd, hcancel, ha]

/-- A cancel event while no footprint is being placed. -/
theorem placeModuleRound_cancel_idle (s : PLACE_MODULE) (evt : PLACE_EVENT)
    (hcancel : evt.IsCancelInteractive = true) (hmodule : s.module = none) :
    placeModuleRound s evt = (s, true) := by
  obtain ⟨m, r, c⟩ := s
  simp only at hmodule
  subst hmodule
  cases r <;> simp [placeModuleRound, hcancel]

/-- C22 fails as stated: footprint 7 is being placed and the cancel event is an
activation (another tool is being activated). The round rolls back and leaves
the loop through `break`: the tool ends with `SetNoToolSelected` and the left
click that follows is never looked at. After a cancel that is not an activation
the tool stays in its loop and the left click picks footprint 9. -/
theorem C22_counterexample :
    Scenario.activation.IsCancelInteractive = true ∧
    Scenario.placing.module = some 7 ∧
    (placeModuleRound Scenario.placing Scenario.activation).2 = true ∧
    (placeModuleFrom Scenario.placing [Scenario.activation, Scenario.leftClick]).calls
      = [PLACE_CALL.selectionClear, PLACE_CALL.Revert, PLACE_CALL.SetNoToolSelected] ∧
    (placeModuleFrom Scenario.placing [Scenario.plainCancel, Scenario.leftClick]).calls
      = [PLACE_CALL.selectionClear, PLACE_CALL.Revert,
         PLACE_CALL.SetAutoPan false, PLACE_CALL.CaptureCursor false,
         PLACE_CALL.Add 9, PLACE_CALL.selectItem 9,
         PLACE_CALL.SetAutoPan true, PLACE_CALL.CaptureCursor true,
         PLACE_CALL.SetNoToolSelected] := by
  refine ⟨rfl, rfl, by decide, by decide, by decide⟩

/-- C22 (amended): a cancel event received in the loop of `PlaceModule`,
whatever the locals `s` and the events `rest` that follow. While a footprint is
being placed the selection is cleared, the commit is reverted and the footprint
is forgotten; the round leaves the loop exactly when the event is an
activation, and then the tool ends at once with `SetNoToolSelected`; otherwise
the tool switches auto-pan and cursor capture off and goes on with the next
event, no footprint being placed. While no footprint is being placed the round
leaves the loop, nothing is called but `SetNoToolSelected`, and no later event
is looked at. -/
theorem C22_cancel (s : PLACE_MODULE) (evt : PLACE_EVENT) (rest : List PLACE_EVENT)
    (hcancel : evt.IsCancelInteractive = true) :
    (∀ module, s.module = some module →
      (placeModuleRound s evt).1.module = none ∧
      (placeModuleRound s evt).1.reselect = s.reselect ∧
      (placeModuleRound s evt).1.calls
        = s.calls ++ (if s.reselect = true then [PLACE_CALL.selectItem module] else [])
          ++ [PLACE_CALL.selectionClear, PLACE_CALL.Revert]
          ++ (if evt.IsActivate = true then []
              else [PLACE_CALL.SetAutoPan false, PLACE_CALL.CaptureCursor false]) ∧
      (placeModuleRound s evt).2 = evt.IsActivate ∧
      (evt.IsActivate = true →
        placeModuleFrom s (evt :: rest) =
          { (placeModuleRound s evt).1 with
            calls := (placeModuleRound s evt).1.calls ++ [PLACE_CALL.SetNoToolSelected] }) ∧
      (evt.IsActivate = false →
        placeModuleFrom s (evt :: rest) = placeModuleFrom (placeModuleRound s evt).1 rest)) ∧
    (s.module = none →
      placeModuleRound s evt = (s, true) ∧
      placeModuleFrom s (evt :: rest)
        = { s with calls := s.calls ++ [PLACE_CALL.SetNoToolSelected] }) := by
  constructor
  · intro module hmodule
    have hr := placeModuleRound_cancel_placing s evt module hcancel hmodule
    have hc := placeModuleFrom_cons s evt rest
    cases ha : evt.IsActivate
    · rw [ha] at hr
      simp only [Bool.false_eq_true, if_false] at hr
      rw [hr] at hc ⊢
      simp only [Bool.false_eq_true, if_false] at hc
      refine ⟨rfl, rfl, ?_, rfl, fun h => (by cases h), fun _ => hc⟩
      simp
    · rw [ha] at hr
      simp only [if_true] at hr
      rw [hr] at hc ⊢
      simp only [if_true] at hc
      refine ⟨rfl, rfl, ?_, rfl, fun _ => hc.trans rfl, fun h => (by cases h)⟩
      simp
  · intro hmodule
    have hr := placeModuleRound_cancel_idle s evt hcancel hmodule
    refine ⟨hr, ?_⟩
    rw [placeModuleFrom_cons, hr]
    rfl

/-- C22 (amended) at a cancel that is not an activation, footprint 7 being
placed, and at the same cancel with no footprint being placed. -/
theorem C22_cancel_witness :
    Scenario.plainCancel.IsCancelInteractive = true ∧
    Scenario.placing.module = some 7 ∧
    (placeModuleRound Scenario.placing Scenario.plainCancel).1.module = none ∧
    (placeModuleRound Scenario.placing Scenario.plainCancel).2 = false ∧
    placeModuleFrom Scenario.idle [Scenario.plainCancel, Scenario.leftClick]
      = { Scenario.idle with calls := [PLACE_CALL.SetNoToolSelected] } :=
  ⟨rfl, rfl,
   ((C22_cancel Scenario.placing Scenario.plainCancel [] rfl).1 7 rfl).1,
   ((C22_cancel Scenario.placing Scenario.plainCancel [] rfl).1 7 rfl).2.2.2.1,
   by decide⟩

end PCB_EDITOR_CONTROL

end KiCad
